import Mathlib

/-
Verification development for the chess3 engine.

Modeling conventions (shallow embedding of the Rust source):
- `u64` bitboards are `Nat`, reduced `% 2 ^ 64` exactly where Rust's shift
  semantics discard high bits; `u8` bytes are `Nat` reduced `% 256`.
- `i8` quantities (coordinates, scores, material) are `Int`; the source never
  lets them leave the i8 range on well-formed boards, so no wrapping is applied.
- `f32` search/evaluation values are modeled as exact rationals `ℚ`.  All float
  operations on the modeled paths are additions, multiplications, divisions and
  comparisons of small exact quantities; `f32::MIN` / `f32::MAX` are the exact
  extreme finite f32 values.
- Rust panics (fixed-array index out of bounds) are modeled by `Option`
  results, `none` meaning the operation does not return normally.
- The wall clock read `start_instant.elapsed() > *timeout_duration` is modeled
  by an oracle `clock : Nat → Bool` together with a read counter threaded
  through the search in call order: the k-th clock read observes `clock k`.
-/

namespace Chess

/-! ### Bit primitives (`bitboard_manipulation.rs`) -/

/-- Isolates a byte in a 64 bit number (byte 0 = least significant 8 bits). -/
def isolate_byte (num : Nat) (isolate : Nat) : Nat :=
  (num >>> (isolate * 8)) % 256

/-- Shifts a u64; negative shift is a left shift (wrapping like Rust `<<`),
positive is a right shift. -/
def shift_u64 (num_to_shift : Nat) (shift : Int) : Nat :=
  if shift < 0 then (num_to_shift <<< shift.natAbs) % 2 ^ 64
  else num_to_shift >>> shift.toNat

/-- Per-byte shift: each byte lane shifts independently, no carry between
bytes.  Negative = left, positive = right, as in the source. -/
def shift_bytes (num : Nat) (shift : Int) : Nat :=
  (List.range 8).foldl
    (fun output i =>
      let current_byte := isolate_byte num i
      let new_byte :=
        if shift < 0 then (current_byte <<< shift.natAbs) % 256
        else current_byte >>> shift.toNat
      output ||| (new_byte <<< (i * 8)))
    0

/-- Return true if a specified bit is on in a number. -/
def bit_on (num : Nat) (bit : Nat) : Bool :=
  num.testBit bit

/-- Returns a tuple containing the pieces column and row: `(bit % 8, bit / 8)`. -/
def get_piece_coordinates (piece_bit : Nat) : Int × Int :=
  ((piece_bit % 8 : Nat), (piece_bit / 8 : Nat))

/-- Get piece bit from coordinates: `row * 8 + column`. -/
def get_piece_bit (piece_coordinates : Int × Int) : Int :=
  piece_coordinates.2 * 8 + piece_coordinates.1

/-- Count of trailing zero bits, clamped at `fuel` (so a zero input yields
exactly `fuel`, matching the fixed-width `trailing_zeros` intrinsics). -/
def trailing_zeros_fuel (fuel b : Nat) : Nat :=
  match fuel with
  | 0 => 0
  | fuel + 1 => if b % 2 = 1 then 0 else trailing_zeros_fuel fuel (b / 2) + 1

/-- `u8::trailing_zeros`: index of the lowest set bit of a byte, 8 if zero. -/
def u8_trailing_zeros (b : Nat) : Nat :=
  trailing_zeros_fuel 8 b

/-- `u64::trailing_zeros`: index of the lowest set bit, 64 if zero. -/
def u64_trailing_zeros (b : Nat) : Nat :=
  trailing_zeros_fuel 64 b

/-- Number of binary digits of `b`, clamped at `fuel`. -/
def bit_length_fuel (fuel b : Nat) : Nat :=
  match fuel with
  | 0 => 0
  | fuel + 1 => if b = 0 then 0 else bit_length_fuel fuel (b / 2) + 1

/-- `u64::leading_zeros`: number of leading zero bits, 64 if zero. -/
def u64_leading_zeros (b : Nat) : Nat :=
  64 - bit_length_fuel 64 b

/-! ### Direction templates (`direction_bitboards.rs`) -/

/-- How a direction bitboard must be shifted to the location of a piece. -/
inductive ShiftType where
  | Standard
  | Byte
  | Diagonal
  | Both
deriving DecidableEq, Repr

/-- A direction bitboard and information about how to shift it to a piece. -/
structure DirectionBitboard where
  bitboard : Nat
  origin_bit : Nat
  shift_type : ShiftType
deriving DecidableEq, Repr

/-- A diagonal line from the bottom left of the board to the top right. -/
def DIAGONAL_RIGHT : DirectionBitboard :=
  { bitboard := 0b1000000001000000001000000001000000001000000001000000001000000001
    origin_bit := 36
    shift_type := ShiftType.Diagonal }

/-- A diagonal line from the top left of the board to the bottom right. -/
def DIAGONAL_LEFT : DirectionBitboard :=
  { bitboard := 0b0000000100000010000001000000100000010000001000000100000010000000
    origin_bit := 35
    shift_type := ShiftType.Diagonal }

/-- Vertical line in column 7. -/
def VERTICAL_LINE : DirectionBitboard :=
  { bitboard := 0b1000000010000000100000001000000010000000100000001000000010000000
    origin_bit := 31
    shift_type := ShiftType.Byte }

/-- Horizontal line in row 7. -/
def HORIZONTAL_LINE : DirectionBitboard :=
  { bitboard := 0b1111111100000000000000000000000000000000000000000000000000000000
    origin_bit := 60
    shift_type := ShiftType.Standard }

/-- Knight step pattern. -/
def KNIGHT_MOVES : DirectionBitboard :=
  { bitboard := 0b0000000000101000010001000000000001000100001010000000000000000000
    origin_bit := 36
    shift_type := ShiftType.Both }

/-- King step pattern. -/
def KING_MOVES : DirectionBitboard :=
  { bitboard := 0b0000000000000000001110000010100000111000000000000000000000000000
    origin_bit := 36
    shift_type := ShiftType.Both }

/-- White pawn single forward step. -/
def WHITE_PAWN_MOVES : DirectionBitboard :=
  { bitboard := 0b0000000000000000000000000000000000010000000000000000000000000000
    origin_bit := 36
    shift_type := ShiftType.Both }

/-- White pawn capture steps. -/
def WHITE_PAWN_CAPTURE_MOVES : DirectionBitboard :=
  { bitboard := 0b0000000000000000000000000000000000101000000000000000000000000000
    origin_bit := 36
    shift_type := ShiftType.Both }

/-- Black pawn single forward step. -/
def BLACK_PAWN_MOVES : DirectionBitboard :=
  { bitboard := 0b0000000000000000000100000000000000000000000000000000000000000000
    origin_bit := 36
    shift_type := ShiftType.Both }

/-- Black pawn capture steps. -/
def BLACK_PAWN_CAPTURE_MOVES : DirectionBitboard :=
  { bitboard := 0b0000000000000000001010000000000000000000000000000000000000000000
    origin_bit := 36
    shift_type := ShiftType.Both }

/-- White pawn double step pattern (valid only on the starting square). -/
def WHITE_PAWN_DOUBLE_MOVES : DirectionBitboard :=
  { bitboard := 0b0000000000000000000000010000000100000000000000000000000000000000
    origin_bit := 48
    shift_type := ShiftType.Both }

/-- Black pawn double step pattern (valid only on the starting square). -/
def BLACK_PAWN_DOUBLE_MOVES : DirectionBitboard :=
  { bitboard := 0b0000000000000000000000000000000000000001000000010000000000000000
    origin_bit := 8
    shift_type := ShiftType.Both }

/-- The six capture-capable direction templates used by check detection. -/
def ALL_CAPTURE_BITBOARDS : List DirectionBitboard :=
  [DIAGONAL_RIGHT, DIAGONAL_LEFT, VERTICAL_LINE, HORIZONTAL_LINE, KNIGHT_MOVES, KING_MOVES]

/-- Shifts a direction bitboard so that it is aligned with a piece at
`piece_coordinates` (`shift_direction_bitboard` in the source). -/
def shift_direction_bitboard (piece_bit : Nat) (piece_coordinates : Int × Int)
    (direction_bitboard : DirectionBitboard) : Nat :=
  let origin_coordinates := get_piece_coordinates direction_bitboard.origin_bit
  if origin_coordinates = piece_coordinates then direction_bitboard.bitboard
  else
    let dx := origin_coordinates.1 - piece_coordinates.1
    let dy := origin_coordinates.2 - piece_coordinates.2
    match direction_bitboard.shift_type with
    | ShiftType.Standard => shift_u64 direction_bitboard.bitboard (dy * 8)
    | ShiftType.Byte => shift_bytes direction_bitboard.bitboard dx
    | ShiftType.Both => shift_bytes (shift_u64 direction_bitboard.bitboard (dy * 8)) dx
    | ShiftType.Diagonal =>
      let piece_row := piece_coordinates.2.toNat
      let direction_bitboard_row_byte := isolate_byte direction_bitboard.bitboard piece_row
      let piece_position_bitboard_row_byte := isolate_byte (1 <<< piece_bit) piece_row
      let dxd : Int := (u8_trailing_zeros piece_position_bitboard_row_byte : Int) -
        (u8_trailing_zeros direction_bitboard_row_byte : Int)
      shift_bytes direction_bitboard.bitboard (-dxd)

/-! ### Slider blocker resolution (`bitboard_manipulation.rs`) -/

/-- Remove floating ends of a masked vertical move bitboard, walking outwards
from `piece_row` in one direction.  Returns the new bitboard and the row at
which the walk stopped.  The recursion is structural on a fuel argument so
that it computes inside the kernel; the walk moves one row per step and
returns immediately outside rows 0..7, so it makes at most nine nested calls
and the fuel of 10 supplied by `remove_move_end_vertical` is never
exhausted. -/
def remove_move_end_vertical_fuel : Nat → Int → Nat → Nat → Bool → Nat × Option Int
  | 0, _, _, _, _ => (0, none)
  | fuel + 1, piece_row, move_bitboard, masked_bitboard, check_up =>
    if piece_row > 7 ∨ piece_row < 0 then (0, none)
    else
      let move_byte := isolate_byte move_bitboard piece_row.toNat
      let mask_byte := isolate_byte masked_bitboard piece_row.toNat
      if move_byte = mask_byte then
        let next_output :=
          match check_up with
          | true => remove_move_end_vertical_fuel fuel (piece_row + 1) move_bitboard
              masked_bitboard true
          | false => remove_move_end_vertical_fuel fuel (piece_row - 1) move_bitboard
              masked_bitboard false
        ((mask_byte <<< (piece_row.toNat * 8)) ||| next_output.1, next_output.2)
      else (0, some piece_row)

/-- `remove_move_end_vertical` from the source, with enough fuel for any
starting row. -/
def remove_move_end_vertical (piece_row : Int) (move_bitboard masked_bitboard : Nat)
    (check_up : Bool) : Nat × Option Int :=
  remove_move_end_vertical_fuel 10 piece_row move_bitboard masked_bitboard check_up

/-- Remove floating ends of a byte, walking outwards from `bit` in one
direction.  Returns the new byte and the bit at which the walk stopped.
Structural on fuel for the same reason as `remove_move_end_vertical_fuel`. -/
def remove_byte_ends_fuel : Nat → Int → Nat → Bool → Nat × Option Int
  | 0, _, _, _ => (0, none)
  | fuel + 1, bit, test_byte, check_up =>
    if bit > 7 ∨ bit < 0 then (0, none)
    else
      if bit_on test_byte bit.toNat then
        let next_output :=
          match check_up with
          | true => remove_byte_ends_fuel fuel (bit + 1) test_byte true
          | false => remove_byte_ends_fuel fuel (bit - 1) test_byte false
        ((1 <<< bit.toNat) ||| next_output.1, next_output.2)
      else (0, some bit)

/-- `remove_byte_ends` from the source, with enough fuel for any starting
bit. -/
def remove_byte_ends (bit : Int) (test_byte : Nat) (check_up : Bool) : Nat × Option Int :=
  remove_byte_ends_fuel 10 bit test_byte check_up

/-- Get the column of an intercept bit (trailing zeros of the isolated row
byte of the intercept bitboard). -/
def get_column_from_row (row : Option Int) (intercept_bitboard : Nat) : Option Int :=
  match row with
  | some r => some ((u8_trailing_zeros (isolate_byte intercept_bitboard r.toNat) : Int))
  | none => none

/-- A shortcut function to use in `fix_move_bitboard`. -/
def get_piece_bit_option (piece_column piece_row : Option Int) : Option Int :=
  match piece_column, piece_row with
  | some c, some r => some (get_piece_bit (c, r))
  | _, _ => none

/-- Remove invalid move positions from bitboards which define movement in a
single direction; returns the fixed bitboard and the first intersecting bits
in each direction. -/
def fix_move_bitboard (piece_coordinates : Int × Int)
    (direction_bitboard move_bitboard masked_bitboard : Nat) :
    Nat × (Option Int × Option Int) :=
  if move_bitboard = masked_bitboard then (masked_bitboard, (none, none))
  else
    let piece_column := piece_coordinates.1
    let piece_row := piece_coordinates.2
    if direction_bitboard ≠ HORIZONTAL_LINE.bitboard then
      let fix_bitboard_lower := remove_move_end_vertical (piece_row - 1) move_bitboard masked_bitboard false
      let fix_bitboard_upper := remove_move_end_vertical (piece_row + 1) move_bitboard masked_bitboard true
      let intercept_bitboard := move_bitboard ^^^ masked_bitboard
      let intercept_bits :=
        (get_piece_bit_option (get_column_from_row fix_bitboard_lower.2 intercept_bitboard) fix_bitboard_lower.2,
         get_piece_bit_option (get_column_from_row fix_bitboard_upper.2 intercept_bitboard) fix_bitboard_upper.2)
      (fix_bitboard_lower.1 ||| fix_bitboard_upper.1, intercept_bits)
    else
      let move_mask_byte := isolate_byte masked_bitboard piece_row.toNat
      let fix_byte_lower := remove_byte_ends (piece_column - 1) move_mask_byte false
      let fix_byte_upper := remove_byte_ends (piece_column + 1) move_mask_byte true
      let intercept_bits :=
        (get_piece_bit_option fix_byte_lower.2 (some piece_row),
         get_piece_bit_option fix_byte_upper.2 (some piece_row))
      ((fix_byte_lower.1 ||| fix_byte_upper.1) <<< (piece_row.toNat * 8), intercept_bits)

/-! ### Fixed-capacity vector (`fixed_vecor.rs`) -/

/-- Similar behaviour to a vector, but the underlying data type is a fixed
sized array of capacity `L` (a list of length `L` in the model). -/
structure FixedVector (α : Type) (L : Nat) where
  internal_array : List α
  length : Nat
deriving DecidableEq, Repr

/-- New fixed vector filled with the placeholder value. -/
def FixedVector.new {α : Type} {L : Nat} (placeholder_value : α) : FixedVector α L :=
  { internal_array := List.replicate L placeholder_value, length := 0 }

/-- Length of a fixed vector. -/
def FixedVector.len {α : Type} {L : Nat} (v : FixedVector α L) : Nat :=
  v.length

/-- Push onto a fixed vector.  The source writes `internal_array[length]` and
increments `length`; when the vector is full the index is out of bounds and
Rust panics, modeled as `none`. -/
def FixedVector.push {α : Type} {L : Nat} (v : FixedVector α L) (data : α) :
    Option (FixedVector α L) :=
  if v.length < L then
    some { internal_array := v.internal_array.set v.length data, length := v.length + 1 }
  else none

/-- Read `internal_array[i]` (in-bounds accesses in the source; out-of-bounds
reads never occur on the modeled paths). -/
def FixedVector.get_at {α : Type} {L : Nat} (v : FixedVector α L) (i : Nat) (dflt : α) : α :=
  v.internal_array.getD i dflt

/-! ### Bit enumeration (`bits_on` in `bitboard_manipulation.rs`) -/

/-- Loop body of `bits_on`: scan trailing zeros, push set-bit indices while
the loop guard `bits_counted < 64 && len < L` holds.  Each iteration
strictly increases `bits_counted`, so 64 units of fuel are exact.  The
`none` push branch is unreachable because the guard ensures `len < L`. -/
def bits_on_loop {L : Nat} (fuel : Nat) (num : Nat) (bits_counted : Nat)
    (v : FixedVector Nat L) : FixedVector Nat L :=
  match fuel with
  | 0 => v
  | fuel + 1 =>
    if bits_counted < 64 ∧ v.length < L then
      let trailing_zeros := u64_trailing_zeros num
      if num = 0 then v
      else if trailing_zeros > 0 then
        bits_on_loop fuel (num >>> trailing_zeros) (bits_counted + trailing_zeros) v
      else
        match v.push bits_counted with
        | some v2 => bits_on_loop fuel (num >>> 1) (bits_counted + 1) v2
        | none => v
    else v

/-- Returns a vector containing the bits that are on in a u64 number. -/
def bits_on {L : Nat} (num : Nat) (placeholder_num : Nat) : FixedVector Nat L :=
  bits_on_loop 64 num 0 (FixedVector.new placeholder_num)

/-- The populated prefix of a fixed vector (the elements the source's loops
iterate over: `internal_array[0..length]`). -/
def FixedVector.entries {α : Type} {L : Nat} (v : FixedVector α L) : List α :=
  v.internal_array.take v.length

/-- Number of set bits, clamped at `fuel` halving steps (exact for
`b < 2 ^ fuel`). -/
def popcount_fuel (fuel b : Nat) : Nat :=
  match fuel with
  | 0 => 0
  | fuel + 1 => if b = 0 then 0 else popcount_fuel fuel (b / 2) + b % 2

/-! ### Piece information (`pieces.rs`) -/

def KING_ID : Nat := 6

def PAWN_ID : Nat := 1

/-- Material value, sliding flag and direction templates of one piece kind. -/
structure PieceInformation where
  piece_value : Int
  is_sliding : Bool
  move_directions : Nat
  direction_bitboards : List (Option DirectionBitboard)
  pawn_capture_bitboard : Option DirectionBitboard
  pawn_double_move_bitboard : Option DirectionBitboard
deriving DecidableEq, Repr

def GENERIC_KNIGHT : PieceInformation :=
  { piece_value := 3
    is_sliding := false
    move_directions := 1
    direction_bitboards := [some KING_MOVES, none, none, none]
    pawn_capture_bitboard := none
    pawn_double_move_bitboard := none }

def GENERIC_BISHOP : PieceInformation :=
  { piece_value := 3
    is_sliding := true
    move_directions := 2
    direction_bitboards := [some DIAGONAL_LEFT, some DIAGONAL_RIGHT, none, none]
    pawn_capture_bitboard := none
    pawn_double_move_bitboard := none }

def GENERIC_ROOK : PieceInformation :=
  { piece_value := 5
    is_sliding := true
    move_directions := 2
    direction_bitboards := [some HORIZONTAL_LINE, some VERTICAL_LINE, none, none]
    pawn_capture_bitboard := none
    pawn_double_move_bitboard := none }

def GENERIC_QUEEN : PieceInformation :=
  { piece_value := 9
    is_sliding := true
    move_directions := 4
    direction_bitboards := [some DIAGONAL_LEFT, some DIAGONAL_RIGHT, some HORIZONTAL_LINE, some VERTICAL_LINE]
    pawn_capture_bitboard := none
    pawn_double_move_bitboard := none }

def GENERIC_KING : PieceInformation :=
  { piece_value := 0
    is_sliding := false
    move_directions := 1
    direction_bitboards := [some KING_MOVES, none, none, none]
    pawn_capture_bitboard := none
    pawn_double_move_bitboard := none }

def BLACK_PAWN_INFORMATION : PieceInformation :=
  { piece_value := 1
    is_sliding := false
    move_directions := 1
    direction_bitboards := [some BLACK_PAWN_MOVES, none, none, none]
    pawn_capture_bitboard := some BLACK_PAWN_CAPTURE_MOVES
    pawn_double_move_bitboard := some BLACK_PAWN_DOUBLE_MOVES }

def WHITE_PAWN_INFORMATION : PieceInformation :=
  { piece_value := 1
    is_sliding := false
    move_directions := 1
    direction_bitboards := [some WHITE_PAWN_MOVES, none, none, none]
    pawn_capture_bitboard := some WHITE_PAWN_CAPTURE_MOVES
    pawn_double_move_bitboard := some WHITE_PAWN_DOUBLE_MOVES }

/-- Black piece information array, indexed by piece id (0 is a placeholder). -/
def BLACK_PIECE_INFORMATION : List PieceInformation :=
  [GENERIC_KING, BLACK_PAWN_INFORMATION, GENERIC_KNIGHT, GENERIC_BISHOP,
   GENERIC_ROOK, GENERIC_QUEEN, GENERIC_KING]

/-- White piece information array, indexed by piece id (0 is a placeholder). -/
def WHITE_PIECE_INFORMATION : List PieceInformation :=
  [GENERIC_KING, WHITE_PAWN_INFORMATION, GENERIC_KNIGHT, GENERIC_BISHOP,
   GENERIC_ROOK, GENERIC_QUEEN, GENERIC_KING]

/-- Index a piece information array by piece id.  The source indexes the
7-element array directly and panics for id ≥ 7 (which never happens on
well-formed boards); the model returns the index-0 placeholder there. -/
def piece_information_get (arr : List PieceInformation) (piece_id : Nat) : PieceInformation :=
  arr.getD piece_id GENERIC_KING

/-! ### Board model (`board_representation.rs`) -/

/-- One team's three piece bitboards (the Rust `[u64; 3]`, unrolled).  For any
square s the 3-bit number built from the three boards at s is the piece id. -/
structure TeamBoard where
  w0 : Nat
  w1 : Nat
  w2 : Nat
deriving DecidableEq, Repr

/-- Union of a team board's three bitboards: the squares the team occupies. -/
def TeamBoard.occupancy (tb : TeamBoard) : Nat :=
  tb.w0 ||| tb.w1 ||| tb.w2

def STARTING_WHITE_BOARD : TeamBoard :=
  { w0 := 3818771009033469952, w1 := 7926335344172072960, w2 := 11024811887802974208 }

def STARTING_BLACK_BOARD : TeamBoard :=
  { w0 := 65332, w1 := 110, w2 := 153 }

def TEAM_MATERIAL_VALUE : Int := 39

inductive PieceColor where
  | White
  | Black
deriving DecidableEq, Repr

structure CastlingAvailability where
  w_ks : Bool
  w_qs : Bool
  b_ks : Bool
  b_qs : Bool
deriving DecidableEq, Repr

def CastlingAvailability.new (common_state : Bool) : CastlingAvailability :=
  { w_ks := common_state, w_qs := common_state, b_ks := common_state, b_qs := common_state }

/-- The board value type. -/
structure Board where
  white_board : TeamBoard
  black_board : TeamBoard
  white_king_bit : Nat
  black_king_bit : Nat
  piece_to_move : PieceColor
  en_passant_target_bit : Option Nat
  castling_availability : CastlingAvailability
  white_material : Int
  black_material : Int
  halfmove_clock : Int
  fullmove_number : Int
deriving DecidableEq, Repr

/-- Create new board with the starting position. -/
def Board.new : Board :=
  { white_board := STARTING_WHITE_BOARD
    black_board := STARTING_BLACK_BOARD
    white_king_bit := 59
    black_king_bit := 3
    piece_to_move := PieceColor.White
    en_passant_target_bit := none
    castling_availability := CastlingAvailability.new true
    white_material := TEAM_MATERIAL_VALUE
    black_material := TEAM_MATERIAL_VALUE
    halfmove_clock := 0
    fullmove_number := 1 }

/-- Create new empty board. -/
def Board.empty : Board :=
  { white_board := { w0 := 0, w1 := 0, w2 := 0 }
    black_board := { w0 := 0, w1 := 0, w2 := 0 }
    white_king_bit := 0
    black_king_bit := 0
    piece_to_move := PieceColor.White
    en_passant_target_bit := none
    castling_availability := CastlingAvailability.new false
    white_material := 0
    black_material := 0
    halfmove_clock := 0
    fullmove_number := 1 }

/-- Boards from the perspective of the team whose turn it is to move. -/
structure PerspectiveBoards where
  friendly_board : TeamBoard
  enemy_board : TeamBoard
  friendly_starting_board : TeamBoard
  friendly_piece_information : List PieceInformation
  enemy_team_color : PieceColor
deriving DecidableEq, Repr

/-- Generate perspective boards for the given colour. -/
def PerspectiveBoards.gen (board : Board) (from_persecpective : PieceColor) : PerspectiveBoards :=
  match from_persecpective with
  | PieceColor.Black =>
    { friendly_board := board.black_board
      enemy_board := board.white_board
      friendly_starting_board := STARTING_BLACK_BOARD
      friendly_piece_information := BLACK_PIECE_INFORMATION
      enemy_team_color := PieceColor.White }
  | PieceColor.White =>
    { friendly_board := board.white_board
      enemy_board := board.black_board
      friendly_starting_board := STARTING_WHITE_BOARD
      friendly_piece_information := WHITE_PIECE_INFORMATION
      enemy_team_color := PieceColor.Black }

/-- Generates friendly and enemy position bitboards. -/
def PerspectiveBoards.gen_bitboards (pb : PerspectiveBoards) : Nat × Nat :=
  (pb.friendly_board.w0 ||| pb.friendly_board.w1 ||| pb.friendly_board.w2,
   pb.enemy_board.w0 ||| pb.enemy_board.w1 ||| pb.enemy_board.w2)

/-- Reads a piece id from a team board given a bit (the Rust loop over the
three bitboards, unrolled). -/
def read_piece_id (team_board : TeamBoard) (piece_bit : Nat) : Nat :=
  ((if bit_on team_board.w0 piece_bit then 1 else 0) |||
   (if bit_on team_board.w1 piece_bit then 2 else 0)) |||
  (if bit_on team_board.w2 piece_bit then 4 else 0)

/-- Insert piece in a team board (sets the id's bits at the square). -/
def insert_piece (piece_bit : Nat) (piece_id : Nat) (half_board : TeamBoard) : TeamBoard :=
  { w0 := if bit_on piece_id 0 then half_board.w0 ||| (1 <<< piece_bit) else half_board.w0
    w1 := if bit_on piece_id 1 then half_board.w1 ||| (1 <<< piece_bit) else half_board.w1
    w2 := if bit_on piece_id 2 then half_board.w2 ||| (1 <<< piece_bit) else half_board.w2 }

/-- Removes a piece from a team board (clears any set bits at the square). -/
def remove_piece (piece_bit : Nat) (half_board : TeamBoard) : TeamBoard :=
  { w0 := if bit_on half_board.w0 piece_bit then half_board.w0 ^^^ (1 <<< piece_bit) else half_board.w0
    w1 := if bit_on half_board.w1 piece_bit then half_board.w1 ^^^ (1 <<< piece_bit) else half_board.w1
    w2 := if bit_on half_board.w2 piece_bit then half_board.w2 ^^^ (1 <<< piece_bit) else half_board.w2 }

/-! ### En passant (`en_passant.rs`) -/

/-- Calculate en-passant move bit from en-passant target bit.  Rust computes
`target - 8` / `target + 8` on u8; on the modeled boards the target stays in
range, so plain Nat arithmetic is used (`-` truncates at zero like the
debug-mode panic boundary). -/
def calc_ep_move_bit (en_passant_target_bit : Nat) (piece_color : PieceColor) : Nat :=
  match piece_color with
  | PieceColor.White => en_passant_target_bit - 8
  | PieceColor.Black => en_passant_target_bit + 8

/-- Returns en passant capture bit and move bit if an en passant move is
available.  Note the adjacency test is on raw square indices and the landing
direction uses `board.piece_to_move`, exactly as in the source. -/
def get_en_passant_capture (board : Board) (friendly_board enemy_board : TeamBoard)
    (piece_bit : Nat) : Option (Nat × Nat) :=
  if read_piece_id friendly_board piece_bit ≠ PAWN_ID then none
  else
    match board.en_passant_target_bit with
    | none => none
    | some en_passant_target_bit =>
      if ((piece_bit : Int) - (en_passant_target_bit : Int)).natAbs > 1 then none
      else if read_piece_id enemy_board en_passant_target_bit = PAWN_ID then
        let ep_move_bit := calc_ep_move_bit en_passant_target_bit board.piece_to_move
        let friendly_move_bit_id := read_piece_id friendly_board ep_move_bit
        let enemy_move_bit_id := read_piece_id enemy_board ep_move_bit
        if friendly_move_bit_id + enemy_move_bit_id = 0 then
          some (en_passant_target_bit, ep_move_bit)
        else none
      else none

/-! ### Move generation (`move_generation.rs`) -/

/-- Calculate en-passant target bit given a pawns shifted double move
bitboard and color. -/
def calc_ep_target_bit (move_bitboard : Nat) (piece_color : PieceColor) : Nat :=
  match piece_color with
  | PieceColor.White => u64_trailing_zeros move_bitboard
  | PieceColor.Black => 63 - u64_leading_zeros move_bitboard

/-- Calculates move bitboard and intercept bitboards from a direction
bitboard: (move, friendly intercepts, enemy intercepts, unintercepted). -/
def calc_move_bitboards (piece_bit : Nat) (piece_coordinates : Int × Int)
    (direction_bitboard : DirectionBitboard) (friendly_bitboard enemy_bitboard : Nat) :
    Nat × Nat × Nat × Nat :=
  let move_bitboard := shift_direction_bitboard piece_bit piece_coordinates direction_bitboard
  let friendly_mbb_intercepts := move_bitboard &&& friendly_bitboard
  let enemy_mbb_intercepts := move_bitboard &&& enemy_bitboard
  let intercepted_mbb := move_bitboard ^^^ (friendly_mbb_intercepts ||| enemy_mbb_intercepts)
  (move_bitboard, friendly_mbb_intercepts, enemy_mbb_intercepts, intercepted_mbb)

/-- Contribution of one direction template to the output move bitboard
(the body of the `for i in 0..move_directions` loop in `generate_moves`). -/
def generate_moves_direction (piece_bit : Nat) (piece_coordinates : Int × Int)
    (piece_information : PieceInformation) (friendly_bitboard enemy_bitboard : Nat)
    (direction_bitboard : DirectionBitboard) : Nat :=
  let calcd := calc_move_bitboards piece_bit piece_coordinates direction_bitboard
    friendly_bitboard enemy_bitboard
  let move_bitboard := calcd.1
  let friendly_mbb_intercepts := calcd.2.1
  let intercepted_mbb := calcd.2.2.2
  if ¬ piece_information.is_sliding then
    if piece_information.pawn_capture_bitboard = none then
      move_bitboard ^^^ friendly_mbb_intercepts
    else
      let capture_bitboard :=
        match piece_information.pawn_capture_bitboard with
        | some cb => shift_direction_bitboard piece_bit piece_coordinates cb
        | none => 0
      intercepted_mbb ||| (enemy_bitboard &&& capture_bitboard)
  else
    let fixed := fix_move_bitboard piece_coordinates direction_bitboard.bitboard
      move_bitboard intercepted_mbb
    let fixed_bitboard := fixed.1
    let first_intersecting_bits := fixed.2
    let cutoff_bitboard :=
      (match first_intersecting_bits.1 with
       | some intersecting_bit => 1 <<< intersecting_bit.toNat
       | none => 0) |||
      (match first_intersecting_bits.2 with
       | some intersecting_bit => 1 <<< intersecting_bit.toNat
       | none => 0)
    fixed_bitboard ||| (enemy_bitboard &&& cutoff_bitboard)

/-- Generates possible moves for a piece in the form of a bitboard, together
with the en passant target bit (if a pawn double move is part of the result)
and the en passant capture and move bits (if the pawn can capture en passant).
Only considers collisions with pieces; does not care about check. -/
def generate_moves (board : Board) (piece_bit : Nat) (piece_id : Nat)
    (piece_color : PieceColor) (perspective_boards : PerspectiveBoards) :
    Nat × Option Nat × Option (Nat × Nat) :=
  let piece_coordinates := get_piece_coordinates piece_bit
  let piece_information := piece_information_get
    perspective_boards.friendly_piece_information piece_id
  let bitboards := perspective_boards.gen_bitboards
  let friendly_bitboard := bitboards.1
  let enemy_bitboard := bitboards.2
  -- Pawn double move: only from the starting position, only if unobstructed.
  let double_state : Nat × Option Nat :=
    match piece_information.pawn_double_move_bitboard with
    | none => (0, none)
    | some direction_bitboard =>
      if piece_id = read_piece_id perspective_boards.friendly_starting_board piece_bit then
        let calcd := calc_move_bitboards piece_bit piece_coordinates direction_bitboard
          friendly_bitboard enemy_bitboard
        let move_bitboard := calcd.1
        let intercepted_mbb := calcd.2.2.2
        if intercepted_mbb = move_bitboard then
          (move_bitboard, some (calc_ep_target_bit move_bitboard piece_color))
        else (0, none)
      else (0, none)
  let en_passant_target_bit := double_state.2
  -- All piece move directions.
  let direction_contribution :=
    (List.range piece_information.move_directions).foldl
      (fun acc i =>
        match piece_information.direction_bitboards.getD i none with
        | some direction_bitboard =>
          acc ||| generate_moves_direction piece_bit piece_coordinates piece_information
            friendly_bitboard enemy_bitboard direction_bitboard
        | none => acc)
      0
  -- En passant capture.
  let en_passant_cap_bits := get_en_passant_capture board
    perspective_boards.friendly_board perspective_boards.enemy_board piece_bit
  let ep_contribution :=
    match en_passant_cap_bits with
    | some cap_bits => 1 <<< cap_bits.2
    | none => 0
  ((double_state.1 ||| direction_contribution) ||| ep_contribution,
   en_passant_target_bit, en_passant_cap_bits)

/-! ### Check detection (`check_validation.rs`) -/

def FIXED_VECTOR_PLACEHOLDER_VALUE : Nat := 255

/-- Maximum number of pieces that can potentially be putting the king in check. -/
def MAX_CHECKING_PIECES : Nat := 16

/-- Union of the six capture templates aligned at the king, intersected with
the enemy occupancy: the bitboard of potential checkers. -/
def potential_checking_pieces_bitboard (board : Board) (king_color : PieceColor) : Nat :=
  let pair :=
    match king_color with
    | PieceColor.Black => (board.white_board, board.black_king_bit)
    | PieceColor.White => (board.black_board, board.white_king_bit)
  let enemy_board := pair.1
  let king_bit := pair.2
  let enemy_bitboard := enemy_board.w0 ||| enemy_board.w1 ||| enemy_board.w2
  let king_coordinates := get_piece_coordinates king_bit
  ALL_CAPTURE_BITBOARDS.foldl
    (fun acc direction_bitboard =>
      acc ||| (shift_direction_bitboard king_bit king_coordinates direction_bitboard &&& enemy_bitboard))
    0

/-- Returns a vector of pieces which could potentially be putting the king in
check. -/
def get_potential_checking_pieces (board : Board) (king_color : PieceColor) :
    FixedVector Nat MAX_CHECKING_PIECES :=
  bits_on (potential_checking_pieces_bitboard board king_color) FIXED_VECTOR_PLACEHOLDER_VALUE

/-- Loop body of `is_king_in_check` over the populated prefix of the
potential-checkers vector. -/
def is_king_in_check_loop (board : Board) (enemy_color : PieceColor) (king_bit : Nat) :
    List Nat → Bool
  | [] => false
  | potential_checking_piece_bit :: rest =>
    if potential_checking_piece_bit ≠ FIXED_VECTOR_PLACEHOLDER_VALUE then
      let enemy_persepective_boards := PerspectiveBoards.gen board enemy_color
      let enemy_piece_id := read_piece_id enemy_persepective_boards.friendly_board
        potential_checking_piece_bit
      let enemy_piece_moves := (generate_moves board potential_checking_piece_bit
        enemy_piece_id enemy_color enemy_persepective_boards).1
      if bit_on enemy_piece_moves king_bit then true
      else is_king_in_check_loop board enemy_color king_bit rest
    else is_king_in_check_loop board enemy_color king_bit rest

/-- Returns true if the king is in check: some potential checker's generated
move bitboard contains the king square. -/
def is_king_in_check (board : Board) (king_color : PieceColor)
    (potential_checking_pieces : FixedVector Nat MAX_CHECKING_PIECES) : Bool :=
  let pair :=
    match king_color with
    | PieceColor.Black => (PieceColor.White, board.black_king_bit)
    | PieceColor.White => (PieceColor.Black, board.white_king_bit)
  is_king_in_check_loop board pair.1 pair.2
    (potential_checking_pieces.internal_array.take potential_checking_pieces.length)

/-! ### Attack envelopes and check-detection helpers (for the C5 analysis) -/

/-- All direction templates that can appear in a piece's move generation:
the six capture templates plus the pawn-specific move, capture and double
templates. -/
def ATTACK_TEMPLATES : List DirectionBitboard :=
  [DIAGONAL_RIGHT, DIAGONAL_LEFT, VERTICAL_LINE, HORIZONTAL_LINE, KNIGHT_MOVES, KING_MOVES,
   WHITE_PAWN_MOVES, WHITE_PAWN_CAPTURE_MOVES, BLACK_PAWN_MOVES, BLACK_PAWN_CAPTURE_MOVES,
   WHITE_PAWN_DOUBLE_MOVES, BLACK_PAWN_DOUBLE_MOVES]

/-- Union of all attack templates aligned at a square: an over-approximation
of the squares any piece standing there could reach. -/
def attack_envelope (piece_bit : Nat) : Nat :=
  ATTACK_TEMPLATES.foldl
    (fun acc t => acc ||| shift_direction_bitboard piece_bit (get_piece_coordinates piece_bit) t) 0

/-- Union of the six capture templates aligned at the king's square (the
template part of `potential_checking_pieces_bitboard`, before intersecting
with the enemy occupancy). -/
def king_envelope (king_bit : Nat) : Nat :=
  ALL_CAPTURE_BITBOARDS.foldl
    (fun acc t => acc ||| shift_direction_bitboard king_bit (get_piece_coordinates king_bit) t) 0

/-- The king square selected by check detection for a colour. -/
def king_square (board : Board) (king_color : PieceColor) : Nat :=
  match king_color with
  | PieceColor.Black => board.black_king_bit
  | PieceColor.White => board.white_king_bit

/-- The team board of the side attacking the given king. -/
def enemy_team_board (board : Board) (king_color : PieceColor) : TeamBoard :=
  match king_color with
  | PieceColor.Black => board.white_board
  | PieceColor.White => board.black_board

/-- The king side's own team board. -/
def own_team_board (board : Board) (king_color : PieceColor) : TeamBoard :=
  match king_color with
  | PieceColor.Black => board.black_board
  | PieceColor.White => board.white_board

/-- The colour opposite to the given one. -/
def opposite_color (king_color : PieceColor) : PieceColor :=
  match king_color with
  | PieceColor.Black => PieceColor.White
  | PieceColor.White => PieceColor.Black

/-- An enemy piece on square s attacks the king: its generated move bitboard
(with the id read from its own team board, as check detection does) contains
the king's square. -/
def attacks_king (board : Board) (king_color : PieceColor) (s : Nat) : Bool :=
  bit_on (generate_moves board s
    (read_piece_id (enemy_team_board board king_color) s)
    (opposite_color king_color)
    (PerspectiveBoards.gen board (opposite_color king_color))).1
    (king_square board king_color)

/-! ### Turn application (`turn.rs`) -/

inductive TurnError where
  | Check
  | NotCapture
deriving DecidableEq, Repr

/-- Takes a turn by moving piece at `initial_bit` to `final_bit`.  Returns the
new, updated board and the value of any pieces captured.  Mirrors the source's
in-place mutation order; note in particular that at the moment of the check
test the en-passant target has been cleared only when an en-passant capture
was made, and `piece_to_move` is still the mover. -/
def take_turn (initial_board : Board) (piece_id : Nat) (initial_bit final_bit : Nat)
    (only_use_captures : Bool) (ep_bits_for_turn : Option Nat × Option Nat)
    (potential_checking_pieces : FixedVector Nat MAX_CHECKING_PIECES) :
    Except TurnError (Board × Int) :=
  let en_passant_target_bit := ep_bits_for_turn.1
  let en_passant_capture_bit := ep_bits_for_turn.2
  let friendly_board :=
    match initial_board.piece_to_move with
    | PieceColor.Black => initial_board.black_board
    | PieceColor.White => initial_board.white_board
  let enemy_board :=
    match initial_board.piece_to_move with
    | PieceColor.Black => initial_board.white_board
    | PieceColor.White => initial_board.black_board
  let next_piece_to_move :=
    match initial_board.piece_to_move with
    | PieceColor.Black => PieceColor.White
    | PieceColor.White => PieceColor.Black
  -- Captured piece: at the en-passant capture bit if set, else at final_bit.
  let capture_piece_id :=
    match en_passant_capture_bit with
    | some c => read_piece_id enemy_board c
    | none => read_piece_id enemy_board final_bit
  let enemy_board_1 :=
    match en_passant_capture_bit with
    | some c => remove_piece c enemy_board
    | none => enemy_board
  let ep_after_capture :=
    match en_passant_capture_bit with
    | some _ => none
    | none => initial_board.en_passant_target_bit
  if capture_piece_id = 0 ∧ only_use_captures then Except.error TurnError.NotCapture
  else
    let capture_piece_value :=
      if capture_piece_id = 0 then 0
      else (piece_information_get BLACK_PIECE_INFORMATION capture_piece_id).piece_value
    -- Move friendly piece, remove any enemy piece at the destination.
    let friendly_board_1 := insert_piece final_bit piece_id (remove_piece initial_bit friendly_board)
    let enemy_board_2 := remove_piece final_bit enemy_board_1
    let new_white_board :=
      match initial_board.piece_to_move with
      | PieceColor.White => friendly_board_1
      | PieceColor.Black => enemy_board_2
    let new_black_board :=
      match initial_board.piece_to_move with
      | PieceColor.White => enemy_board_2
      | PieceColor.Black => friendly_board_1
    let new_white_king_bit :=
      if piece_id = KING_ID ∧ initial_board.piece_to_move = PieceColor.White then final_bit
      else initial_board.white_king_bit
    let new_black_king_bit :=
      if piece_id = KING_ID ∧ initial_board.piece_to_move = PieceColor.Black then final_bit
      else initial_board.black_king_bit
    let new_white_material :=
      match initial_board.piece_to_move with
      | PieceColor.Black => initial_board.white_material - capture_piece_value
      | PieceColor.White => initial_board.white_material
    let new_black_material :=
      match initial_board.piece_to_move with
      | PieceColor.Black => initial_board.black_material
      | PieceColor.White => initial_board.black_material - capture_piece_value
    let board_after_move : Board :=
      { initial_board with
          white_board := new_white_board
          black_board := new_black_board
          white_king_bit := new_white_king_bit
          black_king_bit := new_black_king_bit
          white_material := new_white_material
          black_material := new_black_material
          en_passant_target_bit := ep_after_capture }
    -- If the king moved the potential checking pieces are recomputed.
    let potential_checking_pieces_1 :=
      if piece_id = KING_ID then
        get_potential_checking_pieces board_after_move initial_board.piece_to_move
      else potential_checking_pieces
    if is_king_in_check board_after_move initial_board.piece_to_move potential_checking_pieces_1 then
      Except.error TurnError.Check
    else
      let new_fullmove_number :=
        if initial_board.piece_to_move = PieceColor.Black then initial_board.fullmove_number + 1
        else initial_board.fullmove_number
      let new_halfmove_clock :=
        if capture_piece_value = 0 then
          if piece_id = PAWN_ID then 0 else initial_board.halfmove_clock + 1
        else 0
      Except.ok
        ({ board_after_move with
            en_passant_target_bit := en_passant_target_bit
            fullmove_number := new_fullmove_number
            halfmove_clock := new_halfmove_clock
            piece_to_move := next_piece_to_move },
         capture_piece_value)

/-- For converting en-passant outputs from the move generator to those needed
by the turn function. -/
def get_ep_bits_for_turn (en_passant_target_bit : Option Nat)
    (en_passant_cap_bits : Option (Nat × Nat)) (move_bit : Nat) : Option Nat × Option Nat :=
  let target :=
    match en_passant_target_bit with
    | some t => if move_bit = t then some t else none
    | none => none
  let capture :=
    match en_passant_cap_bits with
    | some cap_bits => if move_bit = cap_bits.2 then some cap_bits.1 else none
    | none => none
  (target, capture)

/-- Material value of a piece id (the value tables agree between colours). -/
def piece_value (piece_id : Nat) : Int :=
  (piece_information_get BLACK_PIECE_INFORMATION piece_id).piece_value

/-- Sum of piece values over all 64 squares of a team board. -/
def team_material (tb : TeamBoard) : Int :=
  ((List.range 64).map (fun s => piece_value (read_piece_id tb s))).sum

/-- Structural invariants of a board reachable by legal play: bounded words,
disjoint occupancies, correctly cached unique kings, material bookkeeping,
at most 16 pieces per side, a bounded en passant target, and the side that
just moved not being left in check. -/
structure BoardInv (b : Board) : Prop where
  ww0 : b.white_board.w0 < 2 ^ 64
  ww1 : b.white_board.w1 < 2 ^ 64
  ww2 : b.white_board.w2 < 2 ^ 64
  bw0 : b.black_board.w0 < 2 ^ 64
  bw1 : b.black_board.w1 < 2 ^ 64
  bw2 : b.black_board.w2 < 2 ^ 64
  disj : b.white_board.occupancy &&& b.black_board.occupancy = 0
  wkb : b.white_king_bit < 64
  bkb : b.black_king_bit < 64
  wkid : read_piece_id b.white_board b.white_king_bit = KING_ID
  bkid : read_piece_id b.black_board b.black_king_bit = KING_ID
  wkuniq : ∀ s, s < 64 → s ≠ b.white_king_bit → read_piece_id b.white_board s ≠ KING_ID
  bkuniq : ∀ s, s < 64 → s ≠ b.black_king_bit → read_piece_id b.black_board s ≠ KING_ID
  wno7 : ∀ s, s < 64 → read_piece_id b.white_board s ≠ 7
  bno7 : ∀ s, s < 64 → read_piece_id b.black_board s ≠ 7
  wmat : b.white_material = team_material b.white_board
  bmat : b.black_material = team_material b.black_board
  wpc : popcount_fuel 64 b.white_board.occupancy ≤ 16
  bpc : popcount_fuel 64 b.black_board.occupancy ≤ 16
  eptb : ∀ t, b.en_passant_target_bit = some t → t < 64
  no_check : ∀ s, s < 64 →
    (own_team_board b b.piece_to_move).occupancy.testBit s = true →
    attacks_king b (opposite_color b.piece_to_move) s = false

/-- Boards reachable from the starting position by take_turn calls that
return Ok, with the moved piece read off the board and the destination and
en passant data drawn from generate_moves, exactly as the search performs
its calls. -/
inductive Reachable : Board → Prop where
  | base : Reachable Board.new
  | step (b : Board) (s f : Nat) (only_use_captures : Bool) (b2 : Board) (v : Int) :
      Reachable b →
      s < 64 → f < 64 →
      read_piece_id (PerspectiveBoards.gen b b.piece_to_move).friendly_board s ≠ 0 →
      ((generate_moves b s
        (read_piece_id (PerspectiveBoards.gen b b.piece_to_move).friendly_board s)
        b.piece_to_move (PerspectiveBoards.gen b b.piece_to_move)).1).testBit f = true →
      take_turn b
        (read_piece_id (PerspectiveBoards.gen b b.piece_to_move).friendly_board s)
        s f only_use_captures
        (get_ep_bits_for_turn
          (generate_moves b s
            (read_piece_id (PerspectiveBoards.gen b b.piece_to_move).friendly_board s)
            b.piece_to_move (PerspectiveBoards.gen b b.piece_to_move)).2.1
          (generate_moves b s
            (read_piece_id (PerspectiveBoards.gen b b.piece_to_move).friendly_board s)
            b.piece_to_move (PerspectiveBoards.gen b b.piece_to_move)).2.2 f)
        (get_potential_checking_pieces b b.piece_to_move) =
        Except.ok (b2, v) →
      Reachable b2

/-- Exact value of an f32 quantity: an unnormalized fraction.  Every
operation below keeps `den` positive, so order comparison by
cross-multiplication agrees with the rational order; all f32 operations on
the modeled paths (add, sub, mul, div by nonzero constants, compare) are
exact on these values.  (Mathlib's normalized `Rat` is not used because its
arithmetic does not reduce inside the kernel.) -/
structure F32 where
  num : Int
  den : Int
deriving DecidableEq, Repr

def F32.ofInt (n : Int) : F32 := { num := n, den := 1 }

def F32.add (a b : F32) : F32 := { num := a.num * b.den + b.num * a.den, den := a.den * b.den }

def F32.neg (a : F32) : F32 := { num := -a.num, den := a.den }

def F32.sub (a b : F32) : F32 := a.add b.neg

def F32.mul (a b : F32) : F32 := { num := a.num * b.num, den := a.den * b.den }

/-- Division; the zero-divisor case is unreachable on the modeled paths
(every divisor is a nonzero constant). -/
def F32.div (a b : F32) : F32 :=
  if b.num > 0 then { num := a.num * b.den, den := a.den * b.num }
  else if b.num < 0 then { num := -(a.num * b.den), den := a.den * (-b.num) }
  else { num := 0, den := 1 }

/-- Strict order (`<` on f32 values), by cross-multiplication. -/
def F32.blt (a b : F32) : Bool := decide (a.num * b.den < b.num * a.den)

/-- Non-strict order (`<=` on f32 values), by cross-multiplication. -/
def F32.ble (a b : F32) : Bool := decide (a.num * b.den ≤ b.num * a.den)

/-- Value equality of two fractions (used only in theorem statements). -/
def F32.equiv (a b : F32) : Prop := a.num * b.den = b.num * a.den

instance F32.equiv_decidable (a b : F32) : Decidable (a.equiv b) :=
  inferInstanceAs (Decidable (a.num * b.den = b.num * a.den))

/-! ### Leaf evaluation (`pesto.rs`, `generic_math.rs`, `bot_eval.rs`) -/

/-- Scales input to a number between 0.0 and 1.0 (no clamp). -/
def f32_scale (input input_min input_max : F32) : F32 :=
  (input.sub input_min).div (input_max.sub input_min)

/-- Converts bitboard bit to pesto table index. -/
def convert_bit_to_index (bit : Nat) : Nat :=
  let coords := get_piece_coordinates bit
  ((coords.1 - 7).natAbs + (coords.2 * 8).toNat)

/-- Inverts a pesto table index for the black team. -/
def invert_index (index : Nat) : Nat :=
  ((index : Int) - 63).natAbs

def MG_PAWN_TABLE : List Int :=
  [0, 0, 0, 0, 0, 0, 0, 0,
   98, 127, 61, 95, 68, 126, 34, -11,
   -6, 7, 26, 31, 65, 56, 25, -20,
   -14, 13, 6, 21, 23, 12, 17, -23,
   -27, -2, -5, 12, 17, 6, 10, -25,
   -26, -4, -4, -10, 3, 3, 33, -12,
   -35, -1, -20, -23, -15, 24, 38, -22,
   0, 0, 0, 0, 0, 0, 0, 0]

def EG_PAWN_TABLE : List Int :=
  [0, 0, 0, 0, 0, 0, 0, 0,
   127, 127, 127, 127, 127, 127, 127, 127,
   94, 100, 85, 67, 56, 53, 82, 84,
   32, 24, 13, 5, -2, 4, 17, 17,
   13, 9, -3, -7, -7, -8, 3, -1,
   4, 7, -6, 1, 0, -5, -1, -8,
   13, 8, 8, 10, 13, 0, 2, -7,
   0, 0, 0, 0, 0, 0, 0, 0]

def MG_KNIGHT_TABLE : List Int :=
  [-128, -89, -34, -49, 61, -97, -15, -107,
   -73, -41, 72, 36, 23, 62, 7, -17,
   -47, 60, 37, 65, 84, 127, 73, 44,
   -9, 17, 19, 53, 37, 69, 18, 22,
   -13, 4, 16, 13, 28, 19, 21, -8,
   -23, -9, 12, 10, 19, 17, 25, -16,
   -29, -53, -12, -3, -1, 18, -14, -19,
   -105, -21, -58, -33, -17, -28, -19, -23]

def EG_KNIGHT_TABLE : List Int :=
  [-58, -38, -13, -28, -31, -27, -63, -99,
   -25, -8, -25, -2, -9, -25, -24, -52,
   -24, -20, 10, 9, -1, -9, -19, -41,
   -17, 3, 22, 22, 22, 11, 8, -18,
   -18, -6, 16, 25, 16, 17, 4, -18,
   -23, -3, -1, 15, 10, -3, -20, -22,
   -42, -20, -10, -5, -2, -20, -23, -44,
   -29, -51, -23, -15, -22, -18, -50, -64]

def MG_BISHOP_TABLE : List Int :=
  [-29, 4, -82, -37, -25, -42, 7, -8,
   -26, 16, -18, -13, 30, 59, 18, -47,
   -16, 37, 43, 40, 35, 50, 37, -2,
   -4, 5, 19, 50, 37, 37, 7, -2,
   -6, 13, 13, 26, 34, 12, 10, 4,
   0, 15, 15, 15, 14, 27, 18, 10,
   4, 15, 16, 0, 7, 21, 33, 1,
   -33, -3, -14, -21, -13, -12, -39, -21]

def EG_BISHOP_TABLE : List Int :=
  [-14, -21, -11, -8, -7, -9, -17, -24,
   -8, -4, 7, -12, -3, -13, -4, -14,
   2, -8, 0, -1, -2, 6, 0, 4,
   -3, 9, 12, 9, 14, 10, 3, 2,
   -6, 3, 13, 19, 7, 10, -3, -9,
   -12, -3, 8, 10, 13, 3, -7, -15,
   -14, -18, -7, -1, 4, -9, -15, -27,
   -23, -9, -23, -5, -9, -16, -5, -17]

def MG_ROOK_TABLE : List Int :=
  [32, 42, 32, 51, 63, 9, 31, 43,
   27, 32, 58, 62, 80, 67, 26, 44,
   -5, 19, 26, 36, 17, 45, 61, 16,
   -24, -11, 7, 26, 24, 35, -8, -20,
   -36, -26, -12, -1, 9, -7, 6, -23,
   -45, -25, -16, -17, 3, 0, -5, -33,
   -44, -16, -20, -9, -1, 11, -6, -71,
   -19, -13, 1, 17, 16, 7, -37, -26]

def EG_ROOK_TABLE : List Int :=
  [13, 10, 18, 15, 12, 12, 8, 5,
   11, 13, 13, 11, -3, 3, 8, 3,
   7, 7, 7, 5, 4, -3, -5, -3,
   4, 3, 13, 1, 2, 1, -1, 2,
   3, 5, 8, 4, -5, -6, -8, -11,
   -4, 0, -5, -1, -7, -12, -8, -16,
   -6, -6, 0, 2, -9, -9, -11, -3,
   -9, 2, 3, -1, -5, -13, 4, -20]

def MG_QUEEN_TABLE : List Int :=
  [-28, 0, 29, 12, 59, 44, 43, 45,
   -24, -39, -5, 1, -16, 57, 28, 54,
   -13, -17, 7, 8, 29, 56, 47, 57,
   -27, -27, -16, -16, -1, 17, -2, 1,
   -9, -26, -9, -10, -2, -4, 3, -3,
   -14, 2, -11, -2, -5, 2, 14, 5,
   -35, -8, 11, 2, 8, 15, -3, 1,
   -1, -18, -9, 10, -15, -25, -31, -50]

def EG_QUEEN_TABLE : List Int :=
  [-9, 22, 22, 27, 27, 19, 10, 20,
   -17, 20, 32, 41, 58, 25, 30, 0,
   -20, 6, 9, 49, 47, 35, 19, 9,
   3, 22, 24, 45, 57, 40, 57, 36,
   -18, 28, 19, 47, 31, 34, 39, 23,
   -16, -27, 15, 6, 9, 17, 10, 5,
   -22, -23, -30, -16, -16, -23, -36, -32,
   -33, -28, -22, -43, -5, -32, -20, -41]

def MG_KING_TABLE : List Int :=
  [-65, 23, 16, -15, -56, -34, 2, 13,
   29, -1, -20, -7, -8, -4, -38, -29,
   -9, 24, 2, -16, -20, 6, 22, -22,
   -17, -20, -12, -27, -30, -25, -14, -36,
   -49, -1, -27, -39, -46, -44, -33, -51,
   -14, -14, -22, -46, -44, -30, -15, -27,
   1, 7, -8, -64, -43, -16, 9, 8,
   -15, 36, 12, -54, 8, -28, 24, 14]

def EG_KING_TABLE : List Int :=
  [-74, -35, -18, -18, -11, 15, 4, -17,
   -12, 17, 14, 17, 17, 38, 23, 11,
   10, 17, 23, 15, 20, 45, 44, 13,
   -8, 22, 24, 27, 26, 33, 26, 3,
   -18, -4, 21, 24, 27, 23, 9, -11,
   -19, -3, 11, 21, 23, 16, 7, -9,
   -27, -11, 4, 13, 14, 4, -5, -17,
   -53, -34, -21, -11, -28, -14, -24, -43]

def PLACEHOLDER_TABLE : List Int :=
  List.replicate 64 0

/-- Midgame piece square tables, indexed by piece id. -/
def MIDGAME_TABLES : List (List Int) :=
  [PLACEHOLDER_TABLE, MG_PAWN_TABLE, MG_KNIGHT_TABLE, MG_BISHOP_TABLE,
   MG_ROOK_TABLE, MG_QUEEN_TABLE, MG_KING_TABLE]

/-- Endgame piece square tables, indexed by piece id. -/
def ENDGAME_TABLES : List (List Int) :=
  [PLACEHOLDER_TABLE, EG_PAWN_TABLE, EG_KNIGHT_TABLE, EG_BISHOP_TABLE,
   EG_ROOK_TABLE, EG_QUEEN_TABLE, EG_KING_TABLE]

/-- Look up a piece square table entry (source indexes panic only for ids ≥ 7,
which never occur on well-formed boards). -/
def table_value_at (tables : List (List Int)) (piece_id : Nat) (index : Nat) : Int :=
  (tables.getD piece_id PLACEHOLDER_TABLE).getD index 0

/-- Returns how much the board aligns with the piece square tables, generally
in 0.0 .. 1.0. -/
def get_table_value (board : Board) : F32 :=
  let triple :=
    match board.piece_to_move with
    | PieceColor.Black => (board.black_material, board.black_board, true)
    | PieceColor.White => (board.white_material, board.white_board, false)
  let current_material_value := triple.1
  let friendly_baord := triple.2.1
  let invert_indices := triple.2.2
  let mg_weight := f32_scale (F32.ofInt current_material_value) (F32.ofInt 0)
    (F32.ofInt TEAM_MATERIAL_VALUE)
  let totals :=
    (List.range 64).foldl
      (fun (acc : F32 × F32) bit =>
        let piece_id := read_piece_id friendly_baord bit
        if piece_id = 0 then acc
        else
          let index := convert_bit_to_index bit
          let index := if invert_indices then invert_index index else index
          (acc.1.add (F32.ofInt (table_value_at MIDGAME_TABLES piece_id index)),
           acc.2.add (F32.ofInt (table_value_at ENDGAME_TABLES piece_id index))))
      (F32.ofInt 0, F32.ofInt 0)
  let total := (totals.1.mul mg_weight).add (totals.2.mul ((F32.ofInt 1).sub mg_weight))
  f32_scale total (F32.ofInt (-300)) (F32.ofInt 300)

def MATERIAL_WEIGHT : F32 := { num := 7, den := 10 }

def SQUARE_TABLE_WEIGHT : F32 := { num := 3, den := 10 }

/-- Basic evaluation function called at leaf nodes: material change from the
root blended with the piece square table value.  (The f32 literals `0.7` and
`0.3` are modeled by the exact rationals they denote in the source text.) -/
def eval (material_change : Int) (board : Board) : F32 :=
  let square_table_value := get_table_value board
  let material_value := f32_scale (F32.ofInt material_change) (F32.ofInt (-20)) (F32.ofInt 20)
  (material_value.mul MATERIAL_WEIGHT).add (square_table_value.mul SQUARE_TABLE_WEIGHT)

/-! ### Search core (`bot.rs`) -/

/-- Non capture weight for move ordering. -/
def NON_CAPTURE_WEIGHT : Int := -10

/-- Checkmate weight for minimax. -/
def CHECKMATE_WEIGHT : F32 := F32.ofInt 5

def QUIESCENCE_SEARCH_MAX_DEPTH : Nat := 3

def MAX_MOVE_BITBOARD_BITS_ON : Nat := 28

/-- Maximum valid moves for one team in a turn. -/
def MAX_TEAM_MOVES : Nat := 96

/-- The largest finite f32 value, exactly. -/
def F32_MAX : F32 := { num := 340282346638528859811704183484516925440, den := 1 }

/-- The smallest finite f32 value, exactly. -/
def F32_MIN : F32 := { num := -340282346638528859811704183484516925440, den := 1 }

/-- Move information for the move ordering vector. -/
structure MoveInformation where
  initial_bit : Nat
  final_bit : Nat
  move_score : Int
  ep_bits : Option Nat × Option Nat
deriving DecidableEq, Repr

/-- The placeholder move (`move_score` is `i8::MIN`). -/
def MoveInformation.new : MoveInformation :=
  { initial_bit := 0, final_bit := 0, move_score := -128, ep_bits := (none, none) }

/-- Insert into a sorted list, before the first element that does not
compare `le` to the inserted one (so equal elements keep their original
relative order under `insertion_sort`). -/
def insert_sorted {α : Type} (le : α → α → Bool) (a : α) : List α → List α
  | [] => [a]
  | b :: l => if le a b then a :: b :: l else b :: insert_sorted le a l

/-- A stable sort (insertion sort), modeling Rust's stable `sort_by`. -/
def insertion_sort {α : Type} (le : α → α → Bool) (l : List α) : List α :=
  l.foldr (insert_sorted le) []

/-- Returns a FixedVector of mostly valid moves (not considering king
safety), sorted by move score descending; the sort is stable, matching
Rust's `sort_by`.  `none` models the push panic on overflow of the
96-entry vector. -/
def order_moves (board : Board) (pv_move : Option MoveInformation)
    (perspective_boards : PerspectiveBoards) :
    Option (FixedVector MoveInformation MAX_TEAM_MOVES) := do
  let init : FixedVector MoveInformation MAX_TEAM_MOVES := FixedVector.new MoveInformation.new
  let pushed ← (List.range 64).foldlM
    (fun (moves_fixed_vector : FixedVector MoveInformation MAX_TEAM_MOVES) initial_bit => do
      let piece_id := read_piece_id perspective_boards.friendly_board initial_bit
      let piece_value := (piece_information_get
        perspective_boards.friendly_piece_information piece_id).piece_value
      if piece_id = 0 then pure moves_fixed_vector
      else
        let gm := generate_moves board initial_bit piece_id board.piece_to_move
          perspective_boards
        let move_bitboard := gm.1
        let en_passant_target_bit := gm.2.1
        let en_passant_cap_bits := gm.2.2
        let final_bits_vec : FixedVector Nat MAX_MOVE_BITBOARD_BITS_ON :=
          bits_on move_bitboard FIXED_VECTOR_PLACEHOLDER_VALUE
        (final_bits_vec.internal_array.take final_bits_vec.length).foldlM
          (fun (mv : FixedVector MoveInformation MAX_TEAM_MOVES) final_bit => do
            -- Skip over pv_move bits so they are not added twice.
            let is_pv :=
              match pv_move with
              | some pv => initial_bit == pv.initial_bit && final_bit == pv.final_bit
              | none => false
            if is_pv then pure mv
            else
              let enemy_piece_id := read_piece_id perspective_boards.enemy_board final_bit
              let enemy_piece_value :=
                if enemy_piece_id = 0 then 0
                else (piece_information_get
                  perspective_boards.friendly_piece_information enemy_piece_id).piece_value
              let move_score :=
                if enemy_piece_value = 0 then NON_CAPTURE_WEIGHT
                else enemy_piece_value - piece_value
              let ep_bits := get_ep_bits_for_turn en_passant_target_bit
                en_passant_cap_bits final_bit
              mv.push { initial_bit := initial_bit, final_bit := final_bit
                        move_score := move_score, ep_bits := ep_bits })
          moves_fixed_vector)
    init
  -- Add the pv move with max move score so it is sorted on top.
  let with_pv ←
    match pv_move with
    | some pv => pushed.push { pv with move_score := 127 }
    | none => pure pushed
  pure { internal_array :=
           insertion_sort (fun a b => decide (b.move_score ≤ a.move_score)) with_pv.internal_array
         length := with_pv.length }

/-- Return true if the min_or_max value should be updated to the branch
value. -/
def update_min_or_max (min_or_max branch_value : F32) (is_returning_max : Bool) : Bool :=
  if is_returning_max then F32.blt min_or_max branch_value
  else F32.blt branch_value min_or_max

/-- Return true if the current branch should be pruned. -/
def prune (parent_min_max min_or_max : F32) (is_returning_max : Bool) : Bool :=
  if is_returning_max then F32.ble parent_min_max min_or_max
  else F32.ble min_or_max parent_min_max

/-- The capture value actually folded into the child's `parent_value`:
bot.rs multiplies `capture_value` by `min_max_multiplier` twice, in two
consecutive `let capture_value = ...` statements (lines 167 and 171). -/
def folded_capture_value (capture_value : Int) (min_max_multiplier : Int) : Int :=
  (capture_value * min_max_multiplier) * min_max_multiplier

/-- State of the child loop inside one minimax node. -/
structure SearchLoopState where
  min_or_max : F32
  best_move : MoveInformation
  children_searched : Nat
  king_was_in_check : Bool
deriving DecidableEq, Repr

/-- Outcome of the child loop of one minimax node: a propagated timeout or
the final loop state, together with the next clock-read index. -/
inductive SearchLoopResult where
  | timeout (t : Nat)
  | done (st : SearchLoopState) (t : Nat)
deriving DecidableEq, Repr

/-- The `for i in 0..moves.len()` loop of one minimax node, over the
populated prefix of the ordered move vector.  `recurse` is the recursive
minimax call one fuel level down (passed as a function so that both
functions are plain structural recursions). -/
def minimax_children
    (recurse : Board → Int → Option F32 → Option MoveInformation → Bool → Nat → Nat →
      Bool → Nat → Option ((F32 × MoveInformation × Bool) × Nat))
    (board : Board) (parent_value : Int)
    (parent_min_max : F32) (is_returning_max : Bool)
    (current_depth depth_limit : Nat) (quiescence_search : Bool)
    (min_max_multiplier : Int)
    (potential_checking_pieces : FixedVector Nat MAX_CHECKING_PIECES)
    (perspective_boards : PerspectiveBoards) (moves : List MoveInformation)
    (st : SearchLoopState) (t : Nat) : Option SearchLoopResult :=
  match moves with
  | [] => some (SearchLoopResult.done st t)
  | move_information :: rest =>
    let piece_id := read_piece_id perspective_boards.friendly_board
      move_information.initial_bit
    let turn_data := take_turn board piece_id move_information.initial_bit
      move_information.final_bit quiescence_search move_information.ep_bits
      potential_checking_pieces
    match turn_data with
    | Except.ok new_board_and_value =>
      let new_board := new_board_and_value.1
      let capture_value := new_board_and_value.2
      let children_searched := st.children_searched + 1
      -- Sign of capture value: applied twice in the source (lines 167, 171).
      let capture_value := folded_capture_value capture_value min_max_multiplier
      match recurse new_board (parent_value + capture_value)
        (some st.min_or_max) none (! is_returning_max) (current_depth + 1)
        depth_limit quiescence_search t with
      | none => none
      | some (branch_result, t2) =>
        let branch_value := branch_result.1
        let timeout := branch_result.2.2
        if timeout then some (SearchLoopResult.timeout t2)
        else
          let updated :=
            if update_min_or_max st.min_or_max branch_value is_returning_max then
              { st with min_or_max := branch_value, best_move := move_information
                        children_searched := children_searched }
            else { st with children_searched := children_searched }
          if prune parent_min_max updated.min_or_max is_returning_max then
            some (SearchLoopResult.done updated t2)
          else
            minimax_children recurse board parent_value parent_min_max
              is_returning_max current_depth depth_limit quiescence_search
              min_max_multiplier potential_checking_pieces perspective_boards
              rest updated t2
    | Except.error TurnError.Check =>
      minimax_children recurse board parent_value parent_min_max is_returning_max
        current_depth depth_limit quiescence_search min_max_multiplier
        potential_checking_pieces perspective_boards rest
        { st with king_was_in_check := true } t
    | Except.error TurnError.NotCapture =>
      minimax_children recurse board parent_value parent_min_max is_returning_max
        current_depth depth_limit quiescence_search min_max_multiplier
        potential_checking_pieces perspective_boards rest st t

/-- Generates the best move using the minimax algorithm.  `fuel` bounds the
nesting depth of search levels (a totality artifact: any fuel larger than
`depth_limit + QUIESCENCE_SEARCH_MAX_DEPTH + 2` is enough, and all theorems
quantify over it); `clock`/`t` model the deadline reads.  Returns the min/max
value, the best move information, a timeout flag, and the next clock index;
`none` models a panic. -/
def minimax (fuel : Nat) (board : Board) (parent_value : Int)
    (parent_min_max : Option F32) (pv_move : Option MoveInformation)
    (is_returning_max : Bool) (current_depth depth_limit : Nat)
    (quiescence_search : Bool) (clock : Nat → Bool) (t : Nat) :
    Option ((F32 × MoveInformation × Bool) × Nat) :=
  match fuel with
  | 0 => none
  | fuel + 1 =>
    -- Timeout.
    if clock t then some ((F32.ofInt 0, MoveInformation.new, true), t + 1)
    else if current_depth = depth_limit then
      if quiescence_search then
        some ((eval parent_value board, MoveInformation.new, false), t + 1)
      else
        minimax fuel board parent_value none none is_returning_max 0
          QUIESCENCE_SEARCH_MAX_DEPTH true clock (t + 1)
    else
      let triple : F32 × F32 × Int :=
        if is_returning_max then (F32_MIN, F32_MAX, 1) else (F32_MAX, F32_MIN, -1)
      let min_or_max := triple.1
      let parent_min_max_def := triple.2.1
      let min_max_multiplier := triple.2.2
      let parent_min_max := parent_min_max.getD parent_min_max_def
      let perspective_boards := PerspectiveBoards.gen board board.piece_to_move
      match order_moves board pv_move perspective_boards with
      | none => none
      | some moves =>
        let potential_checking_pieces := get_potential_checking_pieces board
          board.piece_to_move
        match minimax_children
          (fun b pv pmm pm imax cd dl q t0 =>
            minimax fuel b pv pmm pm imax cd dl q clock t0)
          board parent_value parent_min_max
          is_returning_max current_depth depth_limit quiescence_search
          min_max_multiplier potential_checking_pieces perspective_boards
          (moves.internal_array.take moves.length)
          { min_or_max := min_or_max, best_move := MoveInformation.new
            children_searched := 0, king_was_in_check := false } (t + 1) with
        | none => none
        | some (SearchLoopResult.timeout t2) => some ((F32.ofInt 0, MoveInformation.new, true), t2)
        | some (SearchLoopResult.done st t2) =>
          if st.children_searched = 0 then
            if quiescence_search then
              some ((eval parent_value board, MoveInformation.new, false), t2)
            else if st.king_was_in_check then
              some ((CHECKMATE_WEIGHT.mul (F32.ofInt (-min_max_multiplier)),
                MoveInformation.new, false), t2)
            else some ((st.min_or_max, st.best_move, false), t2)
          else some ((st.min_or_max, st.best_move, false), t2)

/-- The iterative deepening loop of `gen_best_move` over the remaining depth
limits, threading the pv move and the clock index. -/
def gen_best_move_loop (fuel : Nat) (board : Board) (clock : Nat → Bool)
    (depths : List Nat) (pv_move : Option MoveInformation) (t : Nat) :
    Option (Option MoveInformation) :=
  match depths with
  | [] => some pv_move
  | depth_limit :: rest =>
    match minimax fuel board 0 none pv_move true 0 depth_limit false clock t with
    | none => none
    | some (result, t2) =>
      let move_information := result.2.1
      let timeout := result.2.2
      -- Everything from the timed-out search is thrown out.
      if timeout then some pv_move
      else gen_best_move_loop fuel board clock rest (some move_information) t2

/-- Generate best move using iterative deepening (depth limits 3..99) to get
pv moves.  Returns the initial and final bits of the best move, or an error
when no pv move was recorded. -/
def gen_best_move (fuel : Nat) (board : Board) (clock : Nat → Bool) :
    Option (Except Unit (Nat × Nat)) :=
  match gen_best_move_loop fuel board clock (List.range' 3 97) none 0 with
  | none => none
  | some (some pv_move) => some (Except.ok (pv_move.initial_bit, pv_move.final_bit))
  | some none => some (Except.error ())

/-- Instrumented version of the iterative deepening loop: it returns the list
of per-depth minimax results, up to and including the first result whose
timeout flag is set.  Filtering out the flagged entry yields exactly the
depths that fully completed; used to state C7. -/
def deepening_trace (fuel : Nat) (board : Board) (clock : Nat → Bool)
    (depths : List Nat) (pv_move : Option MoveInformation) (t : Nat) :
    Option (List (F32 × MoveInformation × Bool)) :=
  match depths with
  | [] => some []
  | depth_limit :: rest =>
    match minimax fuel board 0 none pv_move true 0 depth_limit false clock t with
    | none => none
    | some (result, t2) =>
      if result.2.2 then some [result]
      else (deepening_trace fuel board clock rest (some result.2.1) t2).map
        (fun tr => result :: tr)

/-! ### Concrete boards used in the claim analyses -/

/-- The first check-validation unit-test position of the repo (FEN
rnbqkbnr/pppppppp/8/8/3K4/5p2/PPPPPPPP/RNBQ1BNR): a well-formed board with
six potential checkers of the white king on square 36. -/
def check_test_board : Board :=
  { white_board := ⟨3818771009033469952, 7349874660588126208, 10448351204219027456⟩
    black_board := ⟨4398046576436, 110, 153⟩
    white_king_bit := 36
    black_king_bit := 3
    piece_to_move := PieceColor.White
    en_passant_target_bit := none
    castling_availability := CastlingAvailability.new true
    white_material := 39
    black_material := 40
    halfmove_clock := 0
    fullmove_number := 1 }

-- Decidable equality for `Except` results of `take_turn`.
deriving instance DecidableEq for Except

/-- A board with only the black king (square 7); White, to move, has no
pieces at all, so a non-quiescence search node has no children and no
`Check` rejections. -/
def no_white_pieces_board : Board :=
  { white_board := { w0 := 0, w1 := 0, w2 := 0 }
    black_board := { w0 := 0, w1 := 1 <<< 7, w2 := 1 <<< 7 }
    white_king_bit := 0
    black_king_bit := 7
    piece_to_move := PieceColor.White
    en_passant_target_bit := none
    castling_availability := CastlingAvailability.new false
    white_material := 0
    black_material := 0
    halfmove_clock := 0
    fullmove_number := 1 }

/-- Black to move with the en-passant target on square 24 (file 0) and a
black pawn on square 23 (file 7, one rank below): the raw square indices are
adjacent although the squares are on opposite edges of the board. -/
def ep_wraparound_board : Board :=
  { white_board := { w0 := 1 <<< 24, w1 := 1 <<< 63, w2 := 1 <<< 63 }
    black_board := { w0 := 1 <<< 23, w1 := 1, w2 := 1 }
    white_king_bit := 63
    black_king_bit := 0
    piece_to_move := PieceColor.Black
    en_passant_target_bit := some 24
    castling_availability := CastlingAvailability.new false
    white_material := 1
    black_material := 1
    halfmove_clock := 0
    fullmove_number := 1 }

/-- White king on square 63 with seventeen black pieces on the aligned
capture templates: sixteen pawns (squares 0, 7, 9, 15, 18, 23, 27, 31, 36,
39, 45, 47, 55, 56, 57, 58) none of which attacks square 63, and a rook on
square 62 which does.  The potential-checkers bitboard has 17 set bits, one
more than the 16-entry shortlist capacity. -/
def seventeen_checkers_board : Board :=
  { white_board := { w0 := 0, w1 := 1 <<< 63, w2 := 1 <<< 63 }
    black_board := { w0 := 540608497910579841, w1 := 2, w2 := 4611686018427387906 }
    white_king_bit := 63
    black_king_bit := 1
    piece_to_move := PieceColor.White
    en_passant_target_bit := none
    castling_availability := CastlingAvailability.new false
    white_material := 0
    black_material := 21
    halfmove_clock := 0
    fullmove_number := 1 }

/-! ### Supporting lemmas -/

theorem popcount_fuel_zero (f : Nat) : popcount_fuel f 0 = 0 := by
  cases f <;> rfl

theorem popcount_fuel_stable : ∀ (f : Nat) (g b : Nat), b < 2 ^ f → f ≤ g →
    popcount_fuel f b = popcount_fuel g b := by
  intro f
  induction f with
  | zero =>
    intro g b hb _
    interval_cases b
    simp [popcount_fuel_zero]
  | succ f ih =>
    intro g b hb hfg
    rcases g with - | g
    · omega
    by_cases hb0 : b = 0
    · subst hb0; simp [popcount_fuel_zero]
    · show popcount_fuel (f + 1) b = popcount_fuel (g + 1) b
      rw [popcount_fuel, popcount_fuel, if_neg hb0, if_neg hb0]
      have hdiv : b / 2 < 2 ^ f := by
        rw [Nat.div_lt_iff_lt_mul (by norm_num)]
        calc b < 2 ^ (f + 1) := hb
        _ = 2 ^ f * 2 := by rw [pow_succ]
      rw [ih g (b / 2) hdiv (by omega)]

theorem popcount_fuel_pos : ∀ (f b : Nat), b ≠ 0 → b < 2 ^ f → 0 < popcount_fuel f b := by
  intro f
  induction f with
  | zero => intro b hb0 hb; omega
  | succ f ih =>
    intro b hb0 hb
    rw [popcount_fuel, if_neg hb0]
    rcases Nat.mod_two_eq_zero_or_one b with h2 | h2
    · have : b / 2 ≠ 0 := by omega
      have hdiv : b / 2 < 2 ^ f := by
        rw [Nat.div_lt_iff_lt_mul (by norm_num)]
        calc b < 2 ^ (f + 1) := hb
        _ = 2 ^ f * 2 := by rw [pow_succ]
      have := ih (b / 2) this hdiv
      omega
    · omega

theorem testBit_eq_false_of_lt_tz : ∀ (f b j : Nat), j < trailing_zeros_fuel f b →
    b.testBit j = false := by
  intro f
  induction f with
  | zero => intro b j hj; simp [trailing_zeros_fuel] at hj
  | succ f ih =>
    intro b j hj
    rw [trailing_zeros_fuel] at hj
    by_cases h2 : b % 2 = 1
    · rw [if_pos h2] at hj; omega
    · rw [if_neg h2] at hj
      rcases j with - | j
      · simp [Nat.testBit_zero]
        omega
      · rw [Nat.testBit_succ]
        exact ih (b / 2) j (by omega)

theorem tz_fuel_zero_mod (f b : Nat) : trailing_zeros_fuel (f + 1) b = 0 → b % 2 = 1 := by
  rw [trailing_zeros_fuel]
  by_cases h2 : b % 2 = 1
  · intro _; exact h2
  · rw [if_neg h2]; omega

theorem popcount_fuel_shift_low_zero : ∀ (k b : Nat),
    (∀ j, j < k → b.testBit j = false) → b < 2 ^ 64 →
    popcount_fuel 64 (b >>> k) = popcount_fuel 64 b := by
  intro k
  induction k with
  | zero => intro b _ _; rw [Nat.shiftRight_zero]
  | succ k ih =>
    intro b hlow hb
    by_cases hb0 : b = 0
    · subst hb0; simp [Nat.zero_shiftRight]
    · have h2 : b % 2 = 0 := by
        have := hlow 0 (by omega)
        simpa [Nat.testBit_zero] using this
      have hshift : b >>> (k + 1) = (b / 2) >>> k := by
        rw [show k + 1 = 1 + k by omega, Nat.shiftRight_add]
        norm_num [Nat.shiftRight_succ, Nat.shiftRight_zero]
      have hdiv : b / 2 < 2 ^ 64 := by omega
      have h63 : b / 2 < 2 ^ 63 := by omega
      have key : popcount_fuel 64 b = popcount_fuel 63 (b / 2) := by
        rw [show (64 : Nat) = 63 + 1 from rfl, popcount_fuel, if_neg hb0, h2]
        omega
      rw [hshift, ih (b / 2) (fun j hj => by
        rw [← Nat.testBit_succ]
        exact hlow (j + 1) (by omega)) hdiv, key]
      exact (popcount_fuel_stable 63 64 (b / 2) h63 (by omega)).symm
  
theorem popcount_fuel_odd (b : Nat) (h2 : b % 2 = 1) (hb : b < 2 ^ 64) :
    popcount_fuel 64 b = popcount_fuel 64 (b >>> 1) + 1 := by
  have hb0 : b ≠ 0 := by omega
  have hs : b >>> 1 = b / 2 := by
    norm_num [Nat.shiftRight_succ, Nat.shiftRight_zero]
  have h63 : b / 2 < 2 ^ 63 := by omega
  rw [hs, show (64 : Nat) = 63 + 1 from rfl, popcount_fuel, if_neg hb0, h2,
    popcount_fuel_stable 63 (63 + 1) (b / 2) h63 (by omega)]

theorem take_succ_set {α : Type} : ∀ (arr : List α) (n : Nat) (d : α), n < arr.length →
    (arr.set n d).take (n + 1) = arr.take n ++ [d] := by
  intro arr
  induction arr with
  | nil => intro n d h; simp at h
  | cons a t ih =>
    intro n d h
    rcases n with - | n
    · simp
    · simp only [List.set, List.take, List.cons_append]
      rw [ih n d (by simpa using h)]



theorem FixedVector.entries_new {α : Type} {L : Nat} (ph : α) :
    (FixedVector.new (L := L) ph).entries = [] := by
  simp [FixedVector.new, FixedVector.entries]

theorem push_eq_some {α : Type} {L : Nat} (v : FixedVector α L) (d : α) (h : v.length < L) :
    v.push d = some { internal_array := v.internal_array.set v.length d, length := v.length + 1 } := by
  simp [FixedVector.push, h]

theorem entries_after_push {α : Type} {L : Nat} (v : FixedVector α L) (d : α)
    (h : v.length < L) (hlen : v.internal_array.length = L) :
    (FixedVector.mk (v.internal_array.set v.length d) (v.length + 1) : FixedVector α L).entries =
      v.entries ++ [d] := by
  show (v.internal_array.set v.length d).take (v.length + 1) = _
  exact take_succ_set _ _ _ (by omega)

theorem bits_on_loop_sound {L : Nat} :
    ∀ (fuel num bc : Nat) (v : FixedVector Nat L), v.internal_array.length = L →
    ∀ b, b ∈ (bits_on_loop fuel num bc v).entries →
    b ∈ v.entries ∨ ∃ j, num.testBit j = true ∧ b = bc + j := by
  intro fuel
  induction fuel with
  | zero => intro num bc v _ b hb; exact Or.inl hb
  | succ fuel ih =>
    intro num bc v hlen b hb
    rw [bits_on_loop] at hb
    by_cases hg : bc < 64 ∧ v.length < L
    · rw [if_pos hg] at hb
      dsimp only at hb
      by_cases h0 : num = 0
      · rw [if_pos h0] at hb; exact Or.inl hb
      · rw [if_neg h0] at hb
        by_cases htz : u64_trailing_zeros num > 0
        · rw [if_pos htz] at hb
          rcases ih _ _ _ hlen b hb with h | ⟨j, hj, rfl⟩
          · exact Or.inl h
          · right
            refine ⟨u64_trailing_zeros num + j, ?_, by omega⟩
            rw [← Nat.testBit_shiftRight]
            exact hj
        · rw [if_neg htz] at hb
          rw [push_eq_some v bc hg.2] at hb
          have hlen2 : (v.internal_array.set v.length bc).length = L := by
            simpa using hlen
          rcases ih _ _ _ hlen2 b hb with h | ⟨j, hj, rfl⟩
          · rw [show (FixedVector.mk (v.internal_array.set v.length bc) (v.length + 1) :
                FixedVector Nat L).entries = v.entries ++ [bc] from
                entries_after_push v bc hg.2 hlen] at h
            rcases List.mem_append.mp h with h | h
            · exact Or.inl h
            · right
              have htz0 : u64_trailing_zeros num = 0 := by omega
              have hodd : num % 2 = 1 := by
                have := tz_fuel_zero_mod 63 num
                exact this htz0
              refine ⟨0, by simp [Nat.testBit_zero, hodd], ?_⟩
              have : b = bc := List.mem_singleton.mp h
              omega
          · right
            refine ⟨1 + j, ?_, by omega⟩
            rw [← Nat.testBit_shiftRight]
            exact hj
    · rw [if_neg hg] at hb; exact Or.inl hb

theorem shiftRight_lt_pow {a n k : Nat} (h : a < 2 ^ n) : a >>> k < 2 ^ (n - k) := by
  rw [Nat.shiftRight_eq_div_pow]
  by_cases hk : k ≤ n
  · rw [Nat.div_lt_iff_lt_mul (Nat.pos_pow_of_pos k (by norm_num))]
    calc a < 2 ^ n := h
    _ = 2 ^ (n - k) * 2 ^ k := by rw [← pow_add]; congr 1; omega
  · have ha : a < 2 ^ k := lt_of_lt_of_le h (Nat.pow_le_pow_right (by norm_num) (by omega))
    rw [Nat.div_eq_of_lt ha]
    exact Nat.pos_pow_of_pos _ (by norm_num)

theorem bits_on_loop_complete {L : Nat} :
    ∀ (fuel num bc : Nat) (v : FixedVector Nat L),
    v.internal_array.length = L →
    num < 2 ^ (64 - bc) →
    64 - bc ≤ fuel →
    v.length + popcount_fuel 64 num ≤ L →
    (∀ b, b ∈ v.entries → b ∈ (bits_on_loop fuel num bc v).entries) ∧
    (∀ j, num.testBit j = true → bc + j ∈ (bits_on_loop fuel num bc v).entries) := by
  intro fuel
  induction fuel with
  | zero =>
    intro num bc v hlen hw hfuel hcap
    have h0 : num = 0 := by
      have he : (64 : Nat) - bc = 0 := by omega
      rw [he] at hw
      omega
    subst h0
    exact ⟨fun b hb => hb, fun j hj => by simp [Nat.zero_testBit] at hj⟩
  | succ fuel ih =>
    intro num bc v hlen hw hfuel hcap
    by_cases h0 : num = 0
    · subst h0
      have hres : bits_on_loop (fuel + 1) 0 bc v = v := by
        rw [bits_on_loop]
        by_cases hg : bc < 64 ∧ v.length < L
        · rw [if_pos hg]
          dsimp only
          rw [if_pos rfl]
        · rw [if_neg hg]
      rw [hres]
      exact ⟨fun b hb => hb, fun j hj => by simp [Nat.zero_testBit] at hj⟩
    · have hnum64 : num < 2 ^ 64 :=
        lt_of_lt_of_le hw (Nat.pow_le_pow_right (by norm_num) (by omega))
      have hpos : 0 < popcount_fuel 64 num := popcount_fuel_pos 64 num h0 hnum64
      have hvlen : v.length < L := by omega
      have hbc : bc < 64 := by
        by_contra hbc
        have he : (64 : Nat) - bc = 0 := by omega
        rw [he] at hw
        omega
      have hg : bc < 64 ∧ v.length < L := ⟨hbc, hvlen⟩
      rw [bits_on_loop, if_pos hg]
      dsimp only
      rw [if_neg h0]
      by_cases htz : u64_trailing_zeros num > 0
      · rw [if_pos htz]
        have hlow : ∀ j, j < u64_trailing_zeros num → num.testBit j = false := fun j hj =>
          testBit_eq_false_of_lt_tz 64 num j hj
        have hpopshift : popcount_fuel 64 (num >>> u64_trailing_zeros num) = popcount_fuel 64 num :=
          popcount_fuel_shift_low_zero _ num hlow hnum64
        have hwshift : num >>> u64_trailing_zeros num <
            2 ^ (64 - (bc + u64_trailing_zeros num)) := by
          have := shiftRight_lt_pow (k := u64_trailing_zeros num) hw
          have he : 64 - bc - u64_trailing_zeros num = 64 - (bc + u64_trailing_zeros num) := by
            omega
          rwa [he] at this
        obtain ⟨ih1, ih2⟩ := ih (num >>> u64_trailing_zeros num) (bc + u64_trailing_zeros num) v
          hlen hwshift (by omega) (by omega)
        refine ⟨ih1, fun j hj => ?_⟩
        by_cases hjtz : j < u64_trailing_zeros num
        · rw [hlow j hjtz] at hj
          exact absurd hj (by simp)
        · have hj2 : (num >>> u64_trailing_zeros num).testBit (j - u64_trailing_zeros num) = true := by
            rw [Nat.testBit_shiftRight]
            have he : u64_trailing_zeros num + (j - u64_trailing_zeros num) = j := by omega
            rwa [he]
          have := ih2 _ hj2
          have he : bc + u64_trailing_zeros num + (j - u64_trailing_zeros num) = bc + j := by
            omega
          rwa [he] at this
      · rw [if_neg htz]
        rw [push_eq_some v bc hg.2]
        have hodd : num % 2 = 1 := by
          have htz0 : u64_trailing_zeros num = 0 := by omega
          exact tz_fuel_zero_mod 63 num htz0
        have hpop1 : popcount_fuel 64 num = popcount_fuel 64 (num >>> 1) + 1 :=
          popcount_fuel_odd num hodd hnum64
        have hlen2 : ((v.internal_array.set v.length bc)).length = L := by simpa using hlen
        have hw2 : num >>> 1 < 2 ^ (64 - (bc + 1)) := by
          have := shiftRight_lt_pow (k := 1) hw
          have he : 64 - bc - 1 = 64 - (bc + 1) := by omega
          rwa [he] at this
        obtain ⟨ih1, ih2⟩ := ih (num >>> 1) (bc + 1)
          (FixedVector.mk (v.internal_array.set v.length bc) (v.length + 1)) hlen2 hw2
          (by omega) (by simp only [FixedVector.length]; omega)
        have hent : (FixedVector.mk (v.internal_array.set v.length bc) (v.length + 1) :
            FixedVector Nat L).entries = v.entries ++ [bc] :=
          entries_after_push v bc hg.2 hlen
        constructor
        · intro b hb
          exact ih1 b (by rw [hent]; exact List.mem_append_left _ hb)
        · intro j hj
          rcases j with - | j
          · have : bc ∈ (FixedVector.mk (v.internal_array.set v.length bc) (v.length + 1) :
                FixedVector Nat L).entries := by
              rw [hent]
              exact List.mem_append_right _ (List.mem_singleton.mpr rfl)
            simpa using ih1 bc this
          · have hj2 : (num >>> 1).testBit j = true := by
              rw [Nat.testBit_shiftRight]
              have he : 1 + j = j + 1 := by omega
              rwa [he]
            have := ih2 j hj2
            have he : bc + 1 + j = bc + (j + 1) := by omega
            rwa [he] at this



theorem bits_on_sound {L : Nat} (num ph b : Nat)
    (hb : b ∈ (bits_on (L := L) num ph).entries) : num.testBit b = true := by
  rcases bits_on_loop_sound 64 num 0 (FixedVector.new ph) (by simp [FixedVector.new]) b hb with
    h | ⟨j, hj, rfl⟩
  · rw [FixedVector.entries_new] at h
    cases h
  · simpa using hj

theorem bits_on_complete {L : Nat} (num ph : Nat) (hnum : num < 2 ^ 64)
    (hcap : popcount_fuel 64 num ≤ L) (j : Nat) (hj : num.testBit j = true) :
    j ∈ (bits_on (L := L) num ph).entries := by
  obtain ⟨-, h2⟩ := bits_on_loop_complete 64 num 0 (FixedVector.new ph)
    (by simp [FixedVector.new]) (by simpa using hnum) (by omega)
    (by show 0 + popcount_fuel 64 num ≤ L; omega)
  simpa using h2 j hj

/-! ### Claim theorems -/

/-- C1: the claim states the search multiplies the capture value by `+1` at
max nodes and `-1` at min nodes when folding into the child's
`parent_value`.  The code applies the multiplier twice in two consecutive
statements (bot.rs lines 167 and 171), so the value actually folded is
`capture_value * m * m = capture_value` for either multiplier: at a min node
(`is_returning_max = false`, multiplier `-1`) a capture of value 1 is folded
as `+1`, not `-1` as the claim requires. -/
theorem claim_c1_folded_capture_sign :
    (∀ capture_value : Int, folded_capture_value capture_value (-1) = capture_value) ∧
    folded_capture_value 1 (-1) = 1 ∧ (1 : Int) ≠ -1 := by
  refine ⟨fun capture_value => ?_, by decide, by decide⟩
  simp [folded_capture_value]

/-- C2: for every board, square and colour, `generate_moves` for a knight
(piece id 2) returns exactly the same result as for a king (piece id 6):
both piece-information records carry the `KING_MOVES` template (and agree on
every field `generate_moves` reads), while the `KNIGHT_MOVES` template is
referenced only by `ALL_CAPTURE_BITBOARDS`, i.e. by check detection. -/
theorem claim_c2_knight_uses_king_template :
    (∀ (board : Board) (piece_bit : Nat) (piece_color : PieceColor),
      generate_moves board piece_bit 2 piece_color (PerspectiveBoards.gen board piece_color) =
      generate_moves board piece_bit 6 piece_color (PerspectiveBoards.gen board piece_color)) ∧
    (piece_information_get WHITE_PIECE_INFORMATION 2).direction_bitboards = [some KING_MOVES, none, none, none] ∧
    (piece_information_get BLACK_PIECE_INFORMATION 2).direction_bitboards = [some KING_MOVES, none, none, none] ∧
    KNIGHT_MOVES ∈ ALL_CAPTURE_BITBOARDS := by
  refine ⟨fun board piece_bit piece_color => ?_, rfl, rfl, by decide⟩
  cases piece_color <;> rfl

/-- C4 counterexample: for the white pawn on square 52 of the starting
board, `generate_moves` reports the en-passant target square 36 (the landing
square of the double step), not the midpoint square 44 claimed. -/
theorem claim_c4_counterexample :
    (generate_moves Board.new 52 1 PieceColor.White
      (PerspectiveBoards.gen Board.new PieceColor.White)).2.1 = some 36 ∧
    ¬ (generate_moves Board.new 52 1 PieceColor.White
      (PerspectiveBoards.gen Board.new PieceColor.White)).2.1 = some 44 := by
  constructor
  · decide
  · decide

/-- C4 amended: for every pawn double step (white pawns start on squares
48..55, black pawns on 8..15), the en-passant target computed from the
aligned double-move bitboard is the landing square two rows ahead
(`square - 16` for White, `square + 16` for Black, on rank 3 or 4), not the
crossed midpoint square. -/
theorem claim_c4_amended :
    ∀ i : Fin 8,
      calc_ep_target_bit (shift_direction_bitboard (48 + i.val)
        (get_piece_coordinates (48 + i.val)) WHITE_PAWN_DOUBLE_MOVES) PieceColor.White
        = (48 + i.val) - 16 ∧
      calc_ep_target_bit (shift_direction_bitboard (8 + i.val)
        (get_piece_coordinates (8 + i.val)) BLACK_PAWN_DOUBLE_MOVES) PieceColor.Black
        = (8 + i.val) + 16 := by
  decide

/-- C6 counterexample: on `ep_wraparound_board` the black pawn on square 23
(file 7) is numerically adjacent to the en-passant target 24 (file 0), so
`generate_moves` returns the en-passant pair (24, 32) although the capturing
pawn is seven files away from the target square, violating the claimed
file-distance condition. -/
theorem claim_c6_counterexample :
    (generate_moves ep_wraparound_board 23 1 PieceColor.Black
      (PerspectiveBoards.gen ep_wraparound_board PieceColor.Black)).2.2 = some (24, 32) ∧
    ¬ ((23 % 8 : Int) - (24 % 8 : Int)).natAbs ≤ 1 := by
  constructor
  · decide
  · decide

/-- C10: `take_turn` returns `Err(NotCapture)` exactly when the
`only_use_captures` flag is set and the resolved captured piece id (at the
en-passant capture square when one is given, else at the destination) is 0;
in particular the error is decided before any later step of the turn can
affect the result. -/
theorem claim_c10_not_capture_iff
    (initial_board : Board) (piece_id initial_bit final_bit : Nat)
    (only_use_captures : Bool) (ep_bits_for_turn : Option Nat × Option Nat)
    (potential_checking_pieces : FixedVector Nat MAX_CHECKING_PIECES) :
    take_turn initial_board piece_id initial_bit final_bit only_use_captures
      ep_bits_for_turn potential_checking_pieces = Except.error TurnError.NotCapture ↔
    (only_use_captures = true ∧
      (let enemy_board :=
        match initial_board.piece_to_move with
        | PieceColor.Black => initial_board.white_board
        | PieceColor.White => initial_board.black_board
       match ep_bits_for_turn.2 with
       | some c => read_piece_id enemy_board c
       | none => read_piece_id enemy_board final_bit) = 0) := by
  rcases ep_bits_for_turn with ⟨tb, cb⟩
  show (take_turn initial_board piece_id initial_bit final_bit only_use_captures
      (tb, cb) potential_checking_pieces = Except.error TurnError.NotCapture) ↔ _
  rw [take_turn]
  by_cases h1 : ((match cb with
      | some c => read_piece_id (match initial_board.piece_to_move with
          | PieceColor.Black => initial_board.white_board
          | PieceColor.White => initial_board.black_board) c
      | none => read_piece_id (match initial_board.piece_to_move with
          | PieceColor.Black => initial_board.white_board
          | PieceColor.White => initial_board.black_board) final_bit) = 0 ∧
      only_use_captures = true)
  · rw [if_pos h1]
    exact iff_of_true rfl ⟨h1.2, h1.1⟩
  · rw [if_neg h1]
    refine iff_of_false (fun hres => ?_) (fun hcl => h1 ⟨hcl.2, hcl.1⟩)
    dsimp only at hres
    generalize is_king_in_check _ _ _ = chk at hres
    cases chk
    · rw [if_neg Bool.false_ne_true] at hres
      exact Except.noConfusion hres
    · rw [if_pos rfl] at hres
      exact TurnError.noConfusion (Except.error.inj hres)

/-- C9 counterexample: the word 7 has three set bits but `bits_on` with cap
2 returns the ordinary (non-panicking) vector `[0, 1]`, silently dropping
set bit 2 - refuting the claim that `bits_on` does not silently drop excess
set bits. -/
theorem claim_c9_counterexample :
    (bits_on (L := 2) 7 FIXED_VECTOR_PLACEHOLDER_VALUE).entries = [0, 1] ∧
    Nat.testBit 7 2 = true ∧
    2 ∉ (bits_on (L := 2) 7 FIXED_VECTOR_PLACEHOLDER_VALUE).entries := by
  refine ⟨by decide, by decide, by decide⟩

/-- C9 amended: pushing onto a full `FixedVector` panics (returns `none`),
but `bits_on` never panics: its loop guard stops the scan once the output is
full, so excess set bits are silently dropped; when the word has at most `L`
set bits, every set bit is listed, and every listed index is a set bit. -/
theorem claim_c9_amended :
    (∀ (α : Type) (L : Nat) (v : FixedVector α L) (d : α), L ≤ v.length → v.push d = none) ∧
    (∀ (L num ph : Nat), num < 2 ^ 64 → popcount_fuel 64 num ≤ L →
      ∀ j, num.testBit j = true → j ∈ (bits_on (L := L) num ph).entries) ∧
    (∀ (L num ph b : Nat), b ∈ (bits_on (L := L) num ph).entries → num.testBit b = true) := by
  refine ⟨?_, ?_, ?_⟩
  · intro α L v d h
    simp [FixedVector.push]
    omega
  · intro L num ph hnum hcap j hj
    exact bits_on_complete num ph hnum hcap j hj
  · intro L num ph b hb
    exact bits_on_sound num ph b hb

/-- Witness for the C9 amended theorem at concrete inputs: a push onto a
full 2-vector panics, and with cap 3 the word 7 (popcount 3) does list bit
0. -/
theorem claim_c9_amended_witness :
    (FixedVector.push (L := 2) (FixedVector.mk [5, 6] 2) (9 : Nat)) = none ∧
    (0 ∈ (bits_on (L := 3) 7 255).entries) := by
  constructor
  · exact claim_c9_amended.1 Nat 2 (FixedVector.mk [5, 6] 2) 9 (by decide)
  · exact claim_c9_amended.2.1 3 7 255 (by norm_num) (by decide) 0 (by decide)

/-- C6 amended: `generate_moves` passes through the en-passant pair computed
by `get_en_passant_capture`, and that pair is `some (target, landing)`
exactly when: the moving piece is a pawn, the board's EP target equals
`target`, the raw square indices of pawn and target differ by at most one
(which admits a file-7/file-0 wraparound between adjacent ranks, not only
file adjacency), an enemy pawn sits on the target, and the landing square (`target - 8` for White to move, `target + 8` for
Black to move) is empty on both boards.  The range hypothesis keeps the
modeled `u8` arithmetic on the landing square inside the source's
panic-free range. -/
theorem claim_c6_amended
    (board : Board) (piece_bit piece_id : Nat) (piece_color : PieceColor)
    (h_ep_range : ∀ t0, board.en_passant_target_bit = some t0 → 8 ≤ t0 ∧ t0 ≤ 55) :
    ((generate_moves board piece_bit piece_id piece_color
        (PerspectiveBoards.gen board piece_color)).2.2 =
      get_en_passant_capture board
        (PerspectiveBoards.gen board piece_color).friendly_board
        (PerspectiveBoards.gen board piece_color).enemy_board piece_bit) ∧
    (∀ t l, get_en_passant_capture board
        (PerspectiveBoards.gen board piece_color).friendly_board
        (PerspectiveBoards.gen board piece_color).enemy_board piece_bit = some (t, l) ↔
      (read_piece_id (PerspectiveBoards.gen board piece_color).friendly_board piece_bit = PAWN_ID ∧
       board.en_passant_target_bit = some t ∧
       ((piece_bit : Int) - (t : Int)).natAbs ≤ 1 ∧
       read_piece_id (PerspectiveBoards.gen board piece_color).enemy_board t = PAWN_ID ∧
       l = calc_ep_move_bit t board.piece_to_move ∧
       read_piece_id (PerspectiveBoards.gen board piece_color).friendly_board l = 0 ∧
       read_piece_id (PerspectiveBoards.gen board piece_color).enemy_board l = 0)) := by
  refine ⟨rfl, fun t l => ?_⟩
  rw [get_en_passant_capture]
  by_cases hp : read_piece_id (PerspectiveBoards.gen board piece_color).friendly_board piece_bit ≠ PAWN_ID
  · rw [if_pos hp]
    simp only [ne_eq] at hp
    simp [hp]
  · rw [if_neg hp]
    simp only [ne_eq, not_not] at hp
    cases hept : board.en_passant_target_bit with
    | none => simp
    | some e =>
      dsimp only
      split_ifs with h1 h2 h3
      · refine iff_of_false (by simp) (fun hclaim => ?_)
        obtain ⟨-, ht, habs, -⟩ := hclaim
        obtain rfl := Option.some.inj ht
        omega
      · constructor
        · intro hsome
          simp only [Option.some.injEq, Prod.mk.injEq] at hsome
          obtain ⟨rfl, rfl⟩ := hsome
          exact ⟨hp, rfl, by omega, h2, rfl, by omega, by omega⟩
        · rintro ⟨-, ht, -, -, hl, hf, he2⟩
          obtain rfl := Option.some.inj ht
          subst hl
          rfl
      · refine iff_of_false (by simp) ?_
        rintro ⟨-, ht, -, -, hl, hf, he2⟩
        obtain rfl := Option.some.inj ht
        subst hl
        exact h3 (by omega)
      · refine iff_of_false (by simp) ?_
        rintro ⟨-, ht, -, hpw, -⟩
        obtain rfl := Option.some.inj ht
        exact h2 hpw

/-- Witness for the C6 amended theorem at the wraparound board: the range
hypothesis holds (the target is 24) and the pass-through equation applies. -/
theorem claim_c6_amended_witness :
    (∀ t0, ep_wraparound_board.en_passant_target_bit = some t0 → 8 ≤ t0 ∧ t0 ≤ 55) ∧
    ((generate_moves ep_wraparound_board 23 1 PieceColor.Black
        (PerspectiveBoards.gen ep_wraparound_board PieceColor.Black)).2.2 =
      get_en_passant_capture ep_wraparound_board
        (PerspectiveBoards.gen ep_wraparound_board PieceColor.Black).friendly_board
        (PerspectiveBoards.gen ep_wraparound_board PieceColor.Black).enemy_board 23) := by
  have hrange : ∀ t0, ep_wraparound_board.en_passant_target_bit = some t0 → 8 ≤ t0 ∧ t0 ≤ 55 := by
    intro t0 h
    have h2 : some 24 = some t0 := h
    obtain rfl := Option.some.inj h2
    omega
  exact ⟨hrange, (claim_c6_amended ep_wraparound_board 23 1 PieceColor.Black hrange).1⟩

/-- If minimax_children runs to completion (no timeout) on a move list, the
children_searched counter never decreases, and if it is unchanged then
min_or_max and best_move are unchanged too (every branch that alters them
also increments the counter). -/
theorem minimax_children_no_child :
    ∀ (moves : List MoveInformation)
      (recurse : Board → Int → Option F32 → Option MoveInformation → Bool → Nat → Nat →
        Bool → Nat → Option ((F32 × MoveInformation × Bool) × Nat))
      (board : Board) (parent_value : Int)
      (parent_min_max : F32) (is_returning_max : Bool) (current_depth depth_limit : Nat)
      (quiescence_search : Bool) (min_max_multiplier : Int)
      (potential_checking_pieces : FixedVector Nat MAX_CHECKING_PIECES)
      (perspective_boards : PerspectiveBoards) (st st2 : SearchLoopState) (t t2 : Nat),
      minimax_children recurse board parent_value parent_min_max is_returning_max
        current_depth depth_limit quiescence_search min_max_multiplier
        potential_checking_pieces perspective_boards moves st t =
        some (SearchLoopResult.done st2 t2) →
      st.children_searched ≤ st2.children_searched ∧
      (st2.children_searched = st.children_searched →
        st2.min_or_max = st.min_or_max ∧ st2.best_move = st.best_move) := by
  intro moves
  induction moves with
  | nil =>
    intro recurse board pv pmm imax cd dl q mult pcp pb st st2 t t2 h
    rw [minimax_children] at h
    simp only [Option.some.injEq, SearchLoopResult.done.injEq] at h
    obtain ⟨rfl, rfl⟩ := h
    exact ⟨le_refl _, fun _ => ⟨rfl, rfl⟩⟩
  | cons mi rest ih =>
    intro recurse board pv pmm imax cd dl q mult pcp pb st st2 t t2 h
    rw [minimax_children] at h
    dsimp only at h
    rcases htd : take_turn board
        (read_piece_id pb.friendly_board mi.initial_bit) mi.initial_bit
        mi.final_bit q mi.ep_bits pcp with e | ok
    · rw [htd] at h
      rcases e with - | -
      · exact ih recurse board pv pmm imax cd dl q mult pcp pb
          { st with king_was_in_check := true } st2 t t2 h
      · exact ih recurse board pv pmm imax cd dl q mult pcp pb st st2 t t2 h
    · rw [htd] at h
      dsimp only at h
      rcases hmm : recurse ok.1 (pv + folded_capture_value ok.2 mult)
          (some st.min_or_max) none (! imax) (cd + 1) dl q t with - | ⟨br, t3⟩
      · rw [hmm] at h
        exact absurd h (by simp)
      · rw [hmm] at h
        dsimp only at h
        by_cases hto : br.2.2 = true
        · rw [if_pos hto] at h
          exact absurd h (by simp)
        · rw [if_neg hto] at h
          split at h
          · split at h
            · simp only [Option.some.injEq, SearchLoopResult.done.injEq] at h
              obtain ⟨rfl, rfl⟩ := h
              refine ⟨by simp, fun heq => ?_⟩
              simp at heq
            · have := ih recurse board pv pmm imax cd dl q mult pcp pb _ st2 t3 t2 h
              refine ⟨?_, fun heq => ?_⟩
              · have h1 := this.1
                simp only [SearchLoopState.children_searched] at h1 ⊢
                omega
              · have h1 := this.1
                simp only [SearchLoopState.children_searched] at h1
                omega
          · split at h
            · simp only [Option.some.injEq, SearchLoopResult.done.injEq] at h
              obtain ⟨rfl, rfl⟩ := h
              refine ⟨by simp, fun heq => ?_⟩
              simp at heq
            · have := ih recurse board pv pmm imax cd dl q mult pcp pb _ st2 t3 t2 h
              refine ⟨?_, fun heq => ?_⟩
              · have h1 := this.1
                simp only [SearchLoopState.children_searched] at h1 ⊢
                omega
              · have h1 := this.1
                simp only [SearchLoopState.children_searched] at h1
                omega

/-- C3 (amended): at a non-quiescence, non-leaf minimax node where the
children loop completes with zero children searched, minimax returns the
checkmate value when some move was rejected with Check, and otherwise (clean
stalemate) returns the loop's INITIAL min_or_max sentinel — F32_MIN at a max
node, F32_MAX at a min node — not the evaluator's leaf value eval(parent_value,
board) as the claim states. -/
theorem claim_c3_amended
    (fuel : Nat) (board : Board) (parent_value : Int) (parent_min_max : Option F32)
    (pv_move : Option MoveInformation) (is_returning_max : Bool)
    (current_depth depth_limit : Nat) (clock : Nat → Bool) (t : Nat)
    (moves : FixedVector MoveInformation MAX_TEAM_MOVES) (st : SearchLoopState) (t2 : Nat)
    (hclock : clock t = false)
    (hdepth : current_depth ≠ depth_limit)
    (hmoves : order_moves board pv_move (PerspectiveBoards.gen board board.piece_to_move) =
      some moves)
    (hloop : minimax_children
      (fun b pv pmm pm imax cd dl q t0 =>
        minimax fuel b pv pmm pm imax cd dl q clock t0)
      board parent_value
      (parent_min_max.getD (if is_returning_max then F32_MAX else F32_MIN))
      is_returning_max current_depth depth_limit false
      (if is_returning_max then 1 else -1)
      (get_potential_checking_pieces board board.piece_to_move)
      (PerspectiveBoards.gen board board.piece_to_move)
      (moves.internal_array.take moves.length)
      { min_or_max := (if is_returning_max then F32_MIN else F32_MAX)
        best_move := MoveInformation.new
        children_searched := 0
        king_was_in_check := false } (t + 1) = some (SearchLoopResult.done st t2))
    (hcs : st.children_searched = 0) :
    minimax (fuel + 1) board parent_value parent_min_max pv_move is_returning_max
      current_depth depth_limit false clock t =
    some ((if st.king_was_in_check then
        CHECKMATE_WEIGHT.mul (F32.ofInt (-(if is_returning_max then (1 : Int) else -1)))
      else (if is_returning_max then F32_MIN else F32_MAX),
      MoveInformation.new, false), t2) := by
  obtain ⟨hle, heq⟩ := minimax_children_no_child _ _ _ _ _ _ _ _ _ _ _ _ _ _ _ _ hloop
  have hstate := heq (by simpa using hcs)
  rw [minimax]
  rw [hclock]
  rw [if_neg Bool.false_ne_true, if_neg hdepth]
  cases is_returning_max
  · simp only [Bool.false_eq_true, if_false] at hloop hstate ⊢
    rw [hmoves]
    dsimp only
    rw [hloop]
    dsimp only
    rw [if_pos hcs]
    by_cases hk : st.king_was_in_check = true
    · rw [if_pos hk, if_pos hk]
    · rw [if_neg hk, if_neg hk]
      rw [hstate.1, hstate.2]
  · simp only [eq_self_iff_true, if_true] at hloop hstate ⊢
    rw [hmoves]
    dsimp only
    rw [hloop]
    dsimp only
    rw [if_pos hcs]
    rw [if_neg Bool.false_ne_true]
    by_cases hk : st.king_was_in_check = true
    · rw [if_pos hk, if_pos hk]
    · rw [if_neg hk, if_neg hk]
      rw [hstate.1, hstate.2]

/-- C3 counterexample: on the board where White (to move, max node) has no
pieces at all, every move list is empty, so the node is a clean stalemate with
no Check rejection; minimax returns F32_MIN = -340282350000000000000000000000000000000,
whereas eval(0, board) is 1/2 (two black king-square bonuses cancel to half a
pawn of table noise), and F32_MIN is not equivalent to 1/2. -/
theorem claim_c3_counterexample :
    minimax 10 no_white_pieces_board 0 none none true 0 3 false (fun _ => false) 0 =
      some ((F32_MIN, MoveInformation.new, false), 1) ∧
    F32.equiv (eval 0 no_white_pieces_board) { num := 1, den := 2 } ∧
    ¬ F32.equiv F32_MIN { num := 1, den := 2 } := by
  refine ⟨by decide, by decide, by decide⟩

/-- Witness for the C3 amended theorem: at the no-white-pieces board with a
never-firing clock, the hypotheses hold concretely and the theorem yields the
F32_MIN sentinel result. -/
theorem claim_c3_amended_witness :
    ((fun _ : Nat => false) 0) = false ∧ (0 : Nat) ≠ 3 ∧
    minimax 10 no_white_pieces_board 0 none none true 0 3 false (fun _ => false) 0 =
      some ((F32_MIN, MoveInformation.new, false), 1) := by
  refine ⟨rfl, by decide, ?_⟩
  have h := claim_c3_amended 9 no_white_pieces_board 0 none none true 0 3 (fun _ => false) 0
    (FixedVector.new MoveInformation.new)
    { min_or_max := F32_MIN, best_move := MoveInformation.new
      children_searched := 0, king_was_in_check := false } 1
    rfl (by decide) (by decide) rfl rfl
  simpa using h

/-- The pv move produced by `gen_best_move_loop` is `pv_move` when no depth in
the trace completed, and otherwise the move of the last completed depth. -/
theorem deepening_trace_loop :
    ∀ (depths : List Nat) (fuel : Nat) (board : Board) (clock : Nat → Bool)
      (pv_move : Option MoveInformation) (t : Nat)
      (tr : List (F32 × MoveInformation × Bool)) (res : Option MoveInformation),
    deepening_trace fuel board clock depths pv_move t = some tr →
    gen_best_move_loop fuel board clock depths pv_move t = some res →
    ((tr.filter (fun x => ! x.2.2)) = [] → res = pv_move) ∧
    (∀ lm, (tr.filter (fun x => ! x.2.2)).getLast? = some lm → res = some lm.2.1) := by
  intro depths
  induction depths with
  | nil =>
    intro fuel board clock pv t tr res htr hres
    rw [deepening_trace] at htr
    rw [gen_best_move_loop] at hres
    obtain rfl := Option.some.inj htr
    obtain rfl := Option.some.inj hres
    exact ⟨fun _ => rfl, fun lm h => by simp at h⟩
  | cons d rest ih =>
    intro fuel board clock pv t tr res htr hres
    rw [deepening_trace] at htr
    rw [gen_best_move_loop] at hres
    rcases hmm : minimax fuel board 0 none pv true 0 d false clock t with - | ⟨result, t2⟩
    · rw [hmm] at htr
      exact absurd htr (by simp)
    · rw [hmm] at htr hres
      dsimp only at htr hres
      by_cases hto : result.2.2 = true
      · rw [if_pos hto] at htr hres
        obtain rfl := Option.some.inj htr
        obtain rfl := Option.some.inj hres
        refine ⟨fun _ => rfl, fun lm h => ?_⟩
        simp [List.filter, hto] at h
      · rw [if_neg hto] at htr hres
        rcases htr2 : deepening_trace fuel board clock rest (some result.2.1) t2 with - | tr2
        · rw [htr2] at htr
          exact absurd htr (by simp)
        · rw [htr2] at htr
          simp only [Option.map_some', Option.some.injEq] at htr
          subst htr
          have hx := ih fuel board clock (some result.2.1) t2 tr2 res htr2 hres
          have hfl : (result :: tr2).filter (fun x => ! x.2.2) =
              result :: tr2.filter (fun x => ! x.2.2) := by
            simp [List.filter, hto]
          refine ⟨fun h => ?_, fun lm h => ?_⟩
          · rw [hfl] at h
            simp at h
          · rw [hfl] at h
            rcases hfl2 : tr2.filter (fun x => ! x.2.2) with - | ⟨y, ys⟩
            · rw [hfl2] at h
              have hlm : result = lm := by simpa using h
              subst hlm
              exact hx.1 hfl2
            · rw [hfl2] at h
              rw [List.getLast?_cons_cons] at h
              exact hx.2 lm (by rw [hfl2]; exact h)

/-- Over a non-empty depth list, the trace has no completed depth exactly when
it consists of a single entry whose timeout flag is set (the very first
search already timed out). -/
theorem deepening_trace_empty_iff
    (d : Nat) (rest : List Nat) (fuel : Nat) (board : Board) (clock : Nat → Bool)
    (pv_move : Option MoveInformation) (t : Nat)
    (tr : List (F32 × MoveInformation × Bool))
    (htr : deepening_trace fuel board clock (d :: rest) pv_move t = some tr) :
    ((tr.filter (fun x => ! x.2.2)) = [] ↔ ∃ x, tr = [x] ∧ x.2.2 = true) := by
  rw [deepening_trace] at htr
  rcases hmm : minimax fuel board 0 none pv_move true 0 d false clock t with - | ⟨result, t2⟩
  · rw [hmm] at htr
    exact absurd htr (by simp)
  · rw [hmm] at htr
    dsimp only at htr
    by_cases hto : result.2.2 = true
    · rw [if_pos hto] at htr
      obtain rfl := Option.some.inj htr
      refine iff_of_true ?_ ⟨result, rfl, hto⟩
      simp [List.filter, hto]
    · rw [if_neg hto] at htr
      rcases htr2 : deepening_trace fuel board clock rest (some result.2.1) t2 with - | tr2
      · rw [htr2] at htr
        exact absurd htr (by simp)
      · rw [htr2] at htr
        simp only [Option.map_some', Option.some.injEq] at htr
        subst htr
        refine iff_of_false ?_ ?_
        · simp [List.filter, hto]
        · rintro ⟨x, hx, hflag⟩
          obtain ⟨rfl, -⟩ := List.cons.inj hx
          exact hto hflag

/-- C7: gen_best_move returns Err exactly when no iterative-deepening depth
completed, which over the depth list 3..99 happens exactly when the first
(depth-3) search already timed out; otherwise it returns the initial and
final squares of the move recorded by the last depth that fully completed,
discarding the result of the depth at which the timeout was observed (the
trace's flagged final entry is filtered out). -/
theorem claim_c7 (fuel : Nat) (board : Board) (clock : Nat → Bool)
    (r : Except Unit (Nat × Nat)) (tr : List (F32 × MoveInformation × Bool))
    (hr : gen_best_move fuel board clock = some r)
    (htr : deepening_trace fuel board clock (List.range' 3 97) none 0 = some tr) :
    (r = Except.error () ↔ tr.filter (fun x => ! x.2.2) = []) ∧
    (tr.filter (fun x => ! x.2.2) = [] ↔ ∃ x, tr = [x] ∧ x.2.2 = true) ∧
    ∀ lm, (tr.filter (fun x => ! x.2.2)).getLast? = some lm →
      r = Except.ok (lm.2.1.initial_bit, lm.2.1.final_bit) := by
  rw [gen_best_move] at hr
  rcases hloop : gen_best_move_loop fuel board clock (List.range' 3 97) none 0 with - | res
  · rw [hloop] at hr
    exact absurd hr (by simp)
  · rw [hloop] at hr
    have hL := deepening_trace_loop (List.range' 3 97) fuel board clock none 0 tr res htr hloop
    have hrange : List.range' 3 97 = 3 :: List.range' 4 96 := rfl
    rw [hrange] at htr
    have hiff := deepening_trace_empty_iff 3 (List.range' 4 96) fuel board clock none 0 tr htr
    rcases res with - | pv
    · dsimp only at hr
      obtain rfl := Option.some.inj hr
      refine ⟨iff_of_true rfl ?_, hiff, fun lm h => absurd (hL.2 lm h) (by simp)⟩
      rcases hfl : tr.filter (fun x => ! x.2.2) with - | ⟨y, ys⟩
      · exact hfl
      · have : (tr.filter (fun x => ! x.2.2)).getLast?.isSome := by
          rw [List.getLast?_isSome, hfl]
          simp
        obtain ⟨lm, hlm⟩ := Option.isSome_iff_exists.mp this
        exact absurd (hL.2 lm hlm) (by simp)
    · dsimp only at hr
      obtain rfl := Option.some.inj hr
      refine ⟨iff_of_false (by simp) ?_, hiff, fun lm h => ?_⟩
      · intro hfl
        exact absurd (hL.1 hfl) (by simp)
      · have := hL.2 lm h
        obtain rfl := Option.some.inj this
        rfl

theorem claim_c7_witness :
    gen_best_move 10 no_white_pieces_board (fun t => decide (1 ≤ t)) =
      some (Except.ok (0, 0)) ∧
    deepening_trace 10 no_white_pieces_board (fun t => decide (1 ≤ t))
      (List.range' 3 97) none 0 =
      some [(F32_MIN, MoveInformation.new, false),
            (F32.ofInt 0, MoveInformation.new, true)] ∧
    ((Except.ok (0, 0) : Except Unit (Nat × Nat)) = Except.error () ↔
      ([(F32_MIN, MoveInformation.new, false),
        (F32.ofInt 0, MoveInformation.new, true)].filter (fun x => ! x.2.2)) = []) ∧
    (([(F32_MIN, MoveInformation.new, false),
       (F32.ofInt 0, MoveInformation.new, true)].filter (fun x => ! x.2.2)) = [] ↔
      ∃ x, [(F32_MIN, MoveInformation.new, false),
            (F32.ofInt 0, MoveInformation.new, true)] = [x] ∧ x.2.2 = true) ∧
    ∀ lm, ([(F32_MIN, MoveInformation.new, false),
            (F32.ofInt 0, MoveInformation.new, true)].filter
              (fun x => ! x.2.2)).getLast? = some lm →
      (Except.ok (0, 0) : Except Unit (Nat × Nat)) =
        Except.ok (lm.2.1.initial_bit, lm.2.1.final_bit) := by
  refine ⟨by decide, by decide, ?_⟩
  exact claim_c7 10 no_white_pieces_board (fun t => decide (1 ≤ t))
    (Except.ok (0, 0))
    [(F32_MIN, MoveInformation.new, false), (F32.ofInt 0, MoveInformation.new, true)]
    (by decide) (by decide)

theorem testBit_or_elim {a b j : Nat} (h : (a ||| b).testBit j = true) :
    a.testBit j = true ∨ b.testBit j = true := by
  rw [Nat.testBit_or] at h
  rcases ha : a.testBit j <;> rcases hb : b.testBit j <;> simp [ha, hb] at h ⊢

theorem testBit_or_left {a b j : Nat} (h : a.testBit j = true) :
    (a ||| b).testBit j = true := by
  simp [Nat.testBit_or, h]

theorem testBit_or_right {a b j : Nat} (h : b.testBit j = true) :
    (a ||| b).testBit j = true := by
  simp [Nat.testBit_or, h]

theorem testBit_and_elim {a b j : Nat} (h : (a &&& b).testBit j = true) :
    a.testBit j = true ∧ b.testBit j = true := by
  rw [Nat.testBit_and] at h
  exact ⟨by rcases ha : a.testBit j <;> simp [ha] at h ⊢,
         by rcases hb : b.testBit j <;> simp [hb] at h ⊢⟩

/-- A bit surviving the removal of intercepted squares was a bit of the raw
move bitboard. -/
theorem testBit_xor_sub {a b j : Nat}
    (hsub : ∀ i, b.testBit i = true → a.testBit i = true)
    (h : (a ^^^ b).testBit j = true) : a.testBit j = true := by
  rw [Nat.testBit_xor] at h
  rcases ha : a.testBit j <;> rcases hb : b.testBit j <;> simp [ha, hb] at h ⊢
  exact absurd (hsub j hb) (by simp [ha])

theorem intercepts_subset {a f e j : Nat}
    (h : ((a &&& f) ||| (a &&& e)).testBit j = true) : a.testBit j = true := by
  rcases testBit_or_elim h with h1 | h1 <;> exact (testBit_and_elim h1).1

/-- The intercepted move bitboard is contained in the raw move bitboard. -/
theorem intercepted_mbb_subset {a f e j : Nat}
    (h : (a ^^^ ((a &&& f) ||| (a &&& e))).testBit j = true) : a.testBit j = true :=
  testBit_xor_sub (fun _ hi => intercepts_subset hi) h

theorem testBit_lt_of_lt_pow {n m j : Nat} (hn : n < 2 ^ m) (hj : n.testBit j = true) :
    j < m := by
  by_contra hge
  have h2 := Nat.testBit_lt_two_pow
    (lt_of_lt_of_le hn (Nat.pow_le_pow_right (by norm_num) (le_of_not_lt hge)))
  simp [hj] at h2

theorem isolate_byte_lt (n r : Nat) : isolate_byte n r < 256 := by
  exact Nat.mod_lt _ (by norm_num)

theorem isolate_byte_testBit (n r j : Nat) :
    (isolate_byte n r).testBit j = (decide (j < 8) && n.testBit (r * 8 + j)) := by
  rw [isolate_byte, show (256 : Nat) = 2 ^ 8 by norm_num, Nat.testBit_mod_two_pow,
    Nat.testBit_shiftRight]

theorem isolate_byte_xor (a b r : Nat) :
    isolate_byte (a ^^^ b) r = isolate_byte a r ^^^ isolate_byte b r := by
  refine Nat.eq_of_testBit_eq (fun j => ?_)
  rcases Nat.lt_or_ge j 8 with hj | hj
  · simp [isolate_byte_testBit, Nat.testBit_xor, hj]
  · have h1 : (isolate_byte (a ^^^ b) r).testBit j = false := by
      rcases h : (isolate_byte (a ^^^ b) r).testBit j
      · rfl
      · exact absurd (testBit_lt_of_lt_pow (show isolate_byte (a ^^^ b) r < 2 ^ 8 by
          simpa using isolate_byte_lt (a ^^^ b) r) h) (by omega)
    have h2 : (isolate_byte a r ^^^ isolate_byte b r).testBit j = false := by
      rw [Nat.testBit_xor]
      have ha : (isolate_byte a r).testBit j = false := by
        rcases h : (isolate_byte a r).testBit j
        · rfl
        · exact absurd (testBit_lt_of_lt_pow (show isolate_byte a r < 2 ^ 8 by
            simpa using isolate_byte_lt a r) h) (by omega)
      have hb : (isolate_byte b r).testBit j = false := by
        rcases h : (isolate_byte b r).testBit j
        · rfl
        · exact absurd (testBit_lt_of_lt_pow (show isolate_byte b r < 2 ^ 8 by
            simpa using isolate_byte_lt b r) h) (by omega)
      simp [ha, hb]
    rw [h1, h2]

/-- A nonzero byte has its trailing-zeros index below 8, and the bit there is
set. -/
theorem u8_tz_spec (b : Nat) (hb : b ≠ 0) (hlt : b < 256) :
    u8_trailing_zeros b < 8 ∧ b.testBit (u8_trailing_zeros b) = true := by
  have key : ∀ (f b : Nat), b ≠ 0 → b < 2 ^ f →
      trailing_zeros_fuel f b < f ∧ b.testBit (trailing_zeros_fuel f b) = true := by
    intro f
    induction f with
    | zero => intro b hb hlt; omega
    | succ f ih =>
      intro b hb hlt
      rw [trailing_zeros_fuel]
      by_cases h2 : b % 2 = 1
      · refine ⟨by simp [h2], ?_⟩
        simp only [h2, if_pos]
        simpa [Nat.testBit, Nat.and_comm] using h2
      · have hb2 : b / 2 ≠ 0 := by omega
        have hlt2 : b / 2 < 2 ^ f := by
          rw [pow_succ] at hlt; omega
        obtain ⟨ih1, ih2⟩ := ih (b / 2) hb2 hlt2
        rw [if_neg h2]
        refine ⟨by omega, ?_⟩
        have : b.testBit (trailing_zeros_fuel f (b / 2) + 1) =
            (b / 2).testBit (trailing_zeros_fuel f (b / 2)) := by
          rw [Nat.testBit_succ]
        rw [this]
        exact ih2
  exact key 8 b hb (by omega)

theorem testBit_one_shift {m j : Nat} (h : ((1 : Nat) <<< m).testBit j = true) : j = m := by
  rw [Nat.testBit_shiftLeft, show (1 : Nat) = 2 ^ 0 by norm_num, Nat.testBit_two_pow] at h
  simp only [Bool.and_eq_true, decide_eq_true_eq] at h
  omega

/-- Bits produced by the vertical end-removal walk are bits of the masked
bitboard. -/
theorem rmev_fuel_subset :
    ∀ (fuel : Nat) (row : Int) (mv mk : Nat) (dir : Bool) (j : Nat),
    ((remove_move_end_vertical_fuel fuel row mv mk dir).1).testBit j = true →
    mk.testBit j = true := by
  intro fuel
  induction fuel with
  | zero => intro row mv mk dir j h; simp [remove_move_end_vertical_fuel] at h
  | succ fuel ih =>
    intro row mv mk dir j h
    rcases dir with - | - <;>
    · rw [remove_move_end_vertical_fuel] at h
      by_cases hout : row > 7 ∨ row < 0
      · rw [if_pos hout] at h
        simp at h
      · rw [if_neg hout] at h
        dsimp only at h
        by_cases heq : isolate_byte mv row.toNat = isolate_byte mk row.toNat
        · rw [if_pos heq] at h
          dsimp only at h
          rcases testBit_or_elim h with h1 | h1
          · rw [Nat.testBit_shiftLeft, isolate_byte_testBit] at h1
            simp only [Bool.and_eq_true, decide_eq_true_eq] at h1
            obtain ⟨hge, -, hmk⟩ := h1
            have hj : row.toNat * 8 + (j - row.toNat * 8) = j := by omega
            rwa [hj] at hmk
          · exact ih _ mv mk _ j h1
        · rw [if_neg heq] at h
          simp at h

/-- The vertical end-removal walk stops only inside rows 0..7, at a row where
the move byte and the masked byte differ. -/
theorem rmev_fuel_stop :
    ∀ (fuel : Nat) (row : Int) (mv mk : Nat) (dir : Bool) (r : Int),
    (remove_move_end_vertical_fuel fuel row mv mk dir).2 = some r →
    0 ≤ r ∧ r ≤ 7 ∧ isolate_byte mv r.toNat ≠ isolate_byte mk r.toNat := by
  intro fuel
  induction fuel with
  | zero => intro row mv mk dir r h; simp [remove_move_end_vertical_fuel] at h
  | succ fuel ih =>
    intro row mv mk dir r h
    rcases dir with - | - <;>
    · rw [remove_move_end_vertical_fuel] at h
      by_cases hout : row > 7 ∨ row < 0
      · rw [if_pos hout] at h
        simp at h
      · rw [if_neg hout] at h
        dsimp only at h
        by_cases heq : isolate_byte mv row.toNat = isolate_byte mk row.toNat
        · rw [if_pos heq] at h
          dsimp only at h
          exact ih _ mv mk _ r h
        · rw [if_neg heq] at h
          simp only [Option.some.injEq] at h
          subst h
          exact ⟨by omega, by omega, heq⟩

/-- Bits produced by the horizontal end-removal walk are bits of the tested
byte. -/
theorem rbe_fuel_subset :
    ∀ (fuel : Nat) (bit : Int) (tb : Nat) (dir : Bool) (j : Nat),
    ((remove_byte_ends_fuel fuel bit tb dir).1).testBit j = true →
    tb.testBit j = true := by
  intro fuel
  induction fuel with
  | zero => intro bit tb dir j h; simp [remove_byte_ends_fuel] at h
  | succ fuel ih =>
    intro bit tb dir j h
    rcases dir with - | - <;>
    · rw [remove_byte_ends_fuel] at h
      by_cases hout : bit > 7 ∨ bit < 0
      · rw [if_pos hout] at h
        simp at h
      · rw [if_neg hout] at h
        dsimp only at h
        by_cases hbit : bit_on tb bit.toNat = true
        · rw [if_pos hbit] at h
          dsimp only at h
          rcases testBit_or_elim h with h1 | h1
          · obtain rfl := testBit_one_shift h1
            exact hbit
          · exact ih _ tb _ j h1
        · rw [if_neg hbit] at h
          simp at h

/-- The horizontal end-removal walk stops only inside bits 0..7, at a bit that
is clear in the tested byte. -/
theorem rbe_fuel_stop :
    ∀ (fuel : Nat) (bit : Int) (tb : Nat) (dir : Bool) (b : Int),
    (remove_byte_ends_fuel fuel bit tb dir).2 = some b →
    0 ≤ b ∧ b ≤ 7 := by
  intro fuel
  induction fuel with
  | zero => intro bit tb dir b h; simp [remove_byte_ends_fuel] at h
  | succ fuel ih =>
    intro bit tb dir b h
    rcases dir with - | - <;>
    · rw [remove_byte_ends_fuel] at h
      by_cases hout : bit > 7 ∨ bit < 0
      · rw [if_pos hout] at h
        simp at h
      · rw [if_neg hout] at h
        dsimp only at h
        by_cases hbit : bit_on tb bit.toNat = true
        · rw [if_pos hbit] at h
          dsimp only at h
          exact ih _ tb _ b h
        · rw [if_neg hbit] at h
          simp only [Option.some.injEq] at h
          subst h
          exact ⟨by omega, by omega⟩

/-- Eliminating a bit of an or-fold. -/
theorem testBit_foldl_or_elim {β : Type} (g : β → Nat) :
    ∀ (l : List β) (init j : Nat),
    ((l.foldl (fun acc x => acc ||| g x) init).testBit j = true) →
    init.testBit j = true ∨ ∃ x ∈ l, (g x).testBit j = true := by
  intro l
  induction l with
  | nil => intro init j h; exact Or.inl h
  | cons x rest ih =>
    intro init j h
    rw [List.foldl_cons] at h
    rcases ih (init ||| g x) j h with h1 | ⟨y, hy, hgy⟩
    · rcases testBit_or_elim h1 with h2 | h2
      · exact Or.inl h2
      · exact Or.inr ⟨x, by simp, h2⟩
    · exact Or.inr ⟨y, by simp [hy], hgy⟩

/-- Introducing a bit of an or-fold from the initial value. -/
theorem testBit_foldl_or_init {β : Type} (g : β → Nat) :
    ∀ (l : List β) (init j : Nat), init.testBit j = true →
    ((l.foldl (fun acc x => acc ||| g x) init).testBit j = true) := by
  intro l
  induction l with
  | nil => intro init j h; exact h
  | cons x rest ih =>
    intro init j h
    rw [List.foldl_cons]
    exact ih _ j (testBit_or_left h)

/-- Introducing a bit of an or-fold from a member contribution. -/
theorem testBit_foldl_or_mem {β : Type} (g : β → Nat) :
    ∀ (l : List β) (init j : Nat) (x : β), x ∈ l → (g x).testBit j = true →
    ((l.foldl (fun acc x => acc ||| g x) init).testBit j = true) := by
  intro l
  induction l with
  | nil => intro init j x hx; cases hx
  | cons y rest ih =>
    intro init j x hx hgx
    rw [List.foldl_cons]
    rcases List.mem_cons.mp hx with rfl | hx2
    · exact testBit_foldl_or_init g rest _ j (testBit_or_right hgx)
    · exact ih _ j x hx2 hgx

/-- Eliminating a bit of the direction fold in generate_moves. -/
theorem testBit_dirfold_elim (f : Nat → Option DirectionBitboard) (g : DirectionBitboard → Nat) :
    ∀ (l : List Nat) (init j : Nat),
    ((l.foldl (fun acc i =>
        match f i with
        | some db => acc ||| g db
        | none => acc) init).testBit j = true) →
    init.testBit j = true ∨ ∃ i ∈ l, ∃ db, f i = some db ∧ (g db).testBit j = true := by
  intro l
  induction l with
  | nil => intro init j h; exact Or.inl h
  | cons x rest ih =>
    intro init j h
    rw [List.foldl_cons] at h
    rcases hfx : f x with - | db
    · rw [hfx] at h
      rcases ih init j h with h1 | ⟨i, hi, db, hdb, hgdb⟩
      · exact Or.inl h1
      · exact Or.inr ⟨i, by simp [hi], db, hdb, hgdb⟩
    · rw [hfx] at h
      rcases ih (init ||| g db) j h with h1 | ⟨i, hi, db2, hdb2, hgdb2⟩
      · rcases testBit_or_elim h1 with h2 | h2
        · exact Or.inl h2
        · exact Or.inr ⟨x, by simp, db, hfx, h2⟩
      · exact Or.inr ⟨i, by simp [hi], db2, hdb2, hgdb2⟩

/-- A bit of one aligned attack template is a bit of the attack envelope. -/
theorem attack_envelope_mem (s k : Nat) (db : DirectionBitboard)
    (hdb : db ∈ ATTACK_TEMPLATES)
    (h : (shift_direction_bitboard s (get_piece_coordinates s) db).testBit k = true) :
    (attack_envelope s).testBit k = true :=
  testBit_foldl_or_mem _ ATTACK_TEMPLATES 0 k db hdb h

/-- The horizontal template aligned at any square is the full row byte of that
square. -/
theorem aligned_horizontal : ∀ s : Fin 64,
    shift_direction_bitboard s.val (get_piece_coordinates s.val) HORIZONTAL_LINE =
    255 <<< ((s.val / 8) * 8) := by decide

theorem testBit_255 (c : Nat) (h : c < 8) : (255 : Nat).testBit c = true := by
  rw [show (255 : Nat) = 2 ^ 8 - 1 by norm_num, Nat.testBit_two_pow_sub_one]
  simpa using h

/-- The fixed bitboard produced by fix_move_bitboard only keeps bits of the
raw move bitboard (given that the masked bitboard is contained in it). -/
theorem fix_bitboard_subset (coords : Int × Int) (dbb move masked : Nat) (k : Nat)
    (hmask : ∀ j, masked.testBit j = true → move.testBit j = true)
    (h : ((fix_move_bitboard coords dbb move masked).1).testBit k = true) :
    move.testBit k = true := by
  rw [fix_move_bitboard] at h
  by_cases hm : move = masked
  · rw [if_pos hm] at h
    exact hmask k h
  · rw [if_neg hm] at h
    dsimp only at h
    by_cases hh : dbb ≠ HORIZONTAL_LINE.bitboard
    · rw [if_pos hh] at h
      dsimp only at h
      rcases testBit_or_elim h with h1 | h1
      · exact hmask k (rmev_fuel_subset 10 _ move masked false k h1)
      · exact hmask k (rmev_fuel_subset 10 _ move masked true k h1)
    · rw [if_neg hh] at h
      dsimp only at h
      rw [Nat.testBit_shiftLeft] at h
      simp only [Bool.and_eq_true, decide_eq_true_eq] at h
      obtain ⟨hge, h1⟩ := h
      rcases testBit_or_elim h1 with h2 | h2 <;>
      · have h3 := rbe_fuel_subset 10 _ _ _ _ h2
        rw [isolate_byte_testBit] at h3
        simp only [Bool.and_eq_true, decide_eq_true_eq] at h3
        obtain ⟨-, h4⟩ := h3
        have hj : coords.2.toNat * 8 + (k - coords.2.toNat * 8) = k := by omega
        rw [hj] at h4
        exact hmask k h4

/-- Every first-intersecting bit reported by fix_move_bitboard names a set bit
of the raw move bitboard. -/
theorem fix_bitboard_cutoff (coords : Int × Int) (dbb move masked : Nat) (b : Int)
    (hmask : ∀ j, masked.testBit j = true → move.testBit j = true)
    (hrow : 0 ≤ coords.2)
    (hrowfull : ¬ dbb ≠ HORIZONTAL_LINE.bitboard →
      ∀ c : Nat, c < 8 → move.testBit (coords.2.toNat * 8 + c) = true)
    (h : (fix_move_bitboard coords dbb move masked).2.1 = some b ∨
         (fix_move_bitboard coords dbb move masked).2.2 = some b) :
    move.testBit b.toNat = true := by
  rw [fix_move_bitboard] at h
  by_cases hm : move = masked
  · rw [if_pos hm] at h
    simp at h
  · rw [if_neg hm] at h
    dsimp only at h
    by_cases hh : dbb ≠ HORIZONTAL_LINE.bitboard
    · rw [if_pos hh] at h
      dsimp only at h
      have main : ∀ (dir : Bool) (start : Int),
          get_piece_bit_option
            (get_column_from_row (remove_move_end_vertical_fuel 10 start move masked dir).2
              (move ^^^ masked))
            (remove_move_end_vertical_fuel 10 start move masked dir).2 = some b →
          move.testBit b.toNat = true := by
        intro dir start hsome
        rcases hstop : (remove_move_end_vertical_fuel 10 start move masked dir).2 with - | r
        · rw [hstop] at hsome
          simp [get_column_from_row, get_piece_bit_option] at hsome
        · rw [hstop] at hsome
          obtain ⟨hr0, hr7, hne⟩ := rmev_fuel_stop 10 start move masked dir r hstop
          simp only [get_column_from_row, get_piece_bit_option, Option.some.injEq] at hsome
          have hxor : isolate_byte (move ^^^ masked) r.toNat ≠ 0 := by
            rw [isolate_byte_xor]
            intro hz
            exact hne (Nat.xor_eq_zero.mp hz)
          obtain ⟨htzlt, htzbit⟩ := u8_tz_spec _ hxor (isolate_byte_lt _ _)
          rw [isolate_byte_testBit] at htzbit
          simp only [Bool.and_eq_true, decide_eq_true_eq] at htzbit
          have hmove := testBit_xor_sub hmask htzbit.2
          have hb : b.toNat = r.toNat * 8 +
              u8_trailing_zeros (isolate_byte (move ^^^ masked) r.toNat) := by
            rw [← hsome]
            simp only [get_piece_bit]
            omega
          rwa [hb]
      rcases h with h1 | h1
      · exact main false (coords.2 - 1) h1
      · exact main true (coords.2 + 1) h1
    · rw [if_neg hh] at h
      dsimp only at h
      have main : ∀ (dir : Bool) (start : Int),
          get_piece_bit_option
            (remove_byte_ends_fuel 10 start (isolate_byte masked coords.2.toNat) dir).2
            (some coords.2) = some b →
          move.testBit b.toNat = true := by
        intro dir start hsome
        rcases hstop : (remove_byte_ends_fuel 10 start (isolate_byte masked coords.2.toNat) dir).2
          with - | c
        · rw [hstop] at hsome
          simp [get_piece_bit_option] at hsome
        · rw [hstop] at hsome
          obtain ⟨hc0, hc7⟩ := rbe_fuel_stop 10 start _ dir c hstop
          simp only [get_piece_bit_option, Option.some.injEq] at hsome
          have hb : b.toNat = coords.2.toNat * 8 + c.toNat := by
            rw [← hsome]
            simp only [get_piece_bit]
            omega
          rw [hb]
          exact hrowfull hh c.toNat (by omega)
      rcases h with h1 | h1
      · exact main false (coords.1 - 1) h1
      · exact main true (coords.1 + 1) h1

/-- generate_moves_direction written without intermediate lets, for proof
manipulation. -/
theorem gmd_eq (piece_bit : Nat) (coords : Int × Int) (info : PieceInformation)
    (fb eb : Nat) (db : DirectionBitboard) :
    generate_moves_direction piece_bit coords info fb eb db =
    if ¬ info.is_sliding then
      if info.pawn_capture_bitboard = none then
        shift_direction_bitboard piece_bit coords db ^^^
          (shift_direction_bitboard piece_bit coords db &&& fb)
      else
        (shift_direction_bitboard piece_bit coords db ^^^
          ((shift_direction_bitboard piece_bit coords db &&& fb) |||
           (shift_direction_bitboard piece_bit coords db &&& eb))) |||
        (eb &&&
          (match info.pawn_capture_bitboard with
           | some cb => shift_direction_bitboard piece_bit coords cb
           | none => 0))
    else
      (fix_move_bitboard coords db.bitboard (shift_direction_bitboard piece_bit coords db)
        (shift_direction_bitboard piece_bit coords db ^^^
          ((shift_direction_bitboard piece_bit coords db &&& fb) |||
           (shift_direction_bitboard piece_bit coords db &&& eb)))).1 |||
      (eb &&&
        ((match (fix_move_bitboard coords db.bitboard
            (shift_direction_bitboard piece_bit coords db)
            (shift_direction_bitboard piece_bit coords db ^^^
              ((shift_direction_bitboard piece_bit coords db &&& fb) |||
               (shift_direction_bitboard piece_bit coords db &&& eb)))).2.1 with
          | some intersecting_bit => 1 <<< intersecting_bit.toNat
          | none => 0) |||
         (match (fix_move_bitboard coords db.bitboard
            (shift_direction_bitboard piece_bit coords db)
            (shift_direction_bitboard piece_bit coords db ^^^
              ((shift_direction_bitboard piece_bit coords db &&& fb) |||
               (shift_direction_bitboard piece_bit coords db &&& eb)))).2.2 with
          | some intersecting_bit => 1 <<< intersecting_bit.toNat
          | none => 0))) := rfl

/-- One direction's contribution in generate_moves stays inside the attack
envelope of the piece's square. -/
theorem gmd_subset (piece_bit : Nat) (hs : piece_bit < 64) (info : PieceInformation)
    (fb eb : Nat) (db : DirectionBitboard) (k : Nat)
    (hdb : db ∈ ATTACK_TEMPLATES)
    (hcap : ∀ cb, info.pawn_capture_bitboard = some cb → cb ∈ ATTACK_TEMPLATES)
    (h : (generate_moves_direction piece_bit (get_piece_coordinates piece_bit) info fb eb
      db).testBit k = true) :
    (attack_envelope piece_bit).testBit k = true := by
  rw [gmd_eq] at h
  generalize hmv : shift_direction_bitboard piece_bit (get_piece_coordinates piece_bit) db =
    mv at h
  have hmove : ∀ j, mv.testBit j = true → (attack_envelope piece_bit).testBit j = true := by
    intro j hj
    exact attack_envelope_mem piece_bit j db hdb (by rwa [hmv])
  by_cases hsl : info.is_sliding = true
  · rw [if_neg (by simp [hsl])] at h
    rcases testBit_or_elim h with h1 | h1
    · exact hmove k (fix_bitboard_subset _ _ _ _ k
        (fun j hj => intercepted_mbb_subset hj) h1)
    · have hcut := (testBit_and_elim h1).2
      have hrowfull : ¬ db.bitboard ≠ HORIZONTAL_LINE.bitboard →
          ∀ c : Nat, c < 8 →
          mv.testBit ((get_piece_coordinates piece_bit).2.toNat * 8 + c) = true := by
        intro hhb c hc
        have honly : ∀ t ∈ ATTACK_TEMPLATES, t.bitboard = HORIZONTAL_LINE.bitboard →
            t = HORIZONTAL_LINE := by decide
        have hdbh : db = HORIZONTAL_LINE := by
          push_neg at hhb
          exact honly db hdb hhb
        subst hdbh
        rw [← hmv, aligned_horizontal ⟨piece_bit, hs⟩]
        have hcoord : (get_piece_coordinates piece_bit).2.toNat = piece_bit / 8 := by
          simp [get_piece_coordinates]
          omega
        rw [hcoord, Nat.testBit_shiftLeft]
        simp only [Bool.and_eq_true, decide_eq_true_eq]
        constructor
        · omega
        · have : piece_bit / 8 * 8 + c - piece_bit / 8 * 8 = c := by omega
          rw [this]
          exact testBit_255 c hc
      rcases testBit_or_elim hcut with h2 | h2
      · rcases hfix : (fix_move_bitboard (get_piece_coordinates piece_bit) db.bitboard mv
            (mv ^^^ ((mv &&& fb) ||| (mv &&& eb)))).2.1 with - | ib
        · rw [hfix] at h2
          simp at h2
        · rw [hfix] at h2
          obtain rfl := testBit_one_shift h2
          exact hmove _ (fix_bitboard_cutoff _ _ _ _ ib
            (fun j hj => intercepted_mbb_subset hj)
            (by simp [get_piece_coordinates]; omega) hrowfull (Or.inl hfix))
      · rcases hfix : (fix_move_bitboard (get_piece_coordinates piece_bit) db.bitboard mv
            (mv ^^^ ((mv &&& fb) ||| (mv &&& eb)))).2.2 with - | ib
        · rw [hfix] at h2
          simp at h2
        · rw [hfix] at h2
          obtain rfl := testBit_one_shift h2
          exact hmove _ (fix_bitboard_cutoff _ _ _ _ ib
            (fun j hj => intercepted_mbb_subset hj)
            (by simp [get_piece_coordinates]; omega) hrowfull (Or.inr hfix))
  · rw [if_pos (by simp [hsl])] at h
    by_cases hcb : info.pawn_capture_bitboard = none
    · rw [if_pos hcb] at h
      exact hmove k (testBit_xor_sub (fun i hi => (testBit_and_elim hi).1) h)
    · rw [if_neg hcb] at h
      rcases testBit_or_elim h with h1 | h1
      · exact hmove k (intercepted_mbb_subset h1)
      · have h2 := (testBit_and_elim h1).2
        rcases hcb2 : info.pawn_capture_bitboard with - | cb
        · exact absurd hcb2 hcb
        · rw [hcb2] at h2
          exact attack_envelope_mem piece_bit k cb (hcap cb hcb2) h2

theorem getD_some_mem {α : Type} (l : List (Option α)) (i : Nat) (db : α)
    (h : l.getD i none = some db) : some db ∈ l := by
  rcases Nat.lt_or_ge i l.length with hlt | hge
  · rw [List.getD_eq_getElem l none hlt] at h
    rw [← h]
    exact List.getElem_mem hlt
  · rw [List.getD_eq_default l none hge] at h
    cases h

/-- The en passant component of the generate_moves result. -/
theorem gm_ep_eq (board : Board) (piece_bit piece_id : Nat) (piece_color : PieceColor)
    (pb : PerspectiveBoards) :
    (generate_moves board piece_bit piece_id piece_color pb).2.2 =
    get_en_passant_capture board pb.friendly_board pb.enemy_board piece_bit := rfl

/-- Lemma A: every bit of the move bitboard generated for a piece lies in the
attack envelope of its square, unless it is the landing square of an en
passant capture (reported in the third output component).  Generic in the
piece information, provided all its templates are attack templates. -/
theorem generate_moves_envelope (board : Board) (s : Nat) (hs : s < 64) (piece_id : Nat)
    (piece_color : PieceColor) (pb : PerspectiveBoards) (k : Nat)
    (hdirs : ∀ odb ∈ (piece_information_get pb.friendly_piece_information
        piece_id).direction_bitboards,
      ∀ db, odb = some db → db ∈ ATTACK_TEMPLATES)
    (hcap : ∀ cb, (piece_information_get pb.friendly_piece_information
        piece_id).pawn_capture_bitboard = some cb → cb ∈ ATTACK_TEMPLATES)
    (hdouble : ∀ db, (piece_information_get pb.friendly_piece_information
        piece_id).pawn_double_move_bitboard = some db → db ∈ ATTACK_TEMPLATES)
    (h : ((generate_moves board s piece_id piece_color pb).1).testBit k = true) :
    (attack_envelope s).testBit k = true ∨
    ∃ t, (generate_moves board s piece_id piece_color pb).2.2 = some (t, k) := by
  rw [generate_moves] at h
  dsimp only at h
  rcases testBit_or_elim h with h1 | h1
  · rcases testBit_or_elim h1 with h2 | h2
    · -- pawn double move component
      rcases hdm : (piece_information_get pb.friendly_piece_information
          piece_id).pawn_double_move_bitboard with - | db
      · rw [hdm] at h2
        simp at h2
      · rw [hdm] at h2
        dsimp only at h2
        by_cases hid : piece_id = read_piece_id pb.friendly_starting_board s
        · rw [if_pos hid] at h2
          by_cases hint : (calc_move_bitboards s (get_piece_coordinates s) db
              pb.gen_bitboards.1 pb.gen_bitboards.2).2.2.2 =
              (calc_move_bitboards s (get_piece_coordinates s) db
                pb.gen_bitboards.1 pb.gen_bitboards.2).1
          · rw [if_pos hint] at h2
            dsimp only at h2
            rw [show (calc_move_bitboards s (get_piece_coordinates s) db
              pb.gen_bitboards.1 pb.gen_bitboards.2).1 =
              shift_direction_bitboard s (get_piece_coordinates s) db from rfl] at h2
            exact Or.inl (attack_envelope_mem s k db (hdouble db hdm) h2)
          · rw [if_neg hint] at h2
            simp at h2
        · rw [if_neg hid] at h2
          simp at h2
    · -- direction templates component
      rcases testBit_dirfold_elim
          (fun i => (piece_information_get pb.friendly_piece_information
            piece_id).direction_bitboards.getD i none)
          (fun db => generate_moves_direction s (get_piece_coordinates s)
            (piece_information_get pb.friendly_piece_information piece_id)
            pb.gen_bitboards.1 pb.gen_bitboards.2 db)
          (List.range (piece_information_get pb.friendly_piece_information
            piece_id).move_directions)
          0 k h2 with h3 | ⟨i, hi, db, hdb, hgdb⟩
      · simp at h3
      · exact Or.inl (gmd_subset s hs _ _ _ db k
          (hdirs _ (getD_some_mem _ i db hdb) db rfl) hcap hgdb)
  · -- en passant component
    rcases hep : get_en_passant_capture board pb.friendly_board pb.enemy_board s with - | cap
    · rw [hep] at h1
      simp at h1
    · rw [hep] at h1
      dsimp only at h1
      obtain rfl := testBit_one_shift h1
      exact Or.inr ⟨cap.1, by rw [gm_ep_eq, hep]⟩

set_option maxRecDepth 10000 in
set_option maxHeartbeats 12000000 in
/-- Lemma B: the attack envelope is symmetric against the capture-template
union: if square k lies in the envelope of square s, then s lies in the
king-centred capture union of k.  Checked over all 4096 square pairs. -/
theorem envelope_symmetric_fin : ∀ s k : Fin 64,
    (attack_envelope s.val).testBit k.val = true →
    (king_envelope k.val).testBit s.val = true := by decide

theorem envelope_symmetric (s k : Nat) (hs : s < 64) (hk : k < 64)
    (h : (attack_envelope s).testBit k = true) :
    (king_envelope k).testBit s = true :=
  envelope_symmetric_fin ⟨s, hs⟩ ⟨k, hk⟩ h

theorem foldl_or_lt {β : Type} (g : β → Nat) (n : Nat) :
    ∀ (l : List β) (init : Nat), init < 2 ^ n → (∀ x ∈ l, g x < 2 ^ n) →
    l.foldl (fun acc x => acc ||| g x) init < 2 ^ n := by
  intro l
  induction l with
  | nil => intro init hinit hall; exact hinit
  | cons x rest ih =>
    intro init hinit hall
    rw [List.foldl_cons]
    exact ih (init ||| g x) (Nat.or_lt_two_pow hinit (hall x (by simp)))
      (fun y hy => hall y (by simp [hy]))

theorem shift_bytes_lt (num : Nat) (shift : Int) : shift_bytes num shift < 2 ^ 64 := by
  rw [shift_bytes]
  refine foldl_or_lt
    (fun i => (if shift < 0 then (isolate_byte num i <<< shift.natAbs) % 256
      else isolate_byte num i >>> shift.toNat) <<< (i * 8)) 64 (List.range 8) 0
    (by norm_num) ?_
  intro i hi
  dsimp only
  have hi8 : i < 8 := List.mem_range.mp hi
  have hbyte : (if shift < 0 then (isolate_byte num i <<< shift.natAbs) % 256
      else isolate_byte num i >>> shift.toNat) < 256 := by
    split
    · exact Nat.mod_lt _ (by norm_num)
    · refine lt_of_le_of_lt ?_ (isolate_byte_lt num i)
      rw [Nat.shiftRight_eq_div_pow]
      exact Nat.div_le_self _ _
  rw [Nat.shiftLeft_eq]
  calc (if shift < 0 then (isolate_byte num i <<< shift.natAbs) % 256
      else isolate_byte num i >>> shift.toNat) * 2 ^ (i * 8)
      < 256 * 2 ^ (i * 8) := by
        exact mul_lt_mul_of_pos_right hbyte (by positivity)
    _ = 2 ^ (8 + i * 8) := by
        rw [pow_add]
        norm_num
    _ ≤ 2 ^ 64 := Nat.pow_le_pow_right (by norm_num) (by omega)

theorem aligned_lt (piece_bit : Nat) (coords : Int × Int) (db : DirectionBitboard)
    (hdb : db.bitboard < 2 ^ 64) :
    shift_direction_bitboard piece_bit coords db < 2 ^ 64 := by
  rcases db with ⟨bb, ob, st⟩
  rw [shift_direction_bitboard]
  dsimp only at hdb ⊢
  split
  · exact hdb
  · rcases st with - | - | - | -
    · dsimp only
      rw [shift_u64]
      split
      · exact Nat.mod_lt _ (by norm_num)
      · refine lt_of_le_of_lt ?_ hdb
        rw [Nat.shiftRight_eq_div_pow]
        exact Nat.div_le_self _ _
    · dsimp only
      exact shift_bytes_lt _ _
    · dsimp only
      exact shift_bytes_lt _ _
    · dsimp only
      exact shift_bytes_lt _ _

theorem king_envelope_lt (king_bit : Nat) : king_envelope king_bit < 2 ^ 64 := by
  rw [king_envelope]
  refine foldl_or_lt _ 64 ALL_CAPTURE_BITBOARDS 0 (by norm_num) ?_
  intro t ht
  refine aligned_lt king_bit _ t ?_
  have : ∀ t ∈ ALL_CAPTURE_BITBOARDS, t.bitboard < 2 ^ 64 := by decide
  exact this t ht

theorem foldl_or_and_distrib {β : Type} (g : β → Nat) (e : Nat) :
    ∀ (l : List β) (init : Nat),
    l.foldl (fun acc x => acc ||| (g x &&& e)) (init &&& e) =
    (l.foldl (fun acc x => acc ||| g x) init) &&& e := by
  intro l
  induction l with
  | nil => intro init; rfl
  | cons x rest ih =>
    intro init
    rw [List.foldl_cons, List.foldl_cons]
    have hstep : (init &&& e) ||| (g x &&& e) = (init ||| g x) &&& e := by
      refine Nat.eq_of_testBit_eq (fun j => ?_)
      simp only [Nat.testBit_or, Nat.testBit_and]
      rcases he : e.testBit j <;> rcases h1 : init.testBit j <;>
        rcases h2 : (g x).testBit j <;> simp
    rw [hstep]
    exact ih (init ||| g x)

theorem foldl_or_and_zero {β : Type} (g : β → Nat) (e : Nat) (l : List β) :
    l.foldl (fun acc x => acc ||| (g x &&& e)) 0 =
    (l.foldl (fun acc x => acc ||| g x) 0) &&& e := by
  have h := foldl_or_and_distrib g e l 0
  rwa [Nat.zero_and] at h

/-- The potential-checkers bitboard is the king-centred capture union
intersected with the enemy occupancy. -/
theorem potential_eq_envelope (board : Board) (king_color : PieceColor) :
    potential_checking_pieces_bitboard board king_color =
    king_envelope (king_square board king_color) &&&
      (enemy_team_board board king_color).occupancy := by
  rcases king_color with - | - <;>
  · rw [potential_checking_pieces_bitboard, king_envelope]
    dsimp only [king_square, enemy_team_board, TeamBoard.occupancy]
    exact foldl_or_and_zero _ _ ALL_CAPTURE_BITBOARDS

theorem potential_lt (board : Board) (king_color : PieceColor) :
    potential_checking_pieces_bitboard board king_color < 2 ^ 64 := by
  rw [potential_eq_envelope]
  exact lt_of_le_of_lt Nat.and_le_left (king_envelope_lt _)

/-- The landing square reported by get_en_passant_capture carries no enemy
piece (its enemy-board id is zero). -/
theorem ep_landing_unoccupied (board : Board) (fb eb : TeamBoard) (s t c : Nat)
    (h : get_en_passant_capture board fb eb s = some (t, c)) :
    read_piece_id eb c = 0 := by
  rw [get_en_passant_capture] at h
  by_cases h1 : read_piece_id fb s ≠ PAWN_ID
  · rw [if_pos h1] at h
    cases h
  · rw [if_neg h1] at h
    rcases hep : board.en_passant_target_bit with - | tb
    · rw [hep] at h
      cases h
    · rw [hep] at h
      dsimp only at h
      by_cases h2 : ((s : Int) - (tb : Int)).natAbs > 1
      · rw [if_pos h2] at h
        cases h
      · rw [if_neg h2] at h
        by_cases h3 : read_piece_id eb tb = PAWN_ID
        · rw [if_pos h3] at h
          by_cases h4 : read_piece_id fb (calc_ep_move_bit tb board.piece_to_move) +
              read_piece_id eb (calc_ep_move_bit tb board.piece_to_move) = 0
          · rw [if_pos h4] at h
            simp only [Option.some.injEq, Prod.mk.injEq] at h
            obtain ⟨-, rfl⟩ := h
            omega
          · rw [if_neg h4] at h
            cases h
        · rw [if_neg h3] at h
          cases h

theorem getD_mem_cons {α : Type} (l : List α) (i : Nat) (d : α) : l.getD i d ∈ d :: l := by
  rcases Nat.lt_or_ge i l.length with hlt | hge
  · rw [List.getD_eq_getElem l d hlt]
    exact List.mem_cons_of_mem d (List.getElem_mem hlt)
  · rw [List.getD_eq_default l d hge]
    exact List.mem_cons_self d l

/-- Every template mentioned by an entry of either piece information array is
an attack template. -/
theorem info_templates (arr : List PieceInformation)
    (harr : arr = WHITE_PIECE_INFORMATION ∨ arr = BLACK_PIECE_INFORMATION) (id : Nat) :
    (∀ odb ∈ (piece_information_get arr id).direction_bitboards,
      ∀ db, odb = some db → db ∈ ATTACK_TEMPLATES) ∧
    (∀ cb, (piece_information_get arr id).pawn_capture_bitboard = some cb →
      cb ∈ ATTACK_TEMPLATES) ∧
    (∀ db, (piece_information_get arr id).pawn_double_move_bitboard = some db →
      db ∈ ATTACK_TEMPLATES) := by
  have hmem : piece_information_get arr id ∈ GENERIC_KING :: arr :=
    getD_mem_cons arr id GENERIC_KING
  have hall : ∀ info ∈ (GENERIC_KING :: arr),
      (∀ odb ∈ info.direction_bitboards, odb.getD DIAGONAL_RIGHT ∈ ATTACK_TEMPLATES) ∧
      (info.pawn_capture_bitboard.getD DIAGONAL_RIGHT ∈ ATTACK_TEMPLATES) ∧
      (info.pawn_double_move_bitboard.getD DIAGONAL_RIGHT ∈ ATTACK_TEMPLATES) := by
    rcases harr with rfl | rfl <;> decide
  obtain ⟨h1, h2, h3⟩ := hall _ hmem
  refine ⟨fun odb hodb db hdb => ?_, fun cb hcb => ?_, fun db hdb => ?_⟩
  · simpa [hdb] using h1 odb hodb
  · simpa [hcb] using h2
  · simpa [hdb] using h3

/-- Soundness of the check loop: a true result names an attacking entry. -/
theorem king_check_loop_sound (board : Board) (ec : PieceColor) (kb : Nat) :
    ∀ l, is_king_in_check_loop board ec kb l = true →
    ∃ s ∈ l, s ≠ FIXED_VECTOR_PLACEHOLDER_VALUE ∧
      bit_on (generate_moves board s
        (read_piece_id (PerspectiveBoards.gen board ec).friendly_board s) ec
        (PerspectiveBoards.gen board ec)).1 kb = true := by
  intro l
  induction l with
  | nil => intro h; rw [is_king_in_check_loop] at h; cases h
  | cons x rest ih =>
    intro h
    rw [is_king_in_check_loop] at h
    by_cases hph : x ≠ FIXED_VECTOR_PLACEHOLDER_VALUE
    · rw [if_pos hph] at h
      dsimp only at h
      by_cases hbit : bit_on (generate_moves board x
          (read_piece_id (PerspectiveBoards.gen board ec).friendly_board x) ec
          (PerspectiveBoards.gen board ec)).1 kb = true
      · exact ⟨x, by simp, hph, hbit⟩
      · rw [if_neg hbit] at h
        obtain ⟨s, hs, h2, h3⟩ := ih h
        exact ⟨s, by simp [hs], h2, h3⟩
    · rw [if_neg hph] at h
      obtain ⟨s, hs, h2, h3⟩ := ih h
      exact ⟨s, by simp [hs], h2, h3⟩

/-- Completeness of the check loop: an attacking non-placeholder entry makes
it return true. -/
theorem king_check_loop_complete (board : Board) (ec : PieceColor) (kb : Nat) :
    ∀ (l : List Nat) (s : Nat), s ∈ l → s ≠ FIXED_VECTOR_PLACEHOLDER_VALUE →
    bit_on (generate_moves board s
      (read_piece_id (PerspectiveBoards.gen board ec).friendly_board s) ec
      (PerspectiveBoards.gen board ec)).1 kb = true →
    is_king_in_check_loop board ec kb l = true := by
  intro l
  induction l with
  | nil => intro s hs; cases hs
  | cons x rest ih =>
    intro s hs hph hbit
    rw [is_king_in_check_loop]
    rcases List.mem_cons.mp hs with rfl | hs2
    · rw [if_pos hph]
      dsimp only
      rw [if_pos hbit]
    · by_cases hph2 : x ≠ FIXED_VECTOR_PLACEHOLDER_VALUE
      · rw [if_pos hph2]
        dsimp only
        by_cases hbit2 : bit_on (generate_moves board x
            (read_piece_id (PerspectiveBoards.gen board ec).friendly_board x) ec
            (PerspectiveBoards.gen board ec)).1 kb = true
        · rw [if_pos hbit2]
        · rw [if_neg hbit2]
          exact ih s hs2 hph hbit
      · rw [if_neg hph2]
        exact ih s hs2 hph hbit

/-- C5 (amended): the superset property and the is_king_in_check
characterisation hold under three well-formedness conditions: the cached king
bit is a valid square, the king side's own board has a king there, and the
potential-checkers bitboard has at most 16 set bits (so the bits_on shortlist
does not truncate).  The unamended claim fails when there are more than 16
potential checkers (see the counterexample). -/
theorem claim_c5_amended (board : Board) (king_color : PieceColor)
    (hkb : king_square board king_color < 64)
    (hkid : read_piece_id (own_team_board board king_color)
      (king_square board king_color) = KING_ID)
    (hpc : popcount_fuel 64 (potential_checking_pieces_bitboard board king_color) ≤
      MAX_CHECKING_PIECES) :
    (∀ s, s < 64 →
      bit_on (enemy_team_board board king_color).occupancy s = true →
      attacks_king board king_color s = true →
      s ∈ (get_potential_checking_pieces board king_color).entries) ∧
    (is_king_in_check board king_color (get_potential_checking_pieces board king_color) =
        true ↔
      ∃ s, s < 64 ∧ bit_on (enemy_team_board board king_color).occupancy s = true ∧
        attacks_king board king_color s = true) := by
  have hfb : (PerspectiveBoards.gen board (opposite_color king_color)).friendly_board =
      enemy_team_board board king_color := by
    rcases king_color with - | - <;> rfl
  have heb : (PerspectiveBoards.gen board (opposite_color king_color)).enemy_board =
      own_team_board board king_color := by
    rcases king_color with - | - <;> rfl
  have hfpi : (PerspectiveBoards.gen board
        (opposite_color king_color)).friendly_piece_information =
        WHITE_PIECE_INFORMATION ∨
      (PerspectiveBoards.gen board
        (opposite_color king_color)).friendly_piece_information =
        BLACK_PIECE_INFORMATION := by
    rcases king_color with - | -
    · exact Or.inr rfl
    · exact Or.inl rfl
  have hloopform : is_king_in_check board king_color
      (get_potential_checking_pieces board king_color) =
      is_king_in_check_loop board (opposite_color king_color)
        (king_square board king_color)
        ((get_potential_checking_pieces board king_color).internal_array.take
          (get_potential_checking_pieces board king_color).length) := by
    rcases king_color with - | - <;> rfl
  -- every in-range enemy attacker is a set bit of the potential bitboard
  have hcore : ∀ s, s < 64 →
      bit_on (enemy_team_board board king_color).occupancy s = true →
      attacks_king board king_color s = true →
      (potential_checking_pieces_bitboard board king_color).testBit s = true := by
    intro s hs hocc hatk
    rw [attacks_king, bit_on] at hatk
    obtain ⟨hdirs, hcap, hdouble⟩ := info_templates _ hfpi
      (read_piece_id (enemy_team_board board king_color) s)
    rcases generate_moves_envelope board s hs
        (read_piece_id (enemy_team_board board king_color) s)
        (opposite_color king_color)
        (PerspectiveBoards.gen board (opposite_color king_color))
        (king_square board king_color) hdirs hcap hdouble hatk with henv | ⟨t, hep⟩
    · have hsym := envelope_symmetric s (king_square board king_color) hs hkb henv
      rw [potential_eq_envelope, Nat.testBit_and, hsym]
      rw [bit_on] at hocc
      rw [hocc]
      rfl
    · rw [gm_ep_eq] at hep
      have h0 := ep_landing_unoccupied board _ _ s t _ hep
      rw [heb] at h0
      rw [hkid] at h0
      simp [KING_ID] at h0
  have hsup : ∀ s, s < 64 →
      bit_on (enemy_team_board board king_color).occupancy s = true →
      attacks_king board king_color s = true →
      s ∈ (get_potential_checking_pieces board king_color).entries := by
    intro s hs hocc hatk
    rw [get_potential_checking_pieces]
    exact bits_on_complete _ _ (potential_lt board king_color) hpc s (hcore s hs hocc hatk)
  refine ⟨hsup, ?_, ?_⟩
  · intro hchk
    rw [hloopform] at hchk
    obtain ⟨s, hsl, hph, hbit⟩ := king_check_loop_sound board (opposite_color king_color)
      (king_square board king_color) _ hchk
    have hsp : (potential_checking_pieces_bitboard board king_color).testBit s = true := by
      have : s ∈ (get_potential_checking_pieces board king_color).entries := hsl
      rw [get_potential_checking_pieces] at this
      exact bits_on_sound _ _ s this
    have hs64 : s < 64 := testBit_lt_of_lt_pow (potential_lt board king_color) hsp
    have hocc : ((enemy_team_board board king_color).occupancy).testBit s = true := by
      rw [potential_eq_envelope, Nat.testBit_and] at hsp
      exact (Bool.and_eq_true_iff.mp hsp).2
    rw [hfb] at hbit
    exact ⟨s, hs64, hocc, by rw [attacks_king]; exact hbit⟩
  · rintro ⟨s, hs, hocc, hatk⟩
    rw [hloopform]
    have hbit : bit_on (generate_moves board s
        (read_piece_id (PerspectiveBoards.gen board
          (opposite_color king_color)).friendly_board s)
        (opposite_color king_color)
        (PerspectiveBoards.gen board (opposite_color king_color))).1
        (king_square board king_color) = true := by
      rw [hfb]
      rw [attacks_king] at hatk
      exact hatk
    exact king_check_loop_complete board (opposite_color king_color)
      (king_square board king_color) _ s (hsup s hs hocc hatk)
      (by rw [FIXED_VECTOR_PLACEHOLDER_VALUE]; omega) hbit

/-- C5 counterexample: on the board with sixteen black pawns, a black rook on
square 62 and the white king on square 63, the rook is a potential checker
(its square is set in the potential-checkers bitboard) and it attacks the
king, but the bitboard has 17 set bits, so the 16-slot shortlist silently
drops the rook: the shortlist is not a superset of the attackers, and
is_king_in_check returns false although an enemy piece's generated move
bitboard contains the king's square. -/
theorem claim_c5_counterexample :
    (potential_checking_pieces_bitboard seventeen_checkers_board
      PieceColor.White).testBit 62 = true ∧
    popcount_fuel 64 (potential_checking_pieces_bitboard seventeen_checkers_board
      PieceColor.White) = 17 ∧
    bit_on (enemy_team_board seventeen_checkers_board PieceColor.White).occupancy 62 = true ∧
    attacks_king seventeen_checkers_board PieceColor.White 62 = true ∧
    ¬ 62 ∈ (get_potential_checking_pieces seventeen_checkers_board
      PieceColor.White).entries ∧
    is_king_in_check seventeen_checkers_board PieceColor.White
      (get_potential_checking_pieces seventeen_checkers_board PieceColor.White) = false := by
  refine ⟨by decide, by decide, by decide, by decide, by decide, by decide⟩

/-- Witness for the C5 amended theorem at the repo's check-validation test
board: all three well-formedness hypotheses hold there concretely. -/
theorem claim_c5_amended_witness :
    king_square check_test_board PieceColor.White < 64 ∧
    read_piece_id (own_team_board check_test_board PieceColor.White)
      (king_square check_test_board PieceColor.White) = KING_ID ∧
    popcount_fuel 64 (potential_checking_pieces_bitboard check_test_board
      PieceColor.White) ≤ MAX_CHECKING_PIECES ∧
    ((∀ s, s < 64 →
      bit_on (enemy_team_board check_test_board PieceColor.White).occupancy s = true →
      attacks_king check_test_board PieceColor.White s = true →
      s ∈ (get_potential_checking_pieces check_test_board PieceColor.White).entries) ∧
    (is_king_in_check check_test_board PieceColor.White
        (get_potential_checking_pieces check_test_board PieceColor.White) = true ↔
      ∃ s, s < 64 ∧
        bit_on (enemy_team_board check_test_board PieceColor.White).occupancy s = true ∧
        attacks_king check_test_board PieceColor.White s = true)) :=
  ⟨by decide, by decide, by decide,
   claim_c5_amended check_test_board PieceColor.White (by decide) (by decide) (by decide)⟩

theorem read_piece_id_lt (tb : TeamBoard) (s : Nat) : read_piece_id tb s < 8 := by
  rw [read_piece_id]
  split_ifs <;> decide

theorem read_piece_id_eq_zero_iff (tb : TeamBoard) (s : Nat) :
    read_piece_id tb s = 0 ↔ tb.occupancy.testBit s = false := by
  rw [read_piece_id, TeamBoard.occupancy, bit_on, bit_on, bit_on,
    Nat.testBit_or, Nat.testBit_or]
  rcases h0 : tb.w0.testBit s <;> rcases h1 : tb.w1.testBit s <;>
    rcases h2 : tb.w2.testBit s <;> simp

theorem read_zero_words (tb : TeamBoard) (s : Nat) (h : read_piece_id tb s = 0) :
    tb.w0.testBit s = false ∧ tb.w1.testBit s = false ∧ tb.w2.testBit s = false := by
  have hocc := (read_piece_id_eq_zero_iff tb s).mp h
  rw [TeamBoard.occupancy, Nat.testBit_or, Nat.testBit_or] at hocc
  rcases h0 : tb.w0.testBit s <;> rcases h1 : tb.w1.testBit s <;>
    rcases h2 : tb.w2.testBit s <;> simp_all

theorem clear_word_testBit (w c j : Nat) :
    ((if w.testBit c = true then w ^^^ (1 <<< c) else w).testBit j) =
    (if j = c then false else w.testBit j) := by
  by_cases hw : w.testBit c = true
  · rw [if_pos hw, Nat.testBit_xor, Nat.one_shiftLeft, Nat.testBit_two_pow]
    by_cases hj : j = c
    · subst hj
      rw [if_pos rfl, hw]
      simp
    · rw [if_neg hj]
      simp [show ¬ c = j from fun h => hj h.symm]
  · rw [if_neg hw]
    by_cases hj : j = c
    · subst hj
      rw [if_pos rfl]
      simpa using hw
    · rw [if_neg hj]

theorem set_word_testBit (w : Nat) (cond : Bool) (f j : Nat) :
    ((if cond = true then w ||| (1 <<< f) else w).testBit j) =
    (if j = f then (w.testBit j || cond) else w.testBit j) := by
  rcases cond with - | -
  · rw [if_neg (by simp)]
    by_cases hj : j = f
    · rw [if_pos hj, Bool.or_false]
    · rw [if_neg hj]
  · rw [if_pos rfl, Nat.testBit_or, Nat.one_shiftLeft, Nat.testBit_two_pow]
    by_cases hj : j = f
    · subst hj
      rw [if_pos rfl]
      simp
    · rw [if_neg hj]
      simp [show ¬ f = j from fun h => hj h.symm]

theorem read_remove_self (tb : TeamBoard) (c : Nat) :
    read_piece_id (remove_piece c tb) c = 0 := by
  rw [read_piece_id, remove_piece]
  dsimp only
  simp only [bit_on]
  simp only [clear_word_testBit]
  simp

theorem read_remove_other (tb : TeamBoard) (c j : Nat) (h : j ≠ c) :
    read_piece_id (remove_piece c tb) j = read_piece_id tb j := by
  rw [read_piece_id, read_piece_id, remove_piece]
  dsimp only
  simp only [bit_on]
  simp only [clear_word_testBit]
  simp only [if_neg h]

theorem occ_remove_testBit (tb : TeamBoard) (c j : Nat) :
    ((remove_piece c tb).occupancy.testBit j) =
    (if j = c then false else tb.occupancy.testBit j) := by
  simp only [TeamBoard.occupancy, remove_piece]
  simp only [bit_on]
  rw [Nat.testBit_or, Nat.testBit_or, Nat.testBit_or, Nat.testBit_or]
  simp only [clear_word_testBit]
  by_cases hj : j = c
  · simp only [if_pos hj]
    rfl
  · simp only [if_neg hj]

theorem read_insert_other (tb : TeamBoard) (f id j : Nat) (h : j ≠ f) :
    read_piece_id (insert_piece f id tb) j = read_piece_id tb j := by
  rw [read_piece_id, read_piece_id, insert_piece]
  dsimp only
  simp only [bit_on]
  simp only [set_word_testBit]
  simp only [if_neg h]

theorem occ_insert_subset (tb : TeamBoard) (f id j : Nat)
    (h : (insert_piece f id tb).occupancy.testBit j = true) :
    tb.occupancy.testBit j = true ∨ j = f := by
  by_cases hj : j = f
  · exact Or.inr hj
  · refine Or.inl ?_
    simp only [TeamBoard.occupancy, insert_piece, bit_on] at h ⊢
    rw [Nat.testBit_or, Nat.testBit_or] at h
    simp only [set_word_testBit] at h
    simp only [if_neg hj] at h
    rw [Nat.testBit_or, Nat.testBit_or]
    exact h

theorem occ_insert_self (tb : TeamBoard) (f id : Nat) (hid : id ≠ 0) (hid8 : id < 8) :
    (insert_piece f id tb).occupancy.testBit f = true := by
  simp only [TeamBoard.occupancy, insert_piece, bit_on]
  rw [Nat.testBit_or, Nat.testBit_or]
  simp only [set_word_testBit]
  simp only [eq_self_iff_true, if_true]
  have : id.testBit 0 = true ∨ id.testBit 1 = true ∨ id.testBit 2 = true := by
    interval_cases id <;> simp_all <;> decide
  rcases this with h | h | h <;> simp [h]

theorem read_insert_empty (tb : TeamBoard) (f id : Nat) (h0 : read_piece_id tb f = 0)
    (hid : id < 8) : read_piece_id (insert_piece f id tb) f = id := by
  obtain ⟨hw0, hw1, hw2⟩ := read_zero_words tb f h0
  rw [read_piece_id, insert_piece]
  dsimp only
  simp only [bit_on]
  simp only [set_word_testBit]
  simp only [eq_self_iff_true, if_true]
  rw [hw0, hw1, hw2]
  simp only [Bool.false_or]
  interval_cases id <;> decide

theorem occ_insert_testBit (tb : TeamBoard) (f id j : Nat) :
    ((insert_piece f id tb).occupancy.testBit j) =
    (if j = f then (tb.occupancy.testBit j ||
      (id.testBit 0 || id.testBit 1 || id.testBit 2)) else tb.occupancy.testBit j) := by
  simp only [TeamBoard.occupancy, insert_piece, bit_on]
  rw [Nat.testBit_or, Nat.testBit_or, Nat.testBit_or, Nat.testBit_or]
  simp only [set_word_testBit]
  by_cases hj : j = f
  · simp only [if_pos hj]
    rcases tb.w0.testBit j <;> rcases tb.w1.testBit j <;> rcases tb.w2.testBit j <;>
      rcases id.testBit 0 <;> rcases id.testBit 1 <;> rcases id.testBit 2 <;> rfl
  · simp only [if_neg hj]

theorem range_map_sum_congr (f g : Nat → Int) :
    ∀ n, (∀ s, s < n → f s = g s) →
    ((List.range n).map f).sum = ((List.range n).map g).sum := by
  intro n
  induction n with
  | zero => intro h; rfl
  | succ n ih =>
    intro h
    rw [List.range_succ, List.map_append, List.sum_append, List.map_append, List.sum_append]
    rw [ih (fun s hs => h s (by omega))]
    simp [h n (by omega)]

theorem range_map_sum_update (f g : Nat → Int) (c : Nat) :
    ∀ n, c < n → (∀ s, s ≠ c → f s = g s) →
    ((List.range n).map f).sum = ((List.range n).map g).sum + (f c - g c) := by
  intro n
  induction n with
  | zero => intro hc; omega
  | succ n ih =>
    intro hc hother
    rw [List.range_succ, List.map_append, List.sum_append, List.map_append, List.sum_append]
    by_cases hcn : c = n
    · subst hcn
      rw [range_map_sum_congr f g c (fun s hs => hother s (by omega))]
      simp only [List.map_cons, List.map_nil, List.sum_cons, List.sum_nil]
      ring
    · simp only [List.map_cons, List.map_nil, List.sum_cons, List.sum_nil]
      rw [ih (by omega) hother, hother n (fun h => hcn h.symm)]
      ring

theorem team_material_remove (tb : TeamBoard) (c : Nat) (hc : c < 64) :
    team_material (remove_piece c tb) =
    team_material tb - piece_value (read_piece_id tb c) := by
  rw [team_material, team_material]
  rw [range_map_sum_update (fun s => piece_value (read_piece_id (remove_piece c tb) s))
    (fun s => piece_value (read_piece_id tb s)) c 64 hc
    (fun s hs => by dsimp only; rw [read_remove_other tb c s hs])]
  rw [read_remove_self]
  have hv0 : piece_value 0 = 0 := rfl
  rw [hv0]
  ring

theorem team_material_insert (tb : TeamBoard) (f id : Nat) (hf : f < 64)
    (h0 : read_piece_id tb f = 0) (hid : id < 8) :
    team_material (insert_piece f id tb) = team_material tb + piece_value id := by
  rw [team_material, team_material]
  rw [range_map_sum_update (fun s => piece_value (read_piece_id (insert_piece f id tb) s))
    (fun s => piece_value (read_piece_id tb s)) f 64 hf
    (fun s hs => by dsimp only; rw [read_insert_other tb f id s hs])]
  rw [read_insert_empty tb f id h0 hid, h0]
  have hv0 : piece_value 0 = 0 := rfl
  rw [hv0]
  ring

theorem popcount_mono : ∀ (f a b : Nat),
    (∀ j, a.testBit j = true → b.testBit j = true) →
    popcount_fuel f a ≤ popcount_fuel f b := by
  intro f
  induction f with
  | zero => intro a b h; simp [popcount_fuel]
  | succ f ih =>
    intro a b hsub
    rw [popcount_fuel, popcount_fuel]
    by_cases ha : a = 0
    · simp [ha]
    · have hb : b ≠ 0 := by
        intro hb0
        refine ha (Nat.eq_of_testBit_eq (fun j => ?_))
        rcases hj : a.testBit j
        · simp [Nat.zero_testBit]
        · have h2 := hsub j hj
          rw [hb0] at h2
          rw [Nat.zero_testBit] at h2
          cases h2
      rw [if_neg ha, if_neg hb]
      have hdiv : ∀ j, (a / 2).testBit j = true → (b / 2).testBit j = true := by
        intro j hj
        rw [← Nat.testBit_succ] at hj ⊢
        exact hsub _ hj
      have hmod : a % 2 ≤ b % 2 := by
        rcases Nat.lt_or_ge (a % 2) 1 with h1 | h1
        · omega
        · have h2 : a % 2 = 1 := by omega
          have h3 : a.testBit 0 = true := by
            rw [Nat.testBit_zero]
            simp [h2]
          have h4 := hsub 0 h3
          rw [Nat.testBit_zero] at h4
          simp at h4
          omega
      have := ih (a / 2) (b / 2) hdiv
      omega

theorem popcount_two_pow : ∀ (f i : Nat), i < f →
    popcount_fuel f ((1 : Nat) <<< i) = 1 := by
  intro f
  induction f with
  | zero => intro i hi; omega
  | succ f ih =>
    intro i hi
    rw [popcount_fuel]
    rw [if_neg (show ¬((1 : Nat) <<< i = 0) by
      rw [Nat.one_shiftLeft]
      exact pow_ne_zero _ (by norm_num))]
    rcases i with - | i
    · norm_num [popcount_fuel_zero]
    · have h2 : ((1 : Nat) <<< (i + 1)) / 2 = 1 <<< i := by
        rw [Nat.one_shiftLeft, Nat.one_shiftLeft, pow_succ]
        omega
      have h3 : ((1 : Nat) <<< (i + 1)) % 2 = 0 := by
        rw [Nat.one_shiftLeft, pow_succ]
        omega
      rw [h2, h3, ih i (by omega)]

theorem popcount_clear : ∀ (f i a : Nat), i < f → a.testBit i = true →
    popcount_fuel f a = popcount_fuel f (a ^^^ ((1 : Nat) <<< i)) + 1 := by
  intro f
  induction f with
  | zero => intro i a hif; omega
  | succ f ih =>
    intro i a hif hbit
    have hane : a ≠ 0 := by
      intro h
      subst h
      rw [Nat.zero_testBit] at hbit
      cases hbit
    rw [popcount_fuel, popcount_fuel, if_neg hane]
    rcases i with - | i
    · have hmod : a % 2 = 1 := by
        rw [Nat.testBit_zero] at hbit
        simpa using hbit
      have hone : ((1 : Nat) <<< 0) = 1 := rfl
      rw [hone]
      have hdiv : (a ^^^ 1) / 2 = a / 2 := by
        refine Nat.eq_of_testBit_eq (fun j => ?_)
        rw [← Nat.testBit_succ, ← Nat.testBit_succ, Nat.testBit_xor]
        have h1 : (1 : Nat).testBit (j + 1) = false := by
          rw [show (1 : Nat) = 2 ^ 0 by norm_num, Nat.testBit_two_pow]
          simp
        simp [h1]
      have hm2 : (a ^^^ 1) % 2 = 0 := by
        have h1 : (a ^^^ 1).testBit 0 = false := by
          rw [Nat.testBit_xor, hbit]
          decide
        rw [Nat.testBit_zero] at h1
        have h2 := of_decide_eq_false h1
        omega
      by_cases hxz : a ^^^ 1 = 0
      · rw [if_pos hxz]
        have ha1 : a = 1 := Nat.xor_eq_zero.mp hxz
        subst ha1
        norm_num [popcount_fuel_zero]
      · rw [if_neg hxz, hdiv, hm2, hmod]
    · have hbit2 : (a / 2).testBit i = true := by
        rw [← Nat.testBit_succ]
        exact hbit
      have hdiv : (a ^^^ ((1 : Nat) <<< (i + 1))) / 2 = (a / 2) ^^^ ((1 : Nat) <<< i) := by
        refine Nat.eq_of_testBit_eq (fun j => ?_)
        rw [← Nat.testBit_succ, Nat.testBit_xor, Nat.testBit_xor, ← Nat.testBit_succ]
        congr 1
        rw [Nat.one_shiftLeft, Nat.one_shiftLeft, Nat.testBit_two_pow, Nat.testBit_two_pow]
        simp
      have hmod : (a ^^^ ((1 : Nat) <<< (i + 1))) % 2 = a % 2 := by
        have h1 : (a ^^^ ((1 : Nat) <<< (i + 1))).testBit 0 = a.testBit 0 := by
          rw [Nat.testBit_xor, Nat.one_shiftLeft, Nat.testBit_two_pow]
          simp
        rw [Nat.testBit_zero, Nat.testBit_zero] at h1
        rcases Nat.lt_or_ge (a % 2) 1 with h2 | h2 <;>
          rcases Nat.lt_or_ge ((a ^^^ ((1 : Nat) <<< (i + 1))) % 2) 1 with h3 | h3 <;>
          simp_all <;> omega
      by_cases hxz : a ^^^ ((1 : Nat) <<< (i + 1)) = 0
      · rw [if_pos hxz]
        have ha1 : a = (1 : Nat) <<< (i + 1) := Nat.xor_eq_zero.mp hxz
        subst ha1
        have h2 : ((1 : Nat) <<< (i + 1)) / 2 = 1 <<< i := by
          rw [Nat.one_shiftLeft, Nat.one_shiftLeft, pow_succ]
          omega
        have h3 : ((1 : Nat) <<< (i + 1)) % 2 = 0 := by
          rw [Nat.one_shiftLeft, pow_succ]
          omega
        rw [h2, h3, popcount_two_pow f i (by omega)]
      · rw [if_neg hxz, hdiv, hmod]
        have := ih i (a / 2) (by omega) hbit2
        omega

theorem popcount_set (a f : Nat) (hf : f < 64) (hbit : a.testBit f = false) :
    popcount_fuel 64 (a ||| ((1 : Nat) <<< f)) = popcount_fuel 64 a + 1 := by
  have heq : a ||| ((1 : Nat) <<< f) = a ^^^ ((1 : Nat) <<< f) := by
    refine Nat.eq_of_testBit_eq (fun j => ?_)
    rw [Nat.testBit_or, Nat.testBit_xor, Nat.one_shiftLeft, Nat.testBit_two_pow]
    by_cases hj : f = j
    · subst hj
      rw [hbit]
      simp
    · simp [hj]
  rw [heq]
  have hbit2 : (a ^^^ ((1 : Nat) <<< f)).testBit f = true := by
    rw [Nat.testBit_xor, hbit, Nat.one_shiftLeft, Nat.testBit_two_pow]
    simp
  have h1 := popcount_clear 64 f (a ^^^ ((1 : Nat) <<< f)) hf hbit2
  rw [Nat.xor_cancel_right] at h1
  omega

theorem or_eq_zero {a b : Nat} (h : a ||| b = 0) : a = 0 ∧ b = 0 := by
  constructor <;>
  · refine Nat.eq_of_testBit_eq (fun j => ?_)
    have h2 := congrArg (fun x => x.testBit j) h
    simp only [Nat.testBit_or, Nat.zero_testBit] at h2 ⊢
    rcases ha : a.testBit j <;> rcases hb : b.testBit j <;> simp_all

theorem xor_eq_self {a b : Nat} (h : a ^^^ b = a) : b = 0 := by
  calc b = (a ^^^ a) ^^^ b := by rw [Nat.xor_self, Nat.zero_xor]
    _ = a ^^^ (a ^^^ b) := by rw [Nat.xor_assoc]
    _ = a ^^^ a := by rw [h]
    _ = 0 := Nat.xor_self a

theorem and_zero_left_bit {a b : Nat} (h : a &&& b = 0) {j : Nat}
    (ha : a.testBit j = true) : b.testBit j = false := by
  have h2 := congrArg (fun x => x.testBit j) h
  simp only [Nat.testBit_and, Nat.zero_testBit, ha, Bool.true_and] at h2
  exact h2

theorem and_zero_right_bit {a b : Nat} (h : a &&& b = 0) {j : Nat}
    (hb : b.testBit j = true) : a.testBit j = false := by
  have h2 := congrArg (fun x => x.testBit j) h
  simp only [Nat.testBit_and, Nat.zero_testBit, hb, Bool.and_true] at h2
  exact h2

theorem xor_and_not_right {a f j : Nat} (h : (a ^^^ (a &&& f)).testBit j = true) :
    f.testBit j = false := by
  rw [Nat.testBit_xor, Nat.testBit_and] at h
  rcases ha : a.testBit j <;> rcases hf : f.testBit j <;> simp [ha, hf] at h ⊢

theorem intercepted_not_friendly {a f e j : Nat}
    (h : (a ^^^ ((a &&& f) ||| (a &&& e))).testBit j = true) :
    f.testBit j = false ∧ e.testBit j = false := by
  rw [Nat.testBit_xor, Nat.testBit_or, Nat.testBit_and, Nat.testBit_and] at h
  rcases ha : a.testBit j <;> rcases hf : f.testBit j <;> rcases he : e.testBit j <;>
    simp [ha, hf, he] at h ⊢

/-- The fixed bitboard produced by fix_move_bitboard only keeps bits of the
masked (intercept-free) bitboard. -/
theorem fix_bitboard_subset_masked (coords : Int × Int) (dbb move masked : Nat) (k : Nat)
    (h : ((fix_move_bitboard coords dbb move masked).1).testBit k = true) :
    masked.testBit k = true := by
  rw [fix_move_bitboard] at h
  by_cases hm : move = masked
  · rw [if_pos hm] at h
    exact h
  · rw [if_neg hm] at h
    dsimp only at h
    by_cases hh : dbb ≠ HORIZONTAL_LINE.bitboard
    · rw [if_pos hh] at h
      dsimp only at h
      rcases testBit_or_elim h with h1 | h1
      · exact rmev_fuel_subset 10 _ move masked false k h1
      · exact rmev_fuel_subset 10 _ move masked true k h1
    · rw [if_neg hh] at h
      dsimp only at h
      rw [Nat.testBit_shiftLeft] at h
      simp only [Bool.and_eq_true, decide_eq_true_eq] at h
      obtain ⟨hge, h1⟩ := h
      rcases testBit_or_elim h1 with h2 | h2 <;>
      · have h3 := rbe_fuel_subset 10 _ _ _ _ h2
        rw [isolate_byte_testBit] at h3
        simp only [Bool.and_eq_true, decide_eq_true_eq] at h3
        obtain ⟨-, h4⟩ := h3
        have hj : coords.2.toNat * 8 + (k - coords.2.toNat * 8) = k := by omega
        rwa [hj] at h4

/-- The en passant landing square carries no friendly piece. -/
theorem ep_landing_friendly (board : Board) (fb eb : TeamBoard) (s t c : Nat)
    (h : get_en_passant_capture board fb eb s = some (t, c)) :
    read_piece_id fb c = 0 := by
  rw [get_en_passant_capture] at h
  by_cases h1 : read_piece_id fb s ≠ PAWN_ID
  · rw [if_pos h1] at h
    cases h
  · rw [if_neg h1] at h
    rcases hep : board.en_passant_target_bit with - | tb
    · rw [hep] at h
      cases h
    · rw [hep] at h
      dsimp only at h
      by_cases h2 : ((s : Int) - (tb : Int)).natAbs > 1
      · rw [if_pos h2] at h
        cases h
      · rw [if_neg h2] at h
        by_cases h3 : read_piece_id eb tb = PAWN_ID
        · rw [if_pos h3] at h
          by_cases h4 : read_piece_id fb (calc_ep_move_bit tb board.piece_to_move) +
              read_piece_id eb (calc_ep_move_bit tb board.piece_to_move) = 0
          · rw [if_pos h4] at h
            simp only [Option.some.injEq, Prod.mk.injEq] at h
            obtain ⟨-, rfl⟩ := h
            omega
          · rw [if_neg h4] at h
            cases h
        · rw [if_neg h3] at h
          cases h

/-- One direction's contribution never lands on a friendly-occupied square
(given disjoint occupancies). -/
theorem gmd_dest (piece_bit : Nat) (info : PieceInformation)
    (fb eb : Nat) (db : DirectionBitboard) (k : Nat)
    (hdisj : fb &&& eb = 0)
    (h : (generate_moves_direction piece_bit (get_piece_coordinates piece_bit) info fb eb
      db).testBit k = true) :
    fb.testBit k = false := by
  rw [gmd_eq] at h
  generalize hmv : shift_direction_bitboard piece_bit (get_piece_coordinates piece_bit) db =
    mv at h
  by_cases hsl : info.is_sliding = true
  · rw [if_neg (by simp [hsl])] at h
    rcases testBit_or_elim h with h1 | h1
    · exact (intercepted_not_friendly (fix_bitboard_subset_masked _ _ _ _ k h1)).1
    · exact and_zero_right_bit hdisj (testBit_and_elim h1).1
  · rw [if_pos (by simp [hsl])] at h
    by_cases hcb : info.pawn_capture_bitboard = none
    · rw [if_pos hcb] at h
      exact xor_and_not_right h
    · rw [if_neg hcb] at h
      rcases testBit_or_elim h with h1 | h1
      · exact (intercepted_not_friendly h1).1
      · exact and_zero_right_bit hdisj (testBit_and_elim h1).1

/-- Lemma C: generate_moves never targets a friendly-occupied square when the
two occupancies are disjoint. -/
theorem gm_dest_empty (board : Board) (s : Nat) (piece_id : Nat)
    (piece_color : PieceColor) (pb : PerspectiveBoards) (k : Nat)
    (hdisj : pb.gen_bitboards.1 &&& pb.gen_bitboards.2 = 0)
    (h : ((generate_moves board s piece_id piece_color pb).1).testBit k = true) :
    pb.gen_bitboards.1.testBit k = false := by
  rw [generate_moves] at h
  dsimp only at h
  rcases testBit_or_elim h with h1 | h1
  · rcases testBit_or_elim h1 with h2 | h2
    · rcases hdm : (piece_information_get pb.friendly_piece_information
          piece_id).pawn_double_move_bitboard with - | db
      · rw [hdm] at h2
        simp at h2
      · rw [hdm] at h2
        dsimp only at h2
        by_cases hid : piece_id = read_piece_id pb.friendly_starting_board s
        · rw [if_pos hid] at h2
          by_cases hint : (calc_move_bitboards s (get_piece_coordinates s) db
              pb.gen_bitboards.1 pb.gen_bitboards.2).2.2.2 =
              (calc_move_bitboards s (get_piece_coordinates s) db
                pb.gen_bitboards.1 pb.gen_bitboards.2).1
          · rw [if_pos hint] at h2
            dsimp only at h2
            simp only [calc_move_bitboards] at hint h2
            have hz := xor_eq_self hint
            obtain ⟨hfi, -⟩ := or_eq_zero hz
            exact and_zero_left_bit hfi h2
          · rw [if_neg hint] at h2
            simp at h2
        · rw [if_neg hid] at h2
          simp at h2
    · rcases testBit_dirfold_elim
          (fun i => (piece_information_get pb.friendly_piece_information
            piece_id).direction_bitboards.getD i none)
          (fun db => generate_moves_direction s (get_piece_coordinates s)
            (piece_information_get pb.friendly_piece_information piece_id)
            pb.gen_bitboards.1 pb.gen_bitboards.2 db)
          (List.range (piece_information_get pb.friendly_piece_information
            piece_id).move_directions)
          0 k h2 with h3 | ⟨i, hi, db, hdb, hgdb⟩
      · simp at h3
      · exact gmd_dest s _ _ _ db k hdisj hgdb
  · rcases hep : get_en_passant_capture board pb.friendly_board pb.enemy_board s with - | cap
    · rw [hep] at h1
      simp at h1
    · rw [hep] at h1
      dsimp only at h1
      obtain rfl := testBit_one_shift h1
      have hfid : read_piece_id pb.friendly_board cap.2 = 0 :=
        ep_landing_friendly board pb.friendly_board pb.enemy_board s cap.1 cap.2
          (by rw [hep])
      have hocc := (read_piece_id_eq_zero_iff pb.friendly_board cap.2).mp hfid
      exact hocc

theorem remove_word_lt (w c : Nat) (hc : c < 64) (hw : w < 2 ^ 64) :
    (if bit_on w c = true then w ^^^ (1 <<< c) else w) < 2 ^ 64 := by
  split
  · exact Nat.xor_lt_two_pow hw
      (by rw [Nat.one_shiftLeft]; exact Nat.pow_lt_pow_right (by norm_num) hc)
  · exact hw

theorem set_word_lt (w f : Nat) (cond : Bool) (hf : f < 64) (hw : w < 2 ^ 64) :
    (if cond = true then w ||| (1 <<< f) else w) < 2 ^ 64 := by
  split
  · exact Nat.or_lt_two_pow hw
      (by rw [Nat.one_shiftLeft]; exact Nat.pow_lt_pow_right (by norm_num) hf)
  · exact hw

/-- Inversion of get_en_passant_capture. -/
theorem ep_capture_inv (board : Board) (fb eb : TeamBoard) (s t c : Nat)
    (h : get_en_passant_capture board fb eb s = some (t, c)) :
    board.en_passant_target_bit = some t ∧
    read_piece_id eb t = PAWN_ID ∧
    read_piece_id fb c = 0 ∧ read_piece_id eb c = 0 ∧
    c = calc_ep_move_bit t board.piece_to_move := by
  rw [get_en_passant_capture] at h
  by_cases h1 : read_piece_id fb s ≠ PAWN_ID
  · rw [if_pos h1] at h
    cases h
  · rw [if_neg h1] at h
    rcases hep : board.en_passant_target_bit with - | tb
    · rw [hep] at h
      cases h
    · rw [hep] at h
      dsimp only at h
      by_cases h2 : ((s : Int) - (tb : Int)).natAbs > 1
      · rw [if_pos h2] at h
        cases h
      · rw [if_neg h2] at h
        by_cases h3 : read_piece_id eb tb = PAWN_ID
        · rw [if_pos h3] at h
          by_cases h4 : read_piece_id fb (calc_ep_move_bit tb board.piece_to_move) +
              read_piece_id eb (calc_ep_move_bit tb board.piece_to_move) = 0
          · rw [if_pos h4] at h
            simp only [Option.some.injEq, Prod.mk.injEq] at h
            obtain ⟨rfl, rfl⟩ := h
            exact ⟨rfl, h3, by omega, by omega, rfl⟩
          · rw [if_neg h4] at h
            cases h
        · rw [if_neg h3] at h
          cases h

/-- Inversion of the capture component of get_ep_bits_for_turn. -/
theorem ep_bits_capture_inv (t_opt : Option Nat) (cap_opt : Option (Nat × Nat))
    (f c : Nat) (h : (get_ep_bits_for_turn t_opt cap_opt f).2 = some c) :
    cap_opt = some (c, f) := by
  rw [get_ep_bits_for_turn.eq_def] at h
  dsimp only at h
  rcases cap_opt with - | cb
  · cases h
  · dsimp only at h
    by_cases hf : f = cb.2
    · rw [if_pos hf] at h
      obtain rfl := Option.some.inj h
      rw [hf]
    · rw [if_neg hf] at h
      cases h

/-- Inversion of the target component of get_ep_bits_for_turn. -/
theorem ep_bits_target_inv (t_opt : Option Nat) (cap_opt : Option (Nat × Nat))
    (f t : Nat) (h : (get_ep_bits_for_turn t_opt cap_opt f).1 = some t) :
    t = f := by
  rw [get_ep_bits_for_turn.eq_def] at h
  dsimp only at h
  rcases t_opt with - | t0
  · cases h
  · dsimp only at h
    by_cases hf : f = t0
    · rw [if_pos hf] at h
      obtain rfl := Option.some.inj h
      omega
    · rw [if_neg hf] at h
      cases h

/-- Two boards sharing team boards generate the same move bit at any square
that is not an en passant landing square of either board. -/
theorem gm_testBit_transfer (b1 b2 : Board) (s id : Nat) (color : PieceColor)
    (pb : PerspectiveBoards) (k : Nat)
    (h1 : ∀ t c, get_en_passant_capture b1 pb.friendly_board pb.enemy_board s =
      some (t, c) → c ≠ k)
    (h2 : ∀ t c, get_en_passant_capture b2 pb.friendly_board pb.enemy_board s =
      some (t, c) → c ≠ k) :
    ((generate_moves b1 s id color pb).1).testBit k =
    ((generate_moves b2 s id color pb).1).testBit k := by
  have key : ∀ b : Board,
      (∀ t c, get_en_passant_capture b pb.friendly_board pb.enemy_board s =
        some (t, c) → c ≠ k) →
      (match get_en_passant_capture b pb.friendly_board pb.enemy_board s with
       | some cap_bits => (1 : Nat) <<< cap_bits.2
       | none => 0).testBit k = false := by
    intro b hb
    rcases hep : get_en_passant_capture b pb.friendly_board pb.enemy_board s with - | cap
    · simp [Nat.zero_testBit]
    · dsimp only
      rcases hbit : ((1 : Nat) <<< cap.2).testBit k
      · rfl
      · obtain rfl := testBit_one_shift hbit
        exact absurd rfl (hb cap.1 cap.2 (by rw [hep]))
  rw [generate_moves, generate_moves]
  dsimp only
  simp only [Nat.testBit_or]
  rw [key b1 h1, key b2 h2]

/-- Every genuine attacker of the king sits on a set bit of the
potential-checkers bitboard (extracted core of the C5 analysis). -/
theorem attacker_potential_bit (board : Board) (king_color : PieceColor)
    (hkb : king_square board king_color < 64)
    (hkid : read_piece_id (own_team_board board king_color)
      (king_square board king_color) = KING_ID)
    (s : Nat) (hs : s < 64)
    (hocc : bit_on (enemy_team_board board king_color).occupancy s = true)
    (hatk : attacks_king board king_color s = true) :
    (potential_checking_pieces_bitboard board king_color).testBit s = true := by
  have heb : (PerspectiveBoards.gen board (opposite_color king_color)).enemy_board =
      own_team_board board king_color := by
    rcases king_color with - | - <;> rfl
  have hfpi : (PerspectiveBoards.gen board
        (opposite_color king_color)).friendly_piece_information =
        WHITE_PIECE_INFORMATION ∨
      (PerspectiveBoards.gen board
        (opposite_color king_color)).friendly_piece_information =
        BLACK_PIECE_INFORMATION := by
    rcases king_color with - | -
    · exact Or.inr rfl
    · exact Or.inl rfl
  rw [attacks_king, bit_on] at hatk
  obtain ⟨hdirs, hcap, hdouble⟩ := info_templates _ hfpi
    (read_piece_id (enemy_team_board board king_color) s)
  rcases generate_moves_envelope board s hs
      (read_piece_id (enemy_team_board board king_color) s)
      (opposite_color king_color)
      (PerspectiveBoards.gen board (opposite_color king_color))
      (king_square board king_color) hdirs hcap hdouble hatk with henv | ⟨t, hep⟩
  · have hsym := envelope_symmetric s (king_square board king_color) hs hkb henv
    rw [potential_eq_envelope, Nat.testBit_and, hsym]
    rw [bit_on] at hocc
    rw [hocc]
    rfl
  · rw [gm_ep_eq] at hep
    have h0 := ep_landing_unoccupied board _ _ s t _ hep
    rw [heb] at h0
    rw [hkid] at h0
    simp [KING_ID] at h0

/-- The capture value computed by take_turn equals the model's piece_value of
the captured id. -/
theorem capture_value_eq (capid : Nat) :
    (if capid = 0 then 0
     else (piece_information_get BLACK_PIECE_INFORMATION capid).piece_value) =
    piece_value capid := by
  by_cases h : capid = 0
  · subst h
    rfl
  · rw [if_neg h, piece_value]

set_option maxHeartbeats 4000000 in
set_option maxRecDepth 4000 in
/-- The starting board satisfies all structural invariants. -/
theorem board_new_inv : BoardInv Board.new := by
  constructor <;> decide

theorem remove_noop (tb : TeamBoard) (c : Nat) (h : tb.occupancy.testBit c = false) :
    remove_piece c tb = tb := by
  have h012 : tb.w0.testBit c = false ∧ tb.w1.testBit c = false ∧ tb.w2.testBit c = false := by
    rw [TeamBoard.occupancy, Nat.testBit_or, Nat.testBit_or] at h
    rcases h0 : tb.w0.testBit c <;> rcases h1 : tb.w1.testBit c <;>
      rcases h2 : tb.w2.testBit c <;> simp_all
  rw [remove_piece, bit_on, bit_on, bit_on, h012.1, h012.2.1, h012.2.2]
  simp

theorem white_core (b : Board) (inv : BoardInv b) (hptm : b.piece_to_move = PieceColor.White)
    (s f capsq : Nat) (hs : s < 64) (hf : f < 64) (hcsq : capsq < 64)
    (hid0 : read_piece_id b.white_board s ≠ 0)
    (hgm : ((generate_moves b s (read_piece_id b.white_board s) PieceColor.White
      (PerspectiveBoards.gen b PieceColor.White)).1).testBit f = true)
    (hcapk : capsq ≠ b.black_king_bit)
    (hfen : (remove_piece capsq b.black_board).occupancy.testBit f = false)
    (epa et : Option Nat) (het64 : ∀ t, et = some t → t < 64) (c_hm c_fm : Int)
    (hchk : is_king_in_check
      { b with
        white_board := insert_piece f (read_piece_id b.white_board s)
          (remove_piece s b.white_board)
        black_board := remove_piece capsq b.black_board
        white_king_bit := if read_piece_id b.white_board s = KING_ID then f
          else b.white_king_bit
        black_material := b.black_material -
          piece_value (read_piece_id b.black_board capsq)
        en_passant_target_bit := epa
        piece_to_move := PieceColor.White }
      PieceColor.White
      (if read_piece_id b.white_board s = KING_ID then
        get_potential_checking_pieces
          { b with
            white_board := insert_piece f (read_piece_id b.white_board s)
              (remove_piece s b.white_board)
            black_board := remove_piece capsq b.black_board
            white_king_bit := if read_piece_id b.white_board s = KING_ID then f
              else b.white_king_bit
            black_material := b.black_material -
              piece_value (read_piece_id b.black_board capsq)
            en_passant_target_bit := epa
            piece_to_move := PieceColor.White }
          PieceColor.White
       else get_potential_checking_pieces b PieceColor.White) = false) :
    BoardInv
      { b with
        white_board := insert_piece f (read_piece_id b.white_board s)
          (remove_piece s b.white_board)
        black_board := remove_piece capsq b.black_board
        white_king_bit := if read_piece_id b.white_board s = KING_ID then f
          else b.white_king_bit
        black_material := b.black_material -
          piece_value (read_piece_id b.black_board capsq)
        en_passant_target_bit := et
        halfmove_clock := c_hm
        fullmove_number := c_fm
        piece_to_move := PieceColor.Black } := by
  have hid8 : read_piece_id b.white_board s < 8 := read_piece_id_lt b.white_board s
  have hid7 : read_piece_id b.white_board s ≠ 7 := inv.wno7 s hs
  have hsocc : b.white_board.occupancy.testBit s = true := by
    rcases h : b.white_board.occupancy.testBit s
    · exact absurd ((read_piece_id_eq_zero_iff _ _).mpr h) hid0
    · rfl
  have hfocc : b.white_board.occupancy.testBit f = false :=
    gm_dest_empty b s (read_piece_id b.white_board s) PieceColor.White
      (PerspectiveBoards.gen b PieceColor.White) f inv.disj hgm
  have hfremocc : (remove_piece s b.white_board).occupancy.testBit f = false := by
    rw [occ_remove_testBit]
    by_cases h : f = s
    · rw [if_pos h]
    · rw [if_neg h]
      exact hfocc
  have hfremid : read_piece_id (remove_piece s b.white_board) f = 0 :=
    (read_piece_id_eq_zero_iff _ _).mpr hfremocc
  have hfrid : read_piece_id (insert_piece f (read_piece_id b.white_board s)
      (remove_piece s b.white_board)) f = read_piece_id b.white_board s :=
    read_insert_empty _ f _ hfremid hid8
  have hfrid_other : ∀ j, j ≠ f → j ≠ s →
      read_piece_id (insert_piece f (read_piece_id b.white_board s)
        (remove_piece s b.white_board)) j = read_piece_id b.white_board j := by
    intro j hjf hjs
    rw [read_insert_other _ _ _ _ hjf, read_remove_other _ _ _ hjs]
  have hfrid_s : s ≠ f →
      read_piece_id (insert_piece f (read_piece_id b.white_board s)
        (remove_piece s b.white_board)) s = 0 := by
    intro hsf
    rw [read_insert_other _ _ _ _ hsf, read_remove_self]
  have henid_c : read_piece_id (remove_piece capsq b.black_board) capsq = 0 :=
    read_remove_self _ _
  have henid_other : ∀ j, j ≠ capsq →
      read_piece_id (remove_piece capsq b.black_board) j = read_piece_id b.black_board j :=
    fun j hj => read_remove_other _ _ _ hj
  have hfbk : f ≠ b.black_king_bit := by
    intro heq
    have hown : (own_team_board b b.piece_to_move).occupancy.testBit s = true := by
      rw [hptm]
      exact hsocc
    have h2 := inv.no_check s hs hown
    rw [hptm] at h2
    have h3 : attacks_king b (opposite_color PieceColor.White) s = true := by
      rw [attacks_king, bit_on]
      show ((generate_moves b s (read_piece_id b.white_board s) PieceColor.White
        (PerspectiveBoards.gen b PieceColor.White)).1).testBit b.black_king_bit = true
      rw [← heq]
      exact hgm
    rw [h2] at h3
    cases h3
  have hwkf : b.white_king_bit ≠ f := by
    intro heq
    have hocc : b.white_board.occupancy.testBit b.white_king_bit = true := by
      rcases h : b.white_board.occupancy.testBit b.white_king_bit
      · have := (read_piece_id_eq_zero_iff _ _).mpr h
        rw [inv.wkid] at this
        cases this
      · rfl
    rw [heq, hfocc] at hocc
    cases hocc
  have hwk_cases : ∀ hK : read_piece_id b.white_board s = KING_ID, s = b.white_king_bit := by
    intro hK
    by_contra hne
    exact inv.wkuniq s hs hne hK
  have hwkid2 : read_piece_id
      (insert_piece f (read_piece_id b.white_board s) (remove_piece s b.white_board))
      (if read_piece_id b.white_board s = KING_ID then f else b.white_king_bit) =
      KING_ID := by
    by_cases hK : read_piece_id b.white_board s = KING_ID
    · rw [if_pos hK, hfrid]
      exact hK
    · rw [if_neg hK]
      rw [hfrid_other b.white_king_bit (fun h => hwkf h) (fun h => hK (h ▸ inv.wkid))]
      exact inv.wkid
  have hwk64 : (if read_piece_id b.white_board s = KING_ID then f else b.white_king_bit) <
      64 := by
    split
    · exact hf
    · exact inv.wkb
  have hoccfr : ∀ j, (insert_piece f (read_piece_id b.white_board s)
      (remove_piece s b.white_board)).occupancy.testBit j = true →
      b.white_board.occupancy.testBit j = true ∨ j = f := by
    intro j hj
    rcases occ_insert_subset _ _ _ _ hj with h1 | h1
    · rw [occ_remove_testBit] at h1
      by_cases hjs : j = s
      · rw [if_pos hjs] at h1
        cases h1
      · rw [if_neg hjs] at h1
        exact Or.inl h1
    · exact Or.inr h1
  have hoccen : ∀ j, (remove_piece capsq b.black_board).occupancy.testBit j = true →
      b.black_board.occupancy.testBit j = true := by
    intro j hj
    rw [occ_remove_testBit] at hj
    by_cases hjc : j = capsq
    · rw [if_pos hjc] at hj
      cases hj
    · rw [if_neg hjc] at hj
      exact hj
  have hdisj2 : (insert_piece f (read_piece_id b.white_board s)
      (remove_piece s b.white_board)).occupancy &&&
      (remove_piece capsq b.black_board).occupancy = 0 := by
    refine Nat.eq_of_testBit_eq (fun j => ?_)
    rw [Nat.testBit_and, Nat.zero_testBit]
    rcases h1 : (insert_piece f (read_piece_id b.white_board s)
        (remove_piece s b.white_board)).occupancy.testBit j
    · rfl
    · rcases h2 : (remove_piece capsq b.black_board).occupancy.testBit j
      · rfl
      · rcases hoccfr j h1 with h3 | rfl
        · have h4 := hoccen j h2
          rw [and_zero_left_bit inv.disj h3] at h4
          cases h4
        · rw [hfen] at h2
          cases h2
  have hbpc2 : popcount_fuel 64 (remove_piece capsq b.black_board).occupancy ≤ 16 :=
    le_trans (popcount_mono 64 _ _ hoccen) inv.bpc
  have hwpc2 : popcount_fuel 64
      (insert_piece f (read_piece_id b.white_board s)
        (remove_piece s b.white_board)).occupancy ≤ 16 := by
    have h1 : (remove_piece s b.white_board).occupancy =
        b.white_board.occupancy ^^^ ((1 : Nat) <<< s) := by
      refine Nat.eq_of_testBit_eq (fun j => ?_)
      rw [occ_remove_testBit, Nat.testBit_xor, Nat.one_shiftLeft, Nat.testBit_two_pow]
      by_cases hjs : j = s
      · rw [if_pos hjs, hjs, hsocc]
        simp
      · rw [if_neg hjs]
        simp [show ¬ s = j from fun h => hjs h.symm]
    have h2 := popcount_clear 64 s b.white_board.occupancy hs hsocc
    have h3 : (insert_piece f (read_piece_id b.white_board s)
        (remove_piece s b.white_board)).occupancy =
        (remove_piece s b.white_board).occupancy ||| ((1 : Nat) <<< f) := by
      refine Nat.eq_of_testBit_eq (fun j => ?_)
      rw [occ_insert_testBit, Nat.testBit_or, Nat.one_shiftLeft, Nat.testBit_two_pow]
      by_cases hjf : j = f
      · rw [if_pos hjf, hjf, hfremocc]
        have hbits : ∀ n : Nat, n < 8 → n ≠ 0 →
            (n.testBit 0 || n.testBit 1 || n.testBit 2) = true := by decide
        rw [hbits _ hid8 hid0]
        simp
      · rw [if_neg hjf]
        simp [show ¬ f = j from fun h => hjf h.symm]
    rw [h3, popcount_set _ f hf hfremocc, h1]
    have h4 := inv.wpc
    omega
  constructor
  case ww0 =>
    dsimp only [insert_piece, remove_piece]
    exact set_word_lt _ _ _ hf (remove_word_lt _ _ hs inv.ww0)
  case ww1 =>
    dsimp only [insert_piece, remove_piece]
    exact set_word_lt _ _ _ hf (remove_word_lt _ _ hs inv.ww1)
  case ww2 =>
    dsimp only [insert_piece, remove_piece]
    exact set_word_lt _ _ _ hf (remove_word_lt _ _ hs inv.ww2)
  case bw0 =>
    dsimp only [remove_piece]
    exact remove_word_lt _ _ hcsq inv.bw0
  case bw1 =>
    dsimp only [remove_piece]
    exact remove_word_lt _ _ hcsq inv.bw1
  case bw2 =>
    dsimp only [remove_piece]
    exact remove_word_lt _ _ hcsq inv.bw2
  case disj => exact hdisj2
  case wkb => exact hwk64
  case bkb => exact inv.bkb
  case wkid => exact hwkid2
  case bkid =>
    show read_piece_id (remove_piece capsq b.black_board) b.black_king_bit = KING_ID
    rw [henid_other _ (fun h => hcapk h.symm)]
    exact inv.bkid
  case wkuniq =>
    intro j hj hjk
    by_cases hK : read_piece_id b.white_board s = KING_ID
    · rw [if_pos hK] at hjk
      have hswk := hwk_cases hK
      by_cases hjs : j = s
      · subst hjs
        rw [hfrid_s (fun h => hjk h)]
        decide
      · rw [hfrid_other j hjk hjs]
        exact inv.wkuniq j hj (fun h => hjs (h.trans hswk.symm))
    · rw [if_neg hK] at hjk
      by_cases hjf : j = f
      · subst hjf
        rw [hfrid]
        exact hK
      · by_cases hjs : j = s
        · subst hjs
          rw [hfrid_s hjf]
          decide
        · rw [hfrid_other j hjf hjs]
          exact inv.wkuniq j hj hjk
  case bkuniq =>
    intro j hj hjk
    by_cases hjc : j = capsq
    · subst hjc
      rw [henid_c]
      decide
    · rw [henid_other j hjc]
      exact inv.bkuniq j hj hjk
  case wno7 =>
    intro j hj
    by_cases hjf : j = f
    · subst hjf
      rw [hfrid]
      exact hid7
    · by_cases hjs : j = s
      · subst hjs
        rw [hfrid_s hjf]
        decide
      · rw [hfrid_other j hjf hjs]
        exact inv.wno7 j hj
  case bno7 =>
    intro j hj
    by_cases hjc : j = capsq
    · subst hjc
      rw [henid_c]
      decide
    · rw [henid_other j hjc]
      exact inv.bno7 j hj
  case wmat =>
    show b.white_material = team_material (insert_piece f (read_piece_id b.white_board s)
      (remove_piece s b.white_board))
    rw [team_material_insert _ f _ hf hfremid hid8, team_material_remove _ s hs, inv.wmat]
    ring
  case bmat =>
    show b.black_material - piece_value (read_piece_id b.black_board capsq) =
      team_material (remove_piece capsq b.black_board)
    rw [team_material_remove _ capsq hcsq, inv.bmat]
  case wpc => exact hwpc2
  case bpc => exact hbpc2
  case eptb => exact het64
  case no_check =>
    intro j hj hocc
    set FR := insert_piece f (read_piece_id b.white_board s) (remove_piece s b.white_board)
      with hFR
    set EN := remove_piece capsq b.black_board with hEN
    set WK2 := (if read_piece_id b.white_board s = KING_ID then f else b.white_king_bit)
      with hWK2
    set BAM : Board := { b with
        white_board := FR
        black_board := EN
        white_king_bit := WK2
        black_material := b.black_material -
          piece_value (read_piece_id b.black_board capsq)
        en_passant_target_bit := epa
        piece_to_move := PieceColor.White } with hBAM
    dsimp only [own_team_board, opposite_color] at hocc ⊢
    rcases hatk : attacks_king
        { b with
          white_board := FR
          black_board := EN
          white_king_bit := WK2
          black_material := b.black_material -
            piece_value (read_piece_id b.black_board capsq)
          en_passant_target_bit := et
          halfmove_clock := c_hm
          fullmove_number := c_fm
          piece_to_move := PieceColor.Black }
        PieceColor.White j with - | -
    · rfl
    · exfalso
      rw [attacks_king, bit_on] at hatk
      dsimp only [enemy_team_board, opposite_color, king_square] at hatk
      have hepX : ∀ bX : Board, ∀ t c,
          get_en_passant_capture bX
            (PerspectiveBoards.gen BAM PieceColor.Black).friendly_board
            (PerspectiveBoards.gen BAM PieceColor.Black).enemy_board j = some (t, c) →
          c ≠ WK2 := by
        intro bX t c hepc heq
        have h0 : read_piece_id FR c = 0 :=
          ep_landing_unoccupied bX _ _ j t c hepc
        rw [heq, hwkid2] at h0
        cases h0
      have hatk2 : ((generate_moves
          { b with
            white_board := FR
            black_board := EN
            white_king_bit := WK2
            black_material := b.black_material -
              piece_value (read_piece_id b.black_board capsq)
            en_passant_target_bit := et
            halfmove_clock := c_hm
            fullmove_number := c_fm
            piece_to_move := PieceColor.Black }
          j (read_piece_id EN j) PieceColor.Black
          (PerspectiveBoards.gen BAM PieceColor.Black)).1).testBit WK2 = true := hatk
      have htr := gm_testBit_transfer
        { b with
          white_board := FR
          black_board := EN
          white_king_bit := WK2
          black_material := b.black_material -
            piece_value (read_piece_id b.black_board capsq)
          en_passant_target_bit := et
          halfmove_clock := c_hm
          fullmove_number := c_fm
          piece_to_move := PieceColor.Black }
        BAM j (read_piece_id EN j) PieceColor.Black
        (PerspectiveBoards.gen BAM PieceColor.Black) WK2
        (hepX _) (hepX _)
      rw [htr] at hatk2
      have hatkB2 : attacks_king BAM PieceColor.White j = true := by
        rw [attacks_king, bit_on]
        dsimp only [enemy_team_board, opposite_color, king_square]
        exact hatk2
      have hpot := attacker_potential_bit BAM PieceColor.White hwk64 hwkid2 j hj hocc hatkB2
      have hloopbit : bit_on ((generate_moves BAM j
          (read_piece_id (PerspectiveBoards.gen BAM PieceColor.Black).friendly_board j)
          PieceColor.Black (PerspectiveBoards.gen BAM PieceColor.Black)).1) WK2 = true :=
        hatk2
      by_cases hK : read_piece_id b.white_board s = KING_ID
      · rw [if_pos hK] at hchk
        have hsub : ∀ i, (potential_checking_pieces_bitboard BAM
            PieceColor.White).testBit i = true → EN.occupancy.testBit i = true := by
          intro i hi
          rw [potential_eq_envelope, Nat.testBit_and] at hi
          exact (Bool.and_eq_true_iff.mp hi).2
        have hpc : popcount_fuel 64 (potential_checking_pieces_bitboard BAM
            PieceColor.White) ≤ MAX_CHECKING_PIECES :=
          le_trans (popcount_mono 64 _ _ hsub) hbpc2
        have hmem : j ∈ (get_potential_checking_pieces BAM PieceColor.White).entries := by
          rw [get_potential_checking_pieces]
          exact bits_on_complete _ _ (potential_lt _ _) hpc j hpot
        have hloop := king_check_loop_complete BAM PieceColor.Black WK2
          ((get_potential_checking_pieces BAM
            PieceColor.White).internal_array.take
            (get_potential_checking_pieces BAM PieceColor.White).length)
          j hmem (by rw [FIXED_VECTOR_PLACEHOLDER_VALUE]; omega) hloopbit
        have hfin : is_king_in_check BAM PieceColor.White
            (get_potential_checking_pieces BAM PieceColor.White) = true := hloop
        rw [hfin] at hchk
        cases hchk
      · rw [if_neg hK] at hchk
        have hsubpot : ∀ i, (potential_checking_pieces_bitboard BAM
            PieceColor.White).testBit i = true →
            (potential_checking_pieces_bitboard b PieceColor.White).testBit i = true := by
          intro i hi
          rw [potential_eq_envelope, Nat.testBit_and] at hi
          obtain ⟨h1, h2⟩ := Bool.and_eq_true_iff.mp hi
          rw [potential_eq_envelope, Nat.testBit_and]
          refine Bool.and_eq_true_iff.mpr ⟨?_, ?_⟩
          · dsimp only [king_square] at h1 ⊢
            rw [hWK2] at h1
            rw [if_neg hK] at h1
            exact h1
          · exact hoccen i h2
        have hsub2 : ∀ i, (potential_checking_pieces_bitboard b
            PieceColor.White).testBit i = true →
            b.black_board.occupancy.testBit i = true := by
          intro i hi
          rw [potential_eq_envelope, Nat.testBit_and] at hi
          exact (Bool.and_eq_true_iff.mp hi).2
        have hpc : popcount_fuel 64 (potential_checking_pieces_bitboard b
            PieceColor.White) ≤ MAX_CHECKING_PIECES :=
          le_trans (popcount_mono 64 _ _ hsub2) inv.bpc
        have hmem : j ∈ (get_potential_checking_pieces b PieceColor.White).entries := by
          rw [get_potential_checking_pieces]
          exact bits_on_complete _ _ (potential_lt _ _) hpc j (hsubpot j hpot)
        have hloop := king_check_loop_complete BAM PieceColor.Black WK2
          ((get_potential_checking_pieces b
            PieceColor.White).internal_array.take
            (get_potential_checking_pieces b PieceColor.White).length)
          j hmem (by rw [FIXED_VECTOR_PLACEHOLDER_VALUE]; omega) hloopbit
        have hfin : is_king_in_check BAM PieceColor.White
            (get_potential_checking_pieces b PieceColor.White) = true := hloop
        rw [hfin] at hchk
        cases hchk

theorem black_core (b : Board) (inv : BoardInv b) (hptm : b.piece_to_move = PieceColor.Black)
    (s f capsq : Nat) (hs : s < 64) (hf : f < 64) (hcsq : capsq < 64)
    (hid0 : read_piece_id b.black_board s ≠ 0)
    (hgm : ((generate_moves b s (read_piece_id b.black_board s) PieceColor.Black
      (PerspectiveBoards.gen b PieceColor.Black)).1).testBit f = true)
    (hcapk : capsq ≠ b.white_king_bit)
    (hfen : (remove_piece capsq b.white_board).occupancy.testBit f = false)
    (epa et : Option Nat) (het64 : ∀ t, et = some t → t < 64) (c_hm c_fm : Int)
    (hchk : is_king_in_check
      { b with
        black_board := insert_piece f (read_piece_id b.black_board s)
          (remove_piece s b.black_board)
        white_board := remove_piece capsq b.white_board
        black_king_bit := if read_piece_id b.black_board s = KING_ID then f
          else b.black_king_bit
        white_material := b.white_material -
          piece_value (read_piece_id b.white_board capsq)
        en_passant_target_bit := epa
        piece_to_move := PieceColor.Black }
      PieceColor.Black
      (if read_piece_id b.black_board s = KING_ID then
        get_potential_checking_pieces
          { b with
            black_board := insert_piece f (read_piece_id b.black_board s)
              (remove_piece s b.black_board)
            white_board := remove_piece capsq b.white_board
            black_king_bit := if read_piece_id b.black_board s = KING_ID then f
              else b.black_king_bit
            white_material := b.white_material -
              piece_value (read_piece_id b.white_board capsq)
            en_passant_target_bit := epa
            piece_to_move := PieceColor.Black }
          PieceColor.Black
       else get_potential_checking_pieces b PieceColor.Black) = false) :
    BoardInv
      { b with
        black_board := insert_piece f (read_piece_id b.black_board s)
          (remove_piece s b.black_board)
        white_board := remove_piece capsq b.white_board
        black_king_bit := if read_piece_id b.black_board s = KING_ID then f
          else b.black_king_bit
        white_material := b.white_material -
          piece_value (read_piece_id b.white_board capsq)
        en_passant_target_bit := et
        halfmove_clock := c_hm
        fullmove_number := c_fm
        piece_to_move := PieceColor.White } := by
  have hid8 : read_piece_id b.black_board s < 8 := read_piece_id_lt b.black_board s
  have hid7 : read_piece_id b.black_board s ≠ 7 := inv.bno7 s hs
  have hsocc : b.black_board.occupancy.testBit s = true := by
    rcases h : b.black_board.occupancy.testBit s
    · exact absurd ((read_piece_id_eq_zero_iff _ _).mpr h) hid0
    · rfl
  have hfocc : b.black_board.occupancy.testBit f = false :=
    gm_dest_empty b s (read_piece_id b.black_board s) PieceColor.Black
      (PerspectiveBoards.gen b PieceColor.Black) f
      (by rw [Nat.and_comm]; exact inv.disj) hgm
  have hfremocc : (remove_piece s b.black_board).occupancy.testBit f = false := by
    rw [occ_remove_testBit]
    by_cases h : f = s
    · rw [if_pos h]
    · rw [if_neg h]
      exact hfocc
  have hfremid : read_piece_id (remove_piece s b.black_board) f = 0 :=
    (read_piece_id_eq_zero_iff _ _).mpr hfremocc
  have hfrid : read_piece_id (insert_piece f (read_piece_id b.black_board s)
      (remove_piece s b.black_board)) f = read_piece_id b.black_board s :=
    read_insert_empty _ f _ hfremid hid8
  have hfrid_other : ∀ j, j ≠ f → j ≠ s →
      read_piece_id (insert_piece f (read_piece_id b.black_board s)
        (remove_piece s b.black_board)) j = read_piece_id b.black_board j := by
    intro j hjf hjs
    rw [read_insert_other _ _ _ _ hjf, read_remove_other _ _ _ hjs]
  have hfrid_s : s ≠ f →
      read_piece_id (insert_piece f (read_piece_id b.black_board s)
        (remove_piece s b.black_board)) s = 0 := by
    intro hsf
    rw [read_insert_other _ _ _ _ hsf, read_remove_self]
  have henid_c : read_piece_id (remove_piece capsq b.white_board) capsq = 0 :=
    read_remove_self _ _
  have henid_other : ∀ j, j ≠ capsq →
      read_piece_id (remove_piece capsq b.white_board) j = read_piece_id b.white_board j :=
    fun j hj => read_remove_other _ _ _ hj
  have hfbk : f ≠ b.white_king_bit := by
    intro heq
    have hown : (own_team_board b b.piece_to_move).occupancy.testBit s = true := by
      rw [hptm]
      exact hsocc
    have h2 := inv.no_check s hs hown
    rw [hptm] at h2
    have h3 : attacks_king b (opposite_color PieceColor.Black) s = true := by
      rw [attacks_king, bit_on]
      show ((generate_moves b s (read_piece_id b.black_board s) PieceColor.Black
        (PerspectiveBoards.gen b PieceColor.Black)).1).testBit b.white_king_bit = true
      rw [← heq]
      exact hgm
    rw [h2] at h3
    cases h3
  have hwkf : b.black_king_bit ≠ f := by
    intro heq
    have hocc : b.black_board.occupancy.testBit b.black_king_bit = true := by
      rcases h : b.black_board.occupancy.testBit b.black_king_bit
      · have := (read_piece_id_eq_zero_iff _ _).mpr h
        rw [inv.bkid] at this
        cases this
      · rfl
    rw [heq, hfocc] at hocc
    cases hocc
  have hwk_cases : ∀ hK : read_piece_id b.black_board s = KING_ID, s = b.black_king_bit := by
    intro hK
    by_contra hne
    exact inv.bkuniq s hs hne hK
  have hwkid2 : read_piece_id
      (insert_piece f (read_piece_id b.black_board s) (remove_piece s b.black_board))
      (if read_piece_id b.black_board s = KING_ID then f else b.black_king_bit) =
      KING_ID := by
    by_cases hK : read_piece_id b.black_board s = KING_ID
    · rw [if_pos hK, hfrid]
      exact hK
    · rw [if_neg hK]
      rw [hfrid_other b.black_king_bit (fun h => hwkf h) (fun h => hK (h ▸ inv.bkid))]
      exact inv.bkid
  have hwk64 : (if read_piece_id b.black_board s = KING_ID then f else b.black_king_bit) <
      64 := by
    split
    · exact hf
    · exact inv.bkb
  have hoccfr : ∀ j, (insert_piece f (read_piece_id b.black_board s)
      (remove_piece s b.black_board)).occupancy.testBit j = true →
      b.black_board.occupancy.testBit j = true ∨ j = f := by
    intro j hj
    rcases occ_insert_subset _ _ _ _ hj with h1 | h1
    · rw [occ_remove_testBit] at h1
      by_cases hjs : j = s
      · rw [if_pos hjs] at h1
        cases h1
      · rw [if_neg hjs] at h1
        exact Or.inl h1
    · exact Or.inr h1
  have hoccen : ∀ j, (remove_piece capsq b.white_board).occupancy.testBit j = true →
      b.white_board.occupancy.testBit j = true := by
    intro j hj
    rw [occ_remove_testBit] at hj
    by_cases hjc : j = capsq
    · rw [if_pos hjc] at hj
      cases hj
    · rw [if_neg hjc] at hj
      exact hj
  have hdisj2 : (insert_piece f (read_piece_id b.black_board s)
      (remove_piece s b.black_board)).occupancy &&&
      (remove_piece capsq b.white_board).occupancy = 0 := by
    refine Nat.eq_of_testBit_eq (fun j => ?_)
    rw [Nat.testBit_and, Nat.zero_testBit]
    rcases h1 : (insert_piece f (read_piece_id b.black_board s)
        (remove_piece s b.black_board)).occupancy.testBit j
    · rfl
    · rcases h2 : (remove_piece capsq b.white_board).occupancy.testBit j
      · rfl
      · rcases hoccfr j h1 with h3 | rfl
        · have h4 := hoccen j h2
          rw [and_zero_right_bit inv.disj h3] at h4
          cases h4
        · rw [hfen] at h2
          cases h2
  have hbpc2 : popcount_fuel 64 (remove_piece capsq b.white_board).occupancy ≤ 16 :=
    le_trans (popcount_mono 64 _ _ hoccen) inv.wpc
  have hwpc2 : popcount_fuel 64
      (insert_piece f (read_piece_id b.black_board s)
        (remove_piece s b.black_board)).occupancy ≤ 16 := by
    have h1 : (remove_piece s b.black_board).occupancy =
        b.black_board.occupancy ^^^ ((1 : Nat) <<< s) := by
      refine Nat.eq_of_testBit_eq (fun j => ?_)
      rw [occ_remove_testBit, Nat.testBit_xor, Nat.one_shiftLeft, Nat.testBit_two_pow]
      by_cases hjs : j = s
      · rw [if_pos hjs, hjs, hsocc]
        simp
      · rw [if_neg hjs]
        simp [show ¬ s = j from fun h => hjs h.symm]
    have h2 := popcount_clear 64 s b.black_board.occupancy hs hsocc
    have h3 : (insert_piece f (read_piece_id b.black_board s)
        (remove_piece s b.black_board)).occupancy =
        (remove_piece s b.black_board).occupancy ||| ((1 : Nat) <<< f) := by
      refine Nat.eq_of_testBit_eq (fun j => ?_)
      rw [occ_insert_testBit, Nat.testBit_or, Nat.one_shiftLeft, Nat.testBit_two_pow]
      by_cases hjf : j = f
      · rw [if_pos hjf, hjf, hfremocc]
        have hbits : ∀ n : Nat, n < 8 → n ≠ 0 →
            (n.testBit 0 || n.testBit 1 || n.testBit 2) = true := by decide
        rw [hbits _ hid8 hid0]
        simp
      · rw [if_neg hjf]
        simp [show ¬ f = j from fun h => hjf h.symm]
    rw [h3, popcount_set _ f hf hfremocc, h1]
    have h4 := inv.bpc
    omega
  constructor
  case bw0 =>
    dsimp only [insert_piece, remove_piece]
    exact set_word_lt _ _ _ hf (remove_word_lt _ _ hs inv.bw0)
  case bw1 =>
    dsimp only [insert_piece, remove_piece]
    exact set_word_lt _ _ _ hf (remove_word_lt _ _ hs inv.bw1)
  case bw2 =>
    dsimp only [insert_piece, remove_piece]
    exact set_word_lt _ _ _ hf (remove_word_lt _ _ hs inv.bw2)
  case ww0 =>
    dsimp only [remove_piece]
    exact remove_word_lt _ _ hcsq inv.ww0
  case ww1 =>
    dsimp only [remove_piece]
    exact remove_word_lt _ _ hcsq inv.ww1
  case ww2 =>
    dsimp only [remove_piece]
    exact remove_word_lt _ _ hcsq inv.ww2
  case disj =>
    rw [Nat.and_comm]
    exact hdisj2
  case bkb => exact hwk64
  case wkb => exact inv.wkb
  case bkid => exact hwkid2
  case wkid =>
    show read_piece_id (remove_piece capsq b.white_board) b.white_king_bit = KING_ID
    rw [henid_other _ (fun h => hcapk h.symm)]
    exact inv.wkid
  case bkuniq =>
    intro j hj hjk
    by_cases hK : read_piece_id b.black_board s = KING_ID
    · rw [if_pos hK] at hjk
      have hswk := hwk_cases hK
      by_cases hjs : j = s
      · subst hjs
        rw [hfrid_s (fun h => hjk h)]
        decide
      · rw [hfrid_other j hjk hjs]
        exact inv.bkuniq j hj (fun h => hjs (h.trans hswk.symm))
    · rw [if_neg hK] at hjk
      by_cases hjf : j = f
      · subst hjf
        rw [hfrid]
        exact hK
      · by_cases hjs : j = s
        · subst hjs
          rw [hfrid_s hjf]
          decide
        · rw [hfrid_other j hjf hjs]
          exact inv.bkuniq j hj hjk
  case wkuniq =>
    intro j hj hjk
    by_cases hjc : j = capsq
    · subst hjc
      rw [henid_c]
      decide
    · rw [henid_other j hjc]
      exact inv.wkuniq j hj hjk
  case bno7 =>
    intro j hj
    by_cases hjf : j = f
    · subst hjf
      rw [hfrid]
      exact hid7
    · by_cases hjs : j = s
      · subst hjs
        rw [hfrid_s hjf]
        decide
      · rw [hfrid_other j hjf hjs]
        exact inv.bno7 j hj
  case wno7 =>
    intro j hj
    by_cases hjc : j = capsq
    · subst hjc
      rw [henid_c]
      decide
    · rw [henid_other j hjc]
      exact inv.wno7 j hj
  case bmat =>
    show b.black_material = team_material (insert_piece f (read_piece_id b.black_board s)
      (remove_piece s b.black_board))
    rw [team_material_insert _ f _ hf hfremid hid8, team_material_remove _ s hs, inv.bmat]
    ring
  case wmat =>
    show b.white_material - piece_value (read_piece_id b.white_board capsq) =
      team_material (remove_piece capsq b.white_board)
    rw [team_material_remove _ capsq hcsq, inv.wmat]
  case bpc => exact hwpc2
  case wpc => exact hbpc2
  case eptb => exact het64
  case no_check =>
    intro j hj hocc
    set FR := insert_piece f (read_piece_id b.black_board s) (remove_piece s b.black_board)
      with hFR
    set EN := remove_piece capsq b.white_board with hEN
    set WK2 := (if read_piece_id b.black_board s = KING_ID then f else b.black_king_bit)
      with hWK2
    set BAM : Board := { b with
        black_board := FR
        white_board := EN
        black_king_bit := WK2
        white_material := b.white_material -
          piece_value (read_piece_id b.white_board capsq)
        en_passant_target_bit := epa
        piece_to_move := PieceColor.Black } with hBAM
    dsimp only [own_team_board, opposite_color] at hocc ⊢
    rcases hatk : attacks_king
        { b with
          black_board := FR
          white_board := EN
          black_king_bit := WK2
          white_material := b.white_material -
            piece_value (read_piece_id b.white_board capsq)
          en_passant_target_bit := et
          halfmove_clock := c_hm
          fullmove_number := c_fm
          piece_to_move := PieceColor.White }
        PieceColor.Black j with - | -
    · rfl
    · exfalso
      rw [attacks_king, bit_on] at hatk
      dsimp only [enemy_team_board, opposite_color, king_square] at hatk
      have hepX : ∀ bX : Board, ∀ t c,
          get_en_passant_capture bX
            (PerspectiveBoards.gen BAM PieceColor.White).friendly_board
            (PerspectiveBoards.gen BAM PieceColor.White).enemy_board j = some (t, c) →
          c ≠ WK2 := by
        intro bX t c hepc heq
        have h0 : read_piece_id FR c = 0 :=
          ep_landing_unoccupied bX _ _ j t c hepc
        rw [heq, hwkid2] at h0
        cases h0
      have hatk2 : ((generate_moves
          { b with
            black_board := FR
            white_board := EN
            black_king_bit := WK2
            white_material := b.white_material -
              piece_value (read_piece_id b.white_board capsq)
            en_passant_target_bit := et
            halfmove_clock := c_hm
            fullmove_number := c_fm
            piece_to_move := PieceColor.White }
          j (read_piece_id EN j) PieceColor.White
          (PerspectiveBoards.gen BAM PieceColor.White)).1).testBit WK2 = true := hatk
      have htr := gm_testBit_transfer
        { b with
          black_board := FR
          white_board := EN
          black_king_bit := WK2
          white_material := b.white_material -
            piece_value (read_piece_id b.white_board capsq)
          en_passant_target_bit := et
          halfmove_clock := c_hm
          fullmove_number := c_fm
          piece_to_move := PieceColor.White }
        BAM j (read_piece_id EN j) PieceColor.White
        (PerspectiveBoards.gen BAM PieceColor.White) WK2
        (hepX _) (hepX _)
      rw [htr] at hatk2
      have hatkB2 : attacks_king BAM PieceColor.Black j = true := by
        rw [attacks_king, bit_on]
        dsimp only [enemy_team_board, opposite_color, king_square]
        exact hatk2
      have hpot := attacker_potential_bit BAM PieceColor.Black hwk64 hwkid2 j hj hocc hatkB2
      have hloopbit : bit_on ((generate_moves BAM j
          (read_piece_id (PerspectiveBoards.gen BAM PieceColor.White).friendly_board j)
          PieceColor.White (PerspectiveBoards.gen BAM PieceColor.White)).1) WK2 = true :=
        hatk2
      by_cases hK : read_piece_id b.black_board s = KING_ID
      · rw [if_pos hK] at hchk
        have hsub : ∀ i, (potential_checking_pieces_bitboard BAM
            PieceColor.Black).testBit i = true → EN.occupancy.testBit i = true := by
          intro i hi
          rw [potential_eq_envelope, Nat.testBit_and] at hi
          exact (Bool.and_eq_true_iff.mp hi).2
        have hpc : popcount_fuel 64 (potential_checking_pieces_bitboard BAM
            PieceColor.Black) ≤ MAX_CHECKING_PIECES :=
          le_trans (popcount_mono 64 _ _ hsub) hbpc2
        have hmem : j ∈ (get_potential_checking_pieces BAM PieceColor.Black).entries := by
          rw [get_potential_checking_pieces]
          exact bits_on_complete _ _ (potential_lt _ _) hpc j hpot
        have hloop := king_check_loop_complete BAM PieceColor.White WK2
          ((get_potential_checking_pieces BAM
            PieceColor.Black).internal_array.take
            (get_potential_checking_pieces BAM PieceColor.Black).length)
          j hmem (by rw [FIXED_VECTOR_PLACEHOLDER_VALUE]; omega) hloopbit
        have hfin : is_king_in_check BAM PieceColor.Black
            (get_potential_checking_pieces BAM PieceColor.Black) = true := hloop
        rw [hfin] at hchk
        cases hchk
      · rw [if_neg hK] at hchk
        have hsubpot : ∀ i, (potential_checking_pieces_bitboard BAM
            PieceColor.Black).testBit i = true →
            (potential_checking_pieces_bitboard b PieceColor.Black).testBit i = true := by
          intro i hi
          rw [potential_eq_envelope, Nat.testBit_and] at hi
          obtain ⟨h1, h2⟩ := Bool.and_eq_true_iff.mp hi
          rw [potential_eq_envelope, Nat.testBit_and]
          refine Bool.and_eq_true_iff.mpr ⟨?_, ?_⟩
          · dsimp only [king_square] at h1 ⊢
            rw [hWK2] at h1
            rw [if_neg hK] at h1
            exact h1
          · exact hoccen i h2
        have hsub2 : ∀ i, (potential_checking_pieces_bitboard b
            PieceColor.Black).testBit i = true →
            b.white_board.occupancy.testBit i = true := by
          intro i hi
          rw [potential_eq_envelope, Nat.testBit_and] at hi
          exact (Bool.and_eq_true_iff.mp hi).2
        have hpc : popcount_fuel 64 (potential_checking_pieces_bitboard b
            PieceColor.Black) ≤ MAX_CHECKING_PIECES :=
          le_trans (popcount_mono 64 _ _ hsub2) inv.wpc
        have hmem : j ∈ (get_potential_checking_pieces b PieceColor.Black).entries := by
          rw [get_potential_checking_pieces]
          exact bits_on_complete _ _ (potential_lt _ _) hpc j (hsubpot j hpot)
        have hloop := king_check_loop_complete BAM PieceColor.White WK2
          ((get_potential_checking_pieces b
            PieceColor.Black).internal_array.take
            (get_potential_checking_pieces b PieceColor.Black).length)
          j hmem (by rw [FIXED_VECTOR_PLACEHOLDER_VALUE]; omega) hloopbit
        have hfin : is_king_in_check BAM PieceColor.Black
            (get_potential_checking_pieces b PieceColor.Black) = true := hloop
        rw [hfin] at hchk
        cases hchk

theorem white_dest_not_bk (b : Board) (inv : BoardInv b)
    (hptm : b.piece_to_move = PieceColor.White) (s f : Nat) (hs : s < 64)
    (hid0 : read_piece_id b.white_board s ≠ 0)
    (hgm : ((generate_moves b s (read_piece_id b.white_board s) PieceColor.White
      (PerspectiveBoards.gen b PieceColor.White)).1).testBit f = true) :
    f ≠ b.black_king_bit := by
  intro heq
  have hsocc : b.white_board.occupancy.testBit s = true := by
    rcases h : b.white_board.occupancy.testBit s
    · exact absurd ((read_piece_id_eq_zero_iff _ _).mpr h) hid0
    · rfl
  have hown : (own_team_board b b.piece_to_move).occupancy.testBit s = true := by
    rw [hptm]
    exact hsocc
  have h2 := inv.no_check s hs hown
  rw [hptm] at h2
  have h3 : attacks_king b (opposite_color PieceColor.White) s = true := by
    rw [attacks_king, bit_on]
    show ((generate_moves b s (read_piece_id b.white_board s) PieceColor.White
      (PerspectiveBoards.gen b PieceColor.White)).1).testBit b.black_king_bit = true
    rw [← heq]
    exact hgm
  rw [h2] at h3
  cases h3

theorem step_preserves_white (b : Board) (s f : Nat) (ouc : Bool) (b2 : Board) (v : Int)
    (inv : BoardInv b) (hptm : b.piece_to_move = PieceColor.White)
    (hs : s < 64) (hf : f < 64)
    (hid0 : read_piece_id b.white_board s ≠ 0)
    (hgm : ((generate_moves b s (read_piece_id b.white_board s) PieceColor.White
      (PerspectiveBoards.gen b PieceColor.White)).1).testBit f = true)
    (htt : take_turn b (read_piece_id b.white_board s) s f ouc
      (get_ep_bits_for_turn
        (generate_moves b s (read_piece_id b.white_board s) PieceColor.White
          (PerspectiveBoards.gen b PieceColor.White)).2.1
        (generate_moves b s (read_piece_id b.white_board s) PieceColor.White
          (PerspectiveBoards.gen b PieceColor.White)).2.2 f)
      (get_potential_checking_pieces b PieceColor.White) = Except.ok (b2, v)) :
    BoardInv b2 := by
  have hWB : (PieceColor.White = PieceColor.Black) ↔ False := by simp
  rw [take_turn] at htt
  rw [hptm] at htt
  dsimp only at htt
  simp only [eq_self_iff_true, and_true, hWB, and_false, if_false] at htt
  rw [gm_ep_eq] at htt
  generalize het : (get_ep_bits_for_turn
    (generate_moves b s (read_piece_id b.white_board s) PieceColor.White
      (PerspectiveBoards.gen b PieceColor.White)).2.1
    (get_en_passant_capture b
      (PerspectiveBoards.gen b PieceColor.White).friendly_board
      (PerspectiveBoards.gen b PieceColor.White).enemy_board s) f).1 = et at htt
  have het64 : ∀ t, et = some t → t < 64 := by
    intro t ht
    subst ht
    have h2 := ep_bits_target_inv _ _ f t het
    omega
  rcases hec : (get_ep_bits_for_turn
      (generate_moves b s (read_piece_id b.white_board s) PieceColor.White
        (PerspectiveBoards.gen b PieceColor.White)).2.1
      (get_en_passant_capture b
        (PerspectiveBoards.gen b PieceColor.White).friendly_board
        (PerspectiveBoards.gen b PieceColor.White).enemy_board s) f).2 with - | c
  · rw [hec] at htt
    dsimp only at htt
    by_cases hnc : (read_piece_id b.black_board f = 0 ∧ ouc = true)
    · rw [if_pos hnc] at htt
      exact Except.noConfusion htt
    · rw [if_neg hnc] at htt
      generalize hchk : is_king_in_check _ _ _ = chk at htt
      rcases chk with - | -
      · rw [if_neg Bool.false_ne_true] at htt
        simp only [Except.ok.injEq, Prod.mk.injEq] at htt
        obtain ⟨hb2, hv⟩ := htt
        subst hb2
        rw [capture_value_eq] at hchk ⊢
        have hfen : (remove_piece f b.black_board).occupancy.testBit f = false := by
          rw [occ_remove_testBit]
          rw [if_pos rfl]
        exact white_core b inv hptm s f f hs hf hf hid0 hgm
          (white_dest_not_bk b inv hptm s f hs hid0 hgm) hfen
          b.en_passant_target_bit et het64 _ _ hchk
      · rw [if_pos rfl] at htt
        exact Except.noConfusion htt
  · rw [hec] at htt
    dsimp only at htt
    have hcap := ep_bits_capture_inv _ _ f c hec
    have hepinv := ep_capture_inv b
      (PerspectiveBoards.gen b PieceColor.White).friendly_board
      (PerspectiveBoards.gen b PieceColor.White).enemy_board s c f hcap
    obtain ⟨hbep, hpawn, hWf0, hBf0, hcalc⟩ := hepinv
    have hc64 : c < 64 := inv.eptb c hbep
    have hpawn2 : read_piece_id b.black_board c = PAWN_ID := hpawn
    have hBf02 : read_piece_id b.black_board f = 0 := hBf0
    have hcapk : c ≠ b.black_king_bit := by
      intro h
      rw [h, inv.bkid] at hpawn2
      cases hpawn2
    have hfen : (remove_piece c b.black_board).occupancy.testBit f = false := by
      rw [occ_remove_testBit]
      by_cases hfc : f = c
      · rw [if_pos hfc]
      · rw [if_neg hfc]
        exact (read_piece_id_eq_zero_iff _ _).mp hBf02
    rw [remove_noop _ f hfen] at htt
    by_cases hnc : (read_piece_id b.black_board c = 0 ∧ ouc = true)
    · rw [if_pos hnc] at htt
      exact Except.noConfusion htt
    · rw [if_neg hnc] at htt
      generalize hchk : is_king_in_check _ _ _ = chk at htt
      rcases chk with - | -
      · rw [if_neg Bool.false_ne_true] at htt
        simp only [Except.ok.injEq, Prod.mk.injEq] at htt
        obtain ⟨hb2, hv⟩ := htt
        subst hb2
        rw [capture_value_eq] at hchk ⊢
        exact white_core b inv hptm s f c hs hf hc64 hid0 hgm hcapk hfen
          none et het64 _ _ hchk
      · rw [if_pos rfl] at htt
        exact Except.noConfusion htt

theorem black_dest_not_wk (b : Board) (inv : BoardInv b)
    (hptm : b.piece_to_move = PieceColor.Black) (s f : Nat) (hs : s < 64)
    (hid0 : read_piece_id b.black_board s ≠ 0)
    (hgm : ((generate_moves b s (read_piece_id b.black_board s) PieceColor.Black
      (PerspectiveBoards.gen b PieceColor.Black)).1).testBit f = true) :
    f ≠ b.white_king_bit := by
  intro heq
  have hsocc : b.black_board.occupancy.testBit s = true := by
    rcases h : b.black_board.occupancy.testBit s
    · exact absurd ((read_piece_id_eq_zero_iff _ _).mpr h) hid0
    · rfl
  have hown : (own_team_board b b.piece_to_move).occupancy.testBit s = true := by
    rw [hptm]
    exact hsocc
  have h2 := inv.no_check s hs hown
  rw [hptm] at h2
  have h3 : attacks_king b (opposite_color PieceColor.Black) s = true := by
    rw [attacks_king, bit_on]
    show ((generate_moves b s (read_piece_id b.black_board s) PieceColor.Black
      (PerspectiveBoards.gen b PieceColor.Black)).1).testBit b.white_king_bit = true
    rw [← heq]
    exact hgm
  rw [h2] at h3
  cases h3

theorem step_preserves_black (b : Board) (s f : Nat) (ouc : Bool) (b2 : Board) (v : Int)
    (inv : BoardInv b) (hptm : b.piece_to_move = PieceColor.Black)
    (hs : s < 64) (hf : f < 64)
    (hid0 : read_piece_id b.black_board s ≠ 0)
    (hgm : ((generate_moves b s (read_piece_id b.black_board s) PieceColor.Black
      (PerspectiveBoards.gen b PieceColor.Black)).1).testBit f = true)
    (htt : take_turn b (read_piece_id b.black_board s) s f ouc
      (get_ep_bits_for_turn
        (generate_moves b s (read_piece_id b.black_board s) PieceColor.Black
          (PerspectiveBoards.gen b PieceColor.Black)).2.1
        (generate_moves b s (read_piece_id b.black_board s) PieceColor.Black
          (PerspectiveBoards.gen b PieceColor.Black)).2.2 f)
      (get_potential_checking_pieces b PieceColor.Black) = Except.ok (b2, v)) :
    BoardInv b2 := by
  have hWB : (PieceColor.Black = PieceColor.White) ↔ False := by simp
  rw [take_turn] at htt
  rw [hptm] at htt
  dsimp only at htt
  simp only [eq_self_iff_true, and_true, hWB, and_false, if_false, if_true] at htt
  rw [gm_ep_eq] at htt
  generalize het : (get_ep_bits_for_turn
    (generate_moves b s (read_piece_id b.black_board s) PieceColor.Black
      (PerspectiveBoards.gen b PieceColor.Black)).2.1
    (get_en_passant_capture b
      (PerspectiveBoards.gen b PieceColor.Black).friendly_board
      (PerspectiveBoards.gen b PieceColor.Black).enemy_board s) f).1 = et at htt
  have het64 : ∀ t, et = some t → t < 64 := by
    intro t ht
    subst ht
    have h2 := ep_bits_target_inv _ _ f t het
    omega
  rcases hec : (get_ep_bits_for_turn
      (generate_moves b s (read_piece_id b.black_board s) PieceColor.Black
        (PerspectiveBoards.gen b PieceColor.Black)).2.1
      (get_en_passant_capture b
        (PerspectiveBoards.gen b PieceColor.Black).friendly_board
        (PerspectiveBoards.gen b PieceColor.Black).enemy_board s) f).2 with - | c
  · rw [hec] at htt
    dsimp only at htt
    by_cases hnc : (read_piece_id b.white_board f = 0 ∧ ouc = true)
    · rw [if_pos hnc] at htt
      exact Except.noConfusion htt
    · rw [if_neg hnc] at htt
      generalize hchk : is_king_in_check _ _ _ = chk at htt
      rcases chk with - | -
      · rw [if_neg Bool.false_ne_true] at htt
        simp only [Except.ok.injEq, Prod.mk.injEq] at htt
        obtain ⟨hb2, hv⟩ := htt
        subst hb2
        rw [capture_value_eq] at hchk ⊢
        have hfen : (remove_piece f b.white_board).occupancy.testBit f = false := by
          rw [occ_remove_testBit]
          rw [if_pos rfl]
        exact black_core b inv hptm s f f hs hf hf hid0 hgm
          (black_dest_not_wk b inv hptm s f hs hid0 hgm) hfen
          b.en_passant_target_bit et het64 _ _ hchk
      · rw [if_pos rfl] at htt
        exact Except.noConfusion htt
  · rw [hec] at htt
    dsimp only at htt
    have hcap := ep_bits_capture_inv _ _ f c hec
    have hepinv := ep_capture_inv b
      (PerspectiveBoards.gen b PieceColor.Black).friendly_board
      (PerspectiveBoards.gen b PieceColor.Black).enemy_board s c f hcap
    obtain ⟨hbep, hpawn, hWf0, hBf0, hcalc⟩ := hepinv
    have hc64 : c < 64 := inv.eptb c hbep
    have hpawn2 : read_piece_id b.white_board c = PAWN_ID := hpawn
    have hBf02 : read_piece_id b.white_board f = 0 := hBf0
    have hcapk : c ≠ b.white_king_bit := by
      intro h
      rw [h, inv.wkid] at hpawn2
      cases hpawn2
    have hfen : (remove_piece c b.white_board).occupancy.testBit f = false := by
      rw [occ_remove_testBit]
      by_cases hfc : f = c
      · rw [if_pos hfc]
      · rw [if_neg hfc]
        exact (read_piece_id_eq_zero_iff _ _).mp hBf02
    rw [remove_noop _ f hfen] at htt
    by_cases hnc : (read_piece_id b.white_board c = 0 ∧ ouc = true)
    · rw [if_pos hnc] at htt
      exact Except.noConfusion htt
    · rw [if_neg hnc] at htt
      generalize hchk : is_king_in_check _ _ _ = chk at htt
      rcases chk with - | -
      · rw [if_neg Bool.false_ne_true] at htt
        simp only [Except.ok.injEq, Prod.mk.injEq] at htt
        obtain ⟨hb2, hv⟩ := htt
        subst hb2
        rw [capture_value_eq] at hchk ⊢
        exact black_core b inv hptm s f c hs hf hc64 hid0 hgm hcapk hfen
          none et het64 _ _ hchk
      · rw [if_pos rfl] at htt
        exact Except.noConfusion htt

theorem reachable_inv (b : Board) (h : Reachable b) : BoardInv b := by
  induction h with
  | base => exact board_new_inv
  | step c s f ouc b2 v hr hs hf hid0 hgm htt ih =>
    rcases hptm : c.piece_to_move with - | -
    · rw [hptm] at hid0 hgm htt
      exact step_preserves_white c s f ouc b2 v ih hptm hs hf hid0 hgm htt
    · rw [hptm] at hid0 hgm htt
      exact step_preserves_black c s f ouc b2 v ih hptm hs hf hid0 hgm htt

/-- C8: Every board reachable from Board.new by take_turn calls that return
Ok, with the piece id read off the board and the destination and en passant
data drawn from generate_moves, satisfies the structural invariants: the
white and black occupancies are disjoint, each colour's cached king bit
names the unique square holding that colour's king, and each colour's
material field equals the sum of piece values over that colour's occupied
squares. -/
theorem claim_c8 (b : Board) (h : Reachable b) :
    b.white_board.occupancy &&& b.black_board.occupancy = 0 ∧
    (read_piece_id b.white_board b.white_king_bit = KING_ID ∧
      ∀ s, s < 64 → s ≠ b.white_king_bit → read_piece_id b.white_board s ≠ KING_ID) ∧
    (read_piece_id b.black_board b.black_king_bit = KING_ID ∧
      ∀ s, s < 64 → s ≠ b.black_king_bit → read_piece_id b.black_board s ≠ KING_ID) ∧
    b.white_material = team_material b.white_board ∧
    b.black_material = team_material b.black_board := by
  have inv := reachable_inv b h
  exact ⟨inv.disj, ⟨inv.wkid, inv.wkuniq⟩, ⟨inv.bkid, inv.bkuniq⟩, inv.wmat, inv.bmat⟩

theorem claim_c8_witness :
    Board.new.white_board.occupancy &&& Board.new.black_board.occupancy = 0 ∧
    (read_piece_id Board.new.white_board Board.new.white_king_bit = KING_ID ∧
      ∀ s, s < 64 → s ≠ Board.new.white_king_bit →
        read_piece_id Board.new.white_board s ≠ KING_ID) ∧
    (read_piece_id Board.new.black_board Board.new.black_king_bit = KING_ID ∧
      ∀ s, s < 64 → s ≠ Board.new.black_king_bit →
        read_piece_id Board.new.black_board s ≠ KING_ID) ∧
    Board.new.white_material = team_material Board.new.white_board ∧
    Board.new.black_material = team_material Board.new.black_board :=
  claim_c8 Board.new Reachable.base

end Chess
